import Mathlib

/-!
# Huffman file compressor (`hufmaanCoding/huffmanCoding.cpp`)

A shallow embedding of the C++ program and a verification development about it.

Modelling conventions

* A file is a `List Byte`; a `char` key and an `unsigned char` buffer are a `Byte`.
* A `HuffmanNode*` is a value of `HuffmanNode`; `null` is `nullptr`.  Dereferencing
  `nullptr`, indexing a heap array outside its allocation and using a variable that
  a failed `read` left indeterminate are undefined behaviour: the operations return
  `none` there (and the two file operations return `Outcome.undefined`).
* An `int` is an `Int` kept in the 32-bit two's-complement range by `wrapInt32`
  after every addition; `long long` counters are unbounded `Int`s (the sum of fewer
  than `2^32` `int`s cannot leave the 64-bit range).
* 4-byte integers are laid out least-significant byte first (native order of the
  usual targets); the round-trip statements do not depend on the byte order chosen.
* `std::unordered_map<char,int>` is the list of its entries in insertion order;
  the order in which a range-`for` visits them is not fixed by the language, so it
  is a parameter `order` of the two file operations.
* `std::unordered_map<char,string>` is only indexed, never iterated: it is a
  function from keys to optional codes; a code is a list of bits (`false` for the
  character `'0'`, `true` for `'1'`).
* Files are assumed to open; the messages printed on the console are not modelled
  apart from which return path is taken.
-/

namespace Huffman

/-- One byte of a file, also the value of a `char`. -/
abbrev Byte := Fin 256

/-- The value an `int` holds when the mathematical result is `z`. -/
def wrapInt32 (z : Int) : Int := (z + 2147483648) % 4294967296 - 2147483648

/-! ## Data structures -/

/-- A `HuffmanNode*`: either `nullptr` or a node with its four fields. -/
inductive HuffmanNode where
  | null : HuffmanNode
  | node (data : Byte) (frequency : Int) (left right : HuffmanNode) : HuffmanNode
  deriving DecidableEq, Repr

/-- The custom min-heap: `array` is the allocation, `capacity` its declared length. -/
structure MinHeap where
  size : Nat
  capacity : Nat
  array : List HuffmanNode
  deriving DecidableEq, Repr

/-- Contents of a `std::unordered_map<char,int>`, in insertion order. -/
abbrev FreqMap := List (Byte × Int)

/-- The order in which a range-`for` over a `std::unordered_map<char,int>` visits
the entries: some rearrangement of them, each entry visited once. -/
structure IterationOrder where
  visit : FreqMap → List (Byte × Int)
  perm : ∀ m, (visit m).Perm m

/-- Contents of a `std::unordered_map<char,string>`. -/
abbrev CodeMap := Byte → Option (List Bool)

/-- `newNode(data, frequency)`. -/
def newNode (data : Byte) (frequency : Int) : HuffmanNode :=
  .node data frequency .null .null

/-- `p->frequency`. -/
def frequencyOf : HuffmanNode → Option Int
  | .null => none
  | .node _ f _ _ => some f

/-- `createMinHeap(capacity)`; the slots are indeterminate in C++ and each is
written before it is read, they are shown as `null`. -/
def createMinHeap (capacity : Nat) : MinHeap :=
  { size := 0, capacity := capacity, array := List.replicate capacity .null }

/-- `array[i] = v`, undefined outside the allocation. -/
def storeAt (array : List HuffmanNode) (i : Nat) (v : HuffmanNode) :
    Option (List HuffmanNode) :=
  if i < array.length then some (array.set i v) else none

/-- `minHeap->array[i]->frequency`. -/
def frequencyAt (h : MinHeap) (i : Nat) : Option Int :=
  match h.array[i]? with
  | none => none
  | some p => frequencyOf p

/-- `swapHuffmanNode(&array[a], &array[b])`. -/
def swapHuffmanNode (array : List HuffmanNode) (a b : Nat) : Option (List HuffmanNode) :=
  match array[a]?, array[b]? with
  | some x, some y => some ((array.set a y).set b x)
  | _, _ => none

/-- `minHeapify(minHeap, idx)` with an explicit bound on the recursion depth. -/
def minHeapifyFuel : Nat → MinHeap → Nat → Option MinHeap
  | 0, _, _ => none
  | fuel + 1, h, idx =>
    let left := 2 * idx + 1
    let right := 2 * idx + 2
    let first : Option Nat :=
      if left < h.size then
        match frequencyAt h left, frequencyAt h idx with
        | some fl, some fs => some (if fl < fs then left else idx)
        | _, _ => none
      else some idx
    match first with
    | none => none
    | some smallest1 =>
      let second : Option Nat :=
        if right < h.size then
          match frequencyAt h right, frequencyAt h smallest1 with
          | some fr, some fs => some (if fr < fs then right else smallest1)
          | _, _ => none
        else some smallest1
      match second with
      | none => none
      | some smallest =>
        if smallest ≠ idx then
          match swapHuffmanNode h.array smallest idx with
          | none => none
          | some array =>
            minHeapifyFuel fuel { size := h.size, capacity := h.capacity, array := array }
              smallest
        else some h

/-- `minHeapify(minHeap, idx)`: every recursive call moves to a larger index below
`size`, so `size + 1` levels are enough. -/
def minHeapify (h : MinHeap) (idx : Nat) : Option MinHeap :=
  minHeapifyFuel (h.size + 1) h idx

/-- `isSizeOne(minHeap)`. -/
def isSizeOne (h : MinHeap) : Bool := h.size == 1

/-- `extractMin(minHeap)`: the node returned and the heap afterwards.  With
`size = 0` the source reads `array[-1]`. -/
def extractMin (h : MinHeap) : Option (HuffmanNode × MinHeap) :=
  match h.array[0]? with
  | none => none
  | some temp =>
    if h.size = 0 then none
    else
      match h.array[h.size - 1]? with
      | none => none
      | some last =>
        match minHeapify
            { size := h.size - 1, capacity := h.capacity, array := h.array.set 0 last } 0 with
        | none => none
        | some h2 => some (temp, h2)

/-- The `while` loop of `insertMinHeap`: returns the array and the final `i`. -/
def insertLoop : Nat → List HuffmanNode → HuffmanNode → Nat →
    Option (List HuffmanNode × Nat)
  | 0, _, _, _ => none
  | fuel + 1, array, huffmanNode, i =>
    if i = 0 then some (array, i)
    else
      match frequencyOf huffmanNode, array[(i - 1) / 2]? with
      | some f, some parent =>
        match frequencyOf parent with
        | none => none
        | some pf =>
          if f < pf then
            match storeAt array i parent with
            | none => none
            | some array2 => insertLoop fuel array2 huffmanNode ((i - 1) / 2)
          else some (array, i)
      | _, _ => none

/-- `insertMinHeap(minHeap, huffmanNode)`; `i` strictly decreases in the loop. -/
def insertMinHeap (h : MinHeap) (huffmanNode : HuffmanNode) : Option MinHeap :=
  let size := h.size + 1
  let i := size - 1
  match insertLoop (i + 1) h.array huffmanNode i with
  | none => none
  | some (array, j) =>
    match storeAt array j huffmanNode with
    | none => none
    | some array2 => some { size := size, capacity := h.capacity, array := array2 }

/-- The `for` loop of `buildMinHeap` run for `i = k - 1, ..., 0`. -/
def buildMinHeapFrom : Nat → MinHeap → Option MinHeap
  | 0, h => some h
  | k + 1, h =>
    match minHeapify h k with
    | none => none
    | some h2 => buildMinHeapFrom k h2

/-- `buildMinHeap(minHeap)`; `(n - 1) / 2` is C++ integer division, which
truncates towards zero. -/
def buildMinHeap (h : MinHeap) : Option MinHeap :=
  let n : Int := (h.size : Int) - 1
  let start : Int := Int.tdiv (n - 1) 2
  if start < 0 then some h else buildMinHeapFrom (start.toNat + 1) h

/-- `createAndBuildMinHeap(frequencies)`; the argument is the map's entries in
the order the range-`for` visits them. -/
def createAndBuildMinHeap (frequencies : List (Byte × Int)) : Option MinHeap :=
  let minHeap := createMinHeap frequencies.length
  buildMinHeap
    { size := frequencies.length
      capacity := minHeap.capacity
      array := frequencies.map (fun pair => newNode pair.1 pair.2) }

/-- The `while (!isSizeOne(minHeap))` loop of `buildHuffmanTree`. -/
def mergeLoop : Nat → MinHeap → Option MinHeap
  | 0, _ => none
  | fuel + 1, h =>
    if isSizeOne h then some h
    else
      match extractMin h with
      | none => none
      | some (left, h1) =>
        match extractMin h1 with
        | none => none
        | some (right, h2) =>
          match frequencyOf left, frequencyOf right with
          | some lf, some rf =>
            match insertMinHeap h2 (.node 0 (wrapInt32 (lf + rf)) left right) with
            | none => none
            | some h3 => mergeLoop fuel h3
          | _, _ => none

/-- `buildHuffmanTree(frequencies)`; each iteration of the loop lowers `size` by
one, so `size + 1` tests of the loop condition are enough. -/
def buildHuffmanTree (frequencies : List (Byte × Int)) : Option HuffmanNode :=
  match createAndBuildMinHeap frequencies with
  | none => none
  | some h =>
    match mergeLoop (h.size + 1) h with
    | none => none
    | some h2 =>
      match extractMin h2 with
      | none => none
      | some (root, _) => some root

/-- `generateCodes(root, code, huffmanCodes)`. -/
def generateCodes : HuffmanNode → List Bool → CodeMap → CodeMap
  | .null, _, huffmanCodes => huffmanCodes
  | .node data _ left right, code, huffmanCodes =>
    if left = .null ∧ right = .null then
      Function.update huffmanCodes data (some code)
    else
      generateCodes right (code ++ [true])
        (generateCodes left (code ++ [false]) huffmanCodes)

/-- The table `compressFile` obtains for a tree: `generateCodes(root, "", huffmanCodes)`
on a fresh map. -/
def codesOf (root : HuffmanNode) : CodeMap :=
  generateCodes root [] (fun _ => none)

/-! ## Frequency map and file layout -/

/-- `frequencies[c]++`. -/
def incrementAt : FreqMap → Byte → FreqMap
  | [], c => [(c, wrapInt32 (0 + 1))]
  | (k, v) :: rest, c =>
    if k = c then (k, wrapInt32 (v + 1)) :: rest else (k, v) :: incrementAt rest c

/-- `frequencies[character] = frequency`. -/
def assignAt : FreqMap → Byte → Int → FreqMap
  | [], c, f => [(c, f)]
  | (k, v) :: rest, c, f =>
    if k = c then (k, f) :: rest else (k, v) :: assignAt rest c f

/-- `while (inputFile.get(c)) frequencies[c]++;`. -/
def countFrequencies (input : List Byte) : FreqMap :=
  input.foldl incrementAt []

/-- The four bytes of a `uint32_t`. -/
def u32Bytes (n : Nat) : List Byte :=
  [Fin.ofNat n, Fin.ofNat (n / 256), Fin.ofNat (n / 65536), Fin.ofNat (n / 16777216)]

/-- The four bytes of an `int`. -/
def int32Bytes (z : Int) : List Byte :=
  u32Bytes (z % 4294967296).toNat

/-- The `uint32_t` stored in four bytes. -/
def u32OfBytes (b0 b1 b2 b3 : Byte) : Nat :=
  b0.val + 256 * b1.val + 65536 * b2.val + 16777216 * b3.val

/-- The `int` stored in four bytes. -/
def int32OfBytes (b0 b1 b2 b3 : Byte) : Int :=
  let u := u32OfBytes b0 b1 b2 b3
  if u < 2147483648 then (u : Int) else (u : Int) - 4294967296

/-- One (symbol, frequency) record of the header: the two `write` calls in the
body of the range-`for`. -/
def headerRecord (pair : Byte × Int) : List Byte := pair.1 :: int32Bytes pair.2

/-- The header written by `compressFile`: `mapSize`, then one (symbol, frequency)
record per entry visited. -/
def writeHeader (mapSize : Nat) (entries : List (Byte × Int)) : List Byte :=
  u32Bytes mapSize ++ entries.flatMap headerRecord

/-- State of the bit packer in `compressFile`. -/
structure BitWriter where
  buffer : Byte
  bitsWritten : Nat
  written : List Byte
  deriving DecidableEq, Repr

/-- Body of `for (char bit : code)`. -/
def putBit (w : BitWriter) (bit : Bool) : BitWriter :=
  let buffer : Byte := Fin.ofNat ((w.buffer.val <<< 1) ||| bit.toNat)
  let bitsWritten := w.bitsWritten + 1
  if bitsWritten = 8 then
    { buffer := 0, bitsWritten := 0, written := w.written ++ [buffer] }
  else
    { buffer := buffer, bitsWritten := bitsWritten, written := w.written }

/-- Body of the second `while (inputFile.get(c))` loop; indexing the code map
with an absent key yields the empty string. -/
def putSymbol (huffmanCodes : CodeMap) (w : BitWriter) (c : Byte) : BitWriter :=
  ((huffmanCodes c).getD []).foldl putBit w

/-- The final `if (bitsWritten > 0)` of `compressFile`. -/
def flushBits (w : BitWriter) : List Byte :=
  if w.bitsWritten > 0 then
    w.written ++ [Fin.ofNat (w.buffer.val <<< (8 - w.bitsWritten))]
  else w.written

/-- The payload bytes written by `compressFile`. -/
def writePayload (huffmanCodes : CodeMap) (input : List Byte) : List Byte :=
  flushBits (input.foldl (putSymbol huffmanCodes)
    { buffer := 0, bitsWritten := 0, written := [] })

/-- How a run of `compressFile` or `decompressFile` ends, with the content of the
output file. -/
inductive Outcome where
  /-- The early return for an empty input: the output file is created empty. -/
  | emptyInput : Outcome
  /-- The run reaches the final "successfully" message. -/
  | success (output : List Byte) : Outcome
  /-- The run reaches undefined behaviour. -/
  | undefined : Outcome
  deriving DecidableEq, Repr

/-- `compressFile`, from the input file's bytes. -/
def compressFile (order : IterationOrder) (input : List Byte) : Outcome :=
  let frequencies := countFrequencies input
  if frequencies = [] then .emptyInput
  else
    match buildHuffmanTree (order.visit frequencies) with
    | none => .undefined
    | some root =>
      let huffmanCodes := codesOf root
      .success (writeHeader frequencies.length (order.visit frequencies)
        ++ writePayload huffmanCodes input)

/-! ## Decoder -/

/-- The header loop of `decompressFile`: `n` records are read; a record that is
not there leaves `character` or `frequency` indeterminate. -/
def readHeader : Nat → List Byte → FreqMap → Int → Option (FreqMap × Int × List Byte)
  | 0, rest, frequencies, totalFreq => some (frequencies, totalFreq, rest)
  | n + 1, character :: b0 :: b1 :: b2 :: b3 :: rest, frequencies, totalFreq =>
    let frequency := int32OfBytes b0 b1 b2 b3
    readHeader n rest (assignAt frequencies character frequency) (totalFreq + frequency)
  | _ + 1, _, _, _ => none

/-- Variables of the decoding loop. -/
structure DecodeState where
  currentNode : HuffmanNode
  decodedChars : Int
  output : List Byte
  deriving DecidableEq, Repr

/-- Bits `7, 6, ..., 0` of the byte read. -/
def bitsOfByte (buffer : Byte) : List Bool :=
  [7, 6, 5, 4, 3, 2, 1, 0].map (fun i => (buffer.val >>> i) &&& 1 ≠ 0)

/-- One pass through the body of `for (int i = 7; i >= 0; --i)` after the
`break` test. -/
def decodeStep (root : HuffmanNode) (st : DecodeState) (bit : Bool) : Option DecodeState :=
  match st.currentNode with
  | .null => none
  | .node _ _ left right =>
    match (if bit then right else left) with
    | .null => none
    | .node data f l r =>
      if l = .null ∧ r = .null then
        some { currentNode := root, decodedChars := st.decodedChars + 1,
               output := st.output ++ [data] }
      else
        some { currentNode := .node data f l r, decodedChars := st.decodedChars,
               output := st.output }

/-- The inner `for` loop over the bits of one byte, with its `break`. -/
def decodeBits (root : HuffmanNode) (totalFreq : Int) :
    List Bool → DecodeState → Option DecodeState
  | [], st => some st
  | bit :: bits, st =>
    if st.decodedChars = totalFreq then some st
    else
      match decodeStep root st bit with
      | none => none
      | some st2 => decodeBits root totalFreq bits st2

/-- The outer `while (inputFile.read(&buffer, 1))` loop. -/
def decodeBytes (root : HuffmanNode) (totalFreq : Int) :
    List Byte → DecodeState → Option DecodeState
  | [], st => some st
  | buffer :: rest, st =>
    match decodeBits root totalFreq (bitsOfByte buffer) st with
    | none => none
    | some st2 => decodeBytes root totalFreq rest st2

/-- Lines 285-303 of `decompressFile` after the `gcount() == 0` test: `mapSize`
is read, then the header loop runs.  The result is the map, `totalFreq` and the
bytes not yet read; `none` when `mapSize` or a record is cut short. -/
def readFrequencies (file : List Byte) : Option (FreqMap × Int × List Byte) :=
  match file with
  | b0 :: b1 :: b2 :: b3 :: rest => readHeader (u32OfBytes b0 b1 b2 b3) rest [] 0
  | _ => none

/-- `decompressFile`, from the input file's bytes.  `gcount() == 0` holds
exactly for the empty file; with one to three bytes `mapSize` is partly
indeterminate. -/
def decompressFile (order : IterationOrder) (file : List Byte) : Outcome :=
  match file with
  | [] => .emptyInput
  | _ :: _ =>
    match readFrequencies file with
    | none => .undefined
    | some (frequencies, totalFreq, payload) =>
      match buildHuffmanTree (order.visit frequencies) with
      | none => .undefined
      | some root =>
        match decodeBytes root totalFreq payload
            { currentNode := root, decodedChars := 0, output := [] } with
        | none => .undefined
        | some st => .success st.output

/-- The bytes of the output file after a run, when the run is defined. -/
def Outcome.file : Outcome → Option (List Byte)
  | .emptyInput => some []
  | .success output => some output
  | .undefined => none

/-! ## Notions used in the statements -/

/-- The nodes the heap currently holds: the first `size` slots of the array. -/
def MinHeap.contents (h : MinHeap) : List HuffmanNode := h.array.take h.size

/-- The live part of the heap lies inside the allocation and holds no null pointer. -/
def MinHeap.Valid (h : MinHeap) : Prop :=
  h.size ≤ h.array.length ∧ ∀ p ∈ h.contents, p ≠ HuffmanNode.null

/-- A non-null tree in which every node has either no child or two children. -/
def Proper : HuffmanNode → Prop
  | .null => False
  | .node _ _ l r => (l = .null ∧ r = .null) ∨ (Proper l ∧ Proper r)

/-- The (symbol, frequency) records at the leaves, left to right. -/
def leafPairs : HuffmanNode → List (Byte × Int)
  | .null => []
  | .node d f l r =>
    if l = .null ∧ r = .null then [(d, f)] else leafPairs l ++ leafPairs r

/-- `PathTo t x c`: following `c` from the root of `t` (`false` to the left child,
`true` to the right child) ends on a leaf holding the symbol `x`. -/
inductive PathTo : HuffmanNode → Byte → List Bool → Prop
  | leaf (d : Byte) (f : Int) : PathTo (.node d f .null .null) d []
  | left (d : Byte) (f : Int) (l r : HuffmanNode) (x : Byte) (c : List Bool) :
      ¬(l = .null ∧ r = .null) → PathTo l x c → PathTo (.node d f l r) x (false :: c)
  | right (d : Byte) (f : Int) (l r : HuffmanNode) (x : Byte) (c : List Bool) :
      ¬(l = .null ∧ r = .null) → PathTo r x c → PathTo (.node d f l r) x (true :: c)

/-- Entries are visited in insertion order. -/
def insertionOrder : IterationOrder := ⟨id, fun _ => List.Perm.refl _⟩

/-- Entries are visited in reverse insertion order (what a chained hash table that
links each new node at the head of its list does in the absence of collisions). -/
def reverseOrder : IterationOrder := ⟨List.reverse, fun m => List.reverse_perm m⟩

/-- The bits shifted into `buffer` and not yet written out. -/
def BitWriter.pending (w : BitWriter) : List Bool :=
  (bitsOfByte w.buffer).drop (8 - w.bitsWritten)

/-- Every bit the writer has received so far, in order. -/
def BitWriter.stream (w : BitWriter) : List Bool :=
  w.written.flatMap bitsOfByte ++ w.pending

/-- Fewer than eight bits are pending and `buffer` holds nothing else. -/
def BitWriter.Ok (w : BitWriter) : Prop :=
  w.bitsWritten < 8 ∧ w.buffer.val < 2 ^ w.bitsWritten

/-- The bit string written for an input: the codes of its bytes, concatenated. -/
def codeBits (huffmanCodes : CodeMap) (input : List Byte) : List Bool :=
  input.flatMap (fun s => (huffmanCodes s).getD [])

/-- The value a frequency map holds for a key (`0` when the key is absent). -/
def valueAt : FreqMap → Byte → Int
  | [], _ => 0
  | (k, v) :: rest, c => if k = c then v else valueAt rest c

/-- The value lies in the range of an `int`. -/
def InInt32 (z : Int) : Prop := -2147483648 ≤ z ∧ z < 2147483648

/-- The decoder's variables when its loop starts. -/
def initialState (root : HuffmanNode) : DecodeState :=
  { currentNode := root, decodedChars := 0, output := [] }

/-- The `frequency` field of the node in slot `i` (`0` for a slot that holds no node). -/
def keyAt (array : List HuffmanNode) (i : Nat) : Int :=
  match array[i]? with
  | some (.node _ f _ _) => f
  | _ => 0

/-- Min-heap order on the first `n` slots, for the slots whose parent index is at
least `lo`: `array[(j-1)/2].frequency <= array[j].frequency`. -/
def OrderedFrom (lo : Nat) (array : List HuffmanNode) (n : Nat) : Prop :=
  ∀ j, 0 < j → j < n → lo ≤ (j - 1) / 2 → keyAt array ((j - 1) / 2) ≤ keyAt array j

/-- Min-heap order of the heap: every live slot but the first is at least its parent. -/
def MinHeap.Ordered (h : MinHeap) : Prop := OrderedFrom 0 h.array h.size

/-- Min-heap order up to the slot `idx` that `minHeapify` is about to repair: every
parent-child pair whose parent is not `idx` is in order, and the children of `idx`
are at least the parent of `idx`. -/
def OrderedExcept (lo idx : Nat) (array : List HuffmanNode) (n : Nat) : Prop :=
  (∀ j, 0 < j → j < n → lo ≤ (j - 1) / 2 → (j - 1) / 2 ≠ idx →
    keyAt array ((j - 1) / 2) ≤ keyAt array j) ∧
  (∀ j, 0 < j → j < n → (j - 1) / 2 = idx → 0 < idx → lo ≤ (idx - 1) / 2 →
    keyAt array ((idx - 1) / 2) ≤ keyAt array j)

/-- Min-heap order around the free slot `i` of `insertMinHeap`'s loop, for a new
node of frequency `f`: pairs that do not involve slot `i` are in order, and the
children of slot `i` are at least `f` and at least the parent of slot `i`. -/
def OrderedHole (f : Int) (i : Nat) (array : List HuffmanNode) (n : Nat) : Prop :=
  (∀ j, 0 < j → j < n → j ≠ i → (j - 1) / 2 ≠ i →
    keyAt array ((j - 1) / 2) ≤ keyAt array j) ∧
  (∀ j, 0 < j → j < n → (j - 1) / 2 = i → f ≤ keyAt array j) ∧
  (∀ j, 0 < j → j < n → (j - 1) / 2 = i → 0 < i →
    keyAt array ((i - 1) / 2) ≤ keyAt array j)

/-- The index `minHeapify` picks: the smallest of `idx` and its children in range. -/
def smallestOf (h : MinHeap) (idx : Nat) : Nat :=
  let s1 := if 2 * idx + 1 < h.size ∧ keyAt h.array (2 * idx + 1) < keyAt h.array idx
    then 2 * idx + 1 else idx
  if 2 * idx + 2 < h.size ∧ keyAt h.array (2 * idx + 2) < keyAt h.array s1
    then 2 * idx + 2 else s1

/-- The body of the `while (!isSizeOne(minHeap))` loop of `buildHuffmanTree`. -/
def mergeStep (h : MinHeap) : Option MinHeap :=
  match extractMin h with
  | none => none
  | some (left, h1) =>
    match extractMin h1 with
    | none => none
    | some (right, h2) =>
      match frequencyOf left, frequencyOf right with
      | some lf, some rf =>
        insertMinHeap h2 (.node 0 (wrapInt32 (lf + rf)) left right)
      | _, _ => none

/-- The loop body run `n` times. -/
def mergeSteps : Nat → MinHeap → Option MinHeap
  | 0, h => some h
  | n + 1, h =>
    match mergeStep h with
    | none => none
    | some h2 => mergeSteps n h2

/-- `GreedyRun forest root`: `root` is what remains when, as long as `forest` holds
more than one tree, a tree `left` of least frequency and a tree `right` of least
frequency among the others are replaced by the node `top` of `buildHuffmanTree`
(frequency `left->frequency + right->frequency` as an `int`, children `left` and
`right`). -/
inductive GreedyRun : List HuffmanNode → HuffmanNode → Prop
  | done (t : HuffmanNode) : GreedyRun [t] t
  | step (forest rest : List HuffmanNode) (left right root : HuffmanNode) (lf rf : Int) :
      forest.Perm (left :: right :: rest) →
      frequencyOf left = some lf → frequencyOf right = some rf →
      (∀ t ∈ right :: rest, ∃ f, frequencyOf t = some f ∧ lf ≤ f) →
      (∀ t ∈ rest, ∃ f, frequencyOf t = some f ∧ rf ≤ f) →
      GreedyRun (HuffmanNode.node 0 (wrapInt32 (lf + rf)) left right :: rest) root →
      GreedyRun forest root

/-- The min-heap order as the source reads it: for every `0 < i < size`,
`array[(i-1)/2]->frequency <= array[i]->frequency`, both slots holding a node. -/
def MinHeap.HeapOrder (h : MinHeap) : Prop :=
  ∀ i, 0 < i → i < h.size →
    ∃ fp fi, frequencyAt h ((i - 1) / 2) = some fp ∧ frequencyAt h i = some fi ∧ fp ≤ fi

/-- Number of nodes that have a child. -/
def internalCount : HuffmanNode → Nat
  | .null => 0
  | .node _ _ l r =>
    if l = .null ∧ r = .null then 0 else 1 + internalCount l + internalCount r

/-- The node reached from `t` along the edges `c` (`false`: left child, `true`: right
child); `null` when a child is missing on the way. -/
def followPath : HuffmanNode → List Bool → HuffmanNode
  | t, [] => t
  | .null, _ :: _ => .null
  | .node _ _ l r, b :: c => followPath (if b then r else l) c

/-- A depth assignment: a list of (weight, depth) pairs. -/
abbrev Profile := List (Int × Nat)

/-- Weighted depth of a depth assignment: the sum of weight times depth. -/
def profileCost (p : Profile) : Int := (p.map (fun e => e.1 * (e.2 : Int))).sum

/-- Kraft sum of a depth assignment scaled by `2 ^ D`. -/
def kraft (D : Nat) (p : Profile) : Nat := (p.map (fun e => 2 ^ (D - e.2))).sum

/-- The depths are those of the leaves of a binary tree in which every node has no
child or two: the Kraft sum is exactly one. -/
def KraftOK (p : Profile) : Prop := ∃ D, (∀ e ∈ p, e.2 ≤ D) ∧ kraft D p = 2 ^ D

/-- The (frequency, depth) pairs of the leaves of a tree whose root is at depth `d`. -/
def depthProfile : HuffmanNode → Nat → Profile
  | .null, _ => []
  | .node _ f l r, d =>
    if l = .null ∧ r = .null then [(f, d)]
    else depthProfile l (d + 1) ++ depthProfile r (d + 1)

/-- Weighted leaf depth of a tree: the sum over its leaves of frequency times depth. -/
def treeCost (t : HuffmanNode) : Int := profileCost (depthProfile t 0)

/-- Sum of the frequencies at the leaves. -/
def leafSum (t : HuffmanNode) : Int := ((leafPairs t).map Prod.snd).sum

/-- Every node with a child has two children, its frequency is the sum of theirs,
and the left child's frequency is at most the right child's. -/
def NodeInvariant : HuffmanNode → Prop
  | .null => False
  | .node _ f l r =>
    (l = .null ∧ r = .null) ∨
    (∃ fl fr, frequencyOf l = some fl ∧ frequencyOf r = some fr ∧ f = fl + fr ∧ fl ≤ fr ∧
      NodeInvariant l ∧ NodeInvariant r)

/-- The leaves of a tree, left to right, each with its symbol, its frequency and the
edges from the root to it (`false`: left child, `true`: right child). -/
def leafPaths : HuffmanNode → List (Byte × Int × List Bool)
  | .null => []
  | .node d f l r =>
    if l = .null ∧ r = .null then [(d, f, [])]
    else (leafPaths l).map (fun e => (e.1, e.2.1, false :: e.2.2)) ++
      (leafPaths r).map (fun e => (e.1, e.2.1, true :: e.2.2))

/-- Sum over the table's entries of frequency times the length of the symbol's code. -/
def weightedLength (huffmanCodes : CodeMap) (frequencies : List (Byte × Int)) : Int :=
  (frequencies.map (fun e => e.2 * (((huffmanCodes e.1).getD []).length : Int))).sum

/-- The tree without its nodes that have exactly one child: such a node is replaced by
that child's subtree. -/
def contract : HuffmanNode → HuffmanNode
  | .null => .null
  | .node d f l r =>
    if l = .null ∧ r = .null then .node d f .null .null
    else if contract l = .null then contract r
    else if contract r = .null then contract l
    else .node d f (contract l) (contract r)

theorem perm_swap_set {α : Type} [DecidableEq α] (l : List α) (a b : Nat)
    (ha : a < l.length) (hb : b < l.length) :
    ((l.set a l[b]).set b l[a]).Perm l := by
  rw [List.perm_iff_count]
  intro x
  have hb2 : b < (l.set a l[b]).length := by simpa using hb
  rw [List.count_set _ _ _ _ hb2, List.count_set _ _ _ _ ha]
  have h1 := List.boole_getElem_le_count x l a ha
  have h2 : (l.set a l[b])[b] = l[b] := by
    rw [List.getElem_set]; split <;> rfl
  rw [h2]
  split <;> split <;> simp_all

theorem contents_nonnull_at (h : MinHeap) (hv : h.Valid) (i : Nat) (hi : i < h.size) :
    ∃ d f l r, h.array[i]? = some (HuffmanNode.node d f l r) := by
  have hlen : i < h.array.length := lt_of_lt_of_le hi hv.1
  have hmem : h.array[i] ∈ h.contents := by
    unfold MinHeap.contents
    rw [List.mem_take_iff_getElem]
    exact ⟨i, by simp; omega, rfl⟩
  have hne := hv.2 _ hmem
  rw [List.getElem?_eq_getElem hlen]
  cases hx : h.array[i] with
  | null => exact absurd hx hne
  | node d f l r => exact ⟨d, f, l, r, rfl⟩

theorem frequencyAt_of_valid (h : MinHeap) (hv : h.Valid) (i : Nat) (hi : i < h.size) :
    ∃ f, frequencyAt h i = some f := by
  obtain ⟨d, f, l, r, hx⟩ := contents_nonnull_at h hv i hi
  exact ⟨f, by simp [frequencyAt, hx, frequencyOf]⟩

theorem swapHuffmanNode_spec (array : List HuffmanNode) (a b n : Nat)
    (ha : a < n) (hb : b < n) (hn : n ≤ array.length) :
    ∃ array2, swapHuffmanNode array a b = some array2 ∧ array2.length = array.length ∧
      (array2.take n).Perm (array.take n) := by
  have ha2 : a < array.length := by omega
  have hb2 : b < array.length := by omega
  refine ⟨(array.set a array[b]).set b array[a], ?_, by simp, ?_⟩
  · simp [swapHuffmanNode, List.getElem?_eq_getElem ha2, List.getElem?_eq_getElem hb2]
  · rw [List.set_take, List.set_take]
    have h1 : a < (array.take n).length := by simp; omega
    have h2 : b < (array.take n).length := by simp; omega
    have := perm_swap_set (array.take n) a b h1 h2
    simpa using this

theorem minHeapifyFuel_spec : ∀ (fuel : Nat) (h : MinHeap) (idx : Nat), h.Valid →
    1 ≤ fuel → h.size ≤ fuel + idx →
    ∃ h2, minHeapifyFuel fuel h idx = some h2 ∧ h2.size = h.size ∧
      h2.capacity = h.capacity ∧ h2.array.length = h.array.length ∧
      h2.contents.Perm h.contents := by
  intro fuel
  induction fuel with
  | zero => intro h idx _ h1 _; omega
  | succ fuel ih =>
    intro h idx hv _ hfuel
    -- the index chosen after the first comparison
    have hfirst : ∃ s1, (if 2 * idx + 1 < h.size then
        match frequencyAt h (2 * idx + 1), frequencyAt h idx with
        | some fl, some fs => some (if fl < fs then 2 * idx + 1 else idx)
        | _, _ => none
      else some idx) = some s1 ∧ (s1 = idx ∨ (idx < s1 ∧ s1 < h.size)) := by
      by_cases hl : 2 * idx + 1 < h.size
      · obtain ⟨fl, hfl⟩ := frequencyAt_of_valid h hv (2 * idx + 1) hl
        obtain ⟨fs, hfs⟩ := frequencyAt_of_valid h hv idx (by omega)
        simp only [hl, if_true, hfl, hfs]
        by_cases hc : fl < fs
        · exact ⟨2 * idx + 1, by simp [hc], Or.inr ⟨by omega, hl⟩⟩
        · exact ⟨idx, by simp [hc], Or.inl rfl⟩
      · exact ⟨idx, by simp [hl], Or.inl rfl⟩
    obtain ⟨s1, hs1, hs1b⟩ := hfirst
    have hs1lt : 2 * idx + 2 < h.size → s1 < h.size := by
      intro hr; rcases hs1b with h1 | h1 <;> omega
    have hsecond : ∃ s, (if 2 * idx + 2 < h.size then
        match frequencyAt h (2 * idx + 2), frequencyAt h s1 with
        | some fr, some fs => some (if fr < fs then 2 * idx + 2 else s1)
        | _, _ => none
      else some s1) = some s ∧ (s = idx ∨ (idx < s ∧ s < h.size)) := by
      by_cases hr : 2 * idx + 2 < h.size
      · obtain ⟨fr, hfr⟩ := frequencyAt_of_valid h hv (2 * idx + 2) hr
        obtain ⟨fs, hfs⟩ := frequencyAt_of_valid h hv s1 (hs1lt hr)
        simp only [hr, if_true, hfr, hfs]
        by_cases hc : fr < fs
        · exact ⟨2 * idx + 2, by simp [hc], Or.inr ⟨by omega, hr⟩⟩
        · exact ⟨s1, by simp [hc], hs1b⟩
      · exact ⟨s1, by simp [hr], hs1b⟩
    obtain ⟨s, hs, hsb⟩ := hsecond
    simp only [minHeapifyFuel, hs1, hs]
    by_cases hsi : s = idx
    · subst hsi
      exact ⟨h, by simp, rfl, rfl, rfl, List.Perm.refl _⟩
    · have hsr : idx < s ∧ s < h.size := by
        rcases hsb with h1 | h1
        · exact absurd h1 hsi
        · exact h1
      obtain ⟨arr, harr, hlen, hperm⟩ :=
        swapHuffmanNode_spec h.array s idx h.size hsr.2 (by omega) hv.1
      have hv2 : MinHeap.Valid { size := h.size, capacity := h.capacity, array := arr } := by
        refine ⟨by simp [hlen]; exact hv.1, ?_⟩
        intro p hp
        exact hv.2 p (hperm.subset hp)
      obtain ⟨h2, e1, e2, e3, e4, e5⟩ :=
        ih { size := h.size, capacity := h.capacity, array := arr } s hv2
          (by simp at *; omega) (by simp at *; omega)
      refine ⟨h2, ?_, e2, e3, ?_, ?_⟩
      · simp [hsi, harr, e1]
      · simpa [hlen] using e4
      · exact e5.trans hperm

theorem minHeapify_spec (h : MinHeap) (idx : Nat) (hv : h.Valid) :
    ∃ h2, minHeapify h idx = some h2 ∧ h2.size = h.size ∧
      h2.capacity = h.capacity ∧ h2.array.length = h.array.length ∧
      h2.contents.Perm h.contents :=
  minHeapifyFuel_spec (h.size + 1) h idx hv (by omega) (by omega)

theorem valid_of_perm (h h2 : MinHeap) (hv : h.Valid) (hs : h2.size = h.size)
    (hl : h2.array.length = h.array.length) (hp : h2.contents.Perm h.contents) :
    h2.Valid :=
  ⟨by rw [hs, hl]; exact hv.1, fun p hp2 => hv.2 p (hp.subset hp2)⟩

theorem take_pred_set_zero_perm {α : Type} (l : List α) (n : Nat) (hn : 1 ≤ n)
    (hl : n ≤ l.length) (temp last : α) (h0 : l[0]? = some temp)
    (h1 : l[n - 1]? = some last) :
    (temp :: (l.set 0 last).take (n - 1)).Perm (l.take n) := by
  obtain ⟨m, rfl⟩ : ∃ m, n = m + 1 := ⟨n - 1, by omega⟩
  simp only [Nat.add_sub_cancel] at *
  have hm : m < l.length := by omega
  rw [List.getElem?_eq_getElem hm] at h1
  have hlast : l[m] = last := by simpa using h1
  rw [← List.take_concat_get l m hm, hlast, List.set_take]
  cases hT : l.take m with
  | nil => 
    have : m = 0 := by
      have h3 : (l.take m).length = 0 := by rw [hT]; rfl
      rw [List.length_take] at h3
      omega
    subst this
    have : l[0] = temp := by
      rw [List.getElem?_eq_getElem hm] at h0; simpa using h0
    simp [← hlast, this]
  | cons a T =>
    have ha : a = temp := by
      have h2 : (l.take m)[0]? = some a := by rw [hT]; simp
      rw [List.getElem?_take] at h2
      have hm0 : 0 < m := by
        rcases Nat.eq_zero_or_pos m with h | h
        · subst h; simp at hT
        · exact h
      simp [hm0] at h2
      rw [h0] at h2
      simpa using h2.symm
    subst ha
    simp only [List.set_cons_zero, List.concat_eq_append, List.cons_append]
    exact List.Perm.cons _ (List.perm_append_singleton last T).symm

theorem extractMin_spec (h : MinHeap) (hv : h.Valid) (hs : 1 ≤ h.size) :
    ∃ temp h2, extractMin h = some (temp, h2) ∧ h.array[0]? = some temp ∧
      h2.size = h.size - 1 ∧ h2.capacity = h.capacity ∧
      h2.array.length = h.array.length ∧ (temp :: h2.contents).Perm h.contents := by
  have hl := hv.1
  have h0 : 0 < h.array.length := by omega
  have h1 : h.size - 1 < h.array.length := by omega
  have hperm := take_pred_set_zero_perm h.array h.size hs hl h.array[0] h.array[h.size - 1]
    (List.getElem?_eq_getElem h0) (List.getElem?_eq_getElem h1)
  have hv1 : MinHeap.Valid
      { size := h.size - 1, capacity := h.capacity,
        array := h.array.set 0 h.array[h.size - 1] } := by
    refine ⟨by simp; omega, ?_⟩
    intro p hp
    exact hv.2 p (hperm.subset (List.mem_cons_of_mem _ hp))
  obtain ⟨h2, e1, e2, e3, e4, e5⟩ := minHeapify_spec _ 0 hv1
  refine ⟨h.array[0], h2, ?_, List.getElem?_eq_getElem h0, e2, e3, by simpa using e4, ?_⟩
  · have hne : h.size ≠ 0 := by omega
    simp [extractMin, List.getElem?_eq_getElem h0, List.getElem?_eq_getElem h1, hne, e1]
  · exact (List.Perm.cons _ e5).trans hperm

theorem insertLoop_spec (nd : HuffmanNode) (hnd : nd ≠ HuffmanNode.null) (n : Nat) :
    ∀ (fuel : Nat) (array : List HuffmanNode) (i : Nat), i < n → n ≤ array.length →
      i < fuel → (∀ p ∈ (array.take n).set i nd, p ≠ HuffmanNode.null) →
      ∃ array2 j, insertLoop fuel array nd i = some (array2, j) ∧ j < n ∧
        array2.length = array.length ∧
        ((array2.take n).set j nd).Perm ((array.take n).set i nd) := by
  intro fuel
  induction fuel with
  | zero => intro array i _ _ h; omega
  | succ fuel ih =>
    intro array i hin hn hfuel hnn
    by_cases hi : i = 0
    · subst hi
      exact ⟨array, 0, by simp [insertLoop], hin, rfl, List.Perm.refl _⟩
    · obtain ⟨d, f, l, r, rfl⟩ : ∃ d f l r, nd = HuffmanNode.node d f l r := by
        cases nd with
        | null => exact absurd rfl hnd
        | node d f l r => exact ⟨d, f, l, r, rfl⟩
      have hp : (i - 1) / 2 < i := by omega
      have hpl : (i - 1) / 2 < array.length := by omega
      have hpt : (i - 1) / 2 < ((array.take n).set i (HuffmanNode.node d f l r)).length := by
        simp; omega
      have hit : i < ((array.take n).set i (HuffmanNode.node d f l r)).length := by
        simp; omega
      have hpar : ((array.take n).set i (HuffmanNode.node d f l r))[(i - 1) / 2]
          = array[(i - 1) / 2] := by
        rw [List.getElem_set_ne (by omega)]; simp
      have hparnn : array[(i - 1) / 2] ≠ HuffmanNode.null := by
        rw [← hpar]; exact hnn _ (List.getElem_mem _)
      obtain ⟨pd, pf, pl, pr, hpe⟩ : ∃ pd pf pl pr,
          array[(i - 1) / 2] = HuffmanNode.node pd pf pl pr := by
        cases hx : array[(i - 1) / 2] with
        | null => exact absurd hx hparnn
        | node d f l r => exact ⟨d, f, l, r, rfl⟩
      by_cases hc : f < pf
      · have hil : i < array.length := by omega
        have hswap := perm_swap_set ((array.take n).set i (HuffmanNode.node d f l r))
          i ((i - 1) / 2) hit hpt
        have hset : (((array.take n).set i (HuffmanNode.node d f l r)).set i
            ((array.take n).set i (HuffmanNode.node d f l r))[(i - 1) / 2]).set ((i - 1) / 2)
            ((array.take n).set i (HuffmanNode.node d f l r))[i]
            = (((array.set i array[(i - 1) / 2]).take n).set ((i - 1) / 2)
              (HuffmanNode.node d f l r)) := by
          rw [hpar, List.set_set, List.getElem_set_self, List.set_take]
        rw [hset] at hswap
        obtain ⟨array2, j, e1, e2, e3, e4⟩ :=
          ih (array.set i array[(i - 1) / 2]) ((i - 1) / 2) (by omega) (by simpa using hn)
            (by omega) (fun p hp2 => hnn p (hswap.subset hp2))
        refine ⟨array2, j, ?_, e2, by simpa using e3, e4.trans hswap⟩
        simp [insertLoop, hi, frequencyOf, List.getElem?_eq_getElem hpl, hpe, hc, storeAt,
          hil]
        rw [← hpe]; exact e1
      · refine ⟨array, i, ?_, hin, rfl, List.Perm.refl _⟩
        simp [insertLoop, hi, frequencyOf, List.getElem?_eq_getElem hpl, hpe, hc]

theorem insertMinHeap_spec (h : MinHeap) (nd : HuffmanNode) (hv : h.Valid)
    (hs : h.size < h.array.length) (hnd : nd ≠ HuffmanNode.null) :
    ∃ h2, insertMinHeap h nd = some h2 ∧ h2.size = h.size + 1 ∧
      h2.capacity = h.capacity ∧ h2.array.length = h.array.length ∧
      h2.contents.Perm (nd :: h.contents) := by
  have hstart : (h.array.take (h.size + 1)).set h.size nd = h.contents ++ [nd] := by
    unfold MinHeap.contents
    rw [← List.set_take, List.take_succ, List.set_take (n := h.size),
      List.set_eq_of_length_le (by simp)]
    simp [List.getElem?_set_self hs]
  have hnn : ∀ p ∈ (h.array.take (h.size + 1)).set h.size nd, p ≠ HuffmanNode.null := by
    rw [hstart]
    intro p hp
    rcases List.mem_append.1 hp with hp | hp
    · exact hv.2 p hp
    · simp at hp; subst hp; exact hnd
  obtain ⟨array2, j, e1, e2, e3, e4⟩ :=
    insertLoop_spec nd hnd (h.size + 1) (h.size + 1) h.array h.size (by omega) (by omega)
      (by omega) hnn
  have hj : j < array2.length := by omega
  refine ⟨{ size := h.size + 1, capacity := h.capacity, array := array2.set j nd },
    ?_, rfl, rfl, by simpa using e3, ?_⟩
  · simp [insertMinHeap, e1, storeAt, hj]
  · unfold MinHeap.contents
    simp only
    rw [List.set_take]
    refine e4.trans ?_
    rw [hstart]
    exact List.perm_append_singleton nd _

theorem buildMinHeapFrom_spec : ∀ (k : Nat) (h : MinHeap), h.Valid →
    ∃ h2, buildMinHeapFrom k h = some h2 ∧ h2.size = h.size ∧
      h2.capacity = h.capacity ∧ h2.array.length = h.array.length ∧
      h2.contents.Perm h.contents := by
  intro k
  induction k with
  | zero => intro h _; exact ⟨h, rfl, rfl, rfl, rfl, List.Perm.refl _⟩
  | succ k ih =>
    intro h hv
    obtain ⟨h1, e1, e2, e3, e4, e5⟩ := minHeapify_spec h k hv
    obtain ⟨h2, f1, f2, f3, f4, f5⟩ := ih h1 (valid_of_perm h h1 hv e2 e4 e5)
    exact ⟨h2, by simp [buildMinHeapFrom, e1, f1], f2.trans e2, f3.trans e3, f4.trans e4,
      f5.trans e5⟩

theorem buildMinHeap_spec (h : MinHeap) (hv : h.Valid) :
    ∃ h2, buildMinHeap h = some h2 ∧ h2.size = h.size ∧
      h2.capacity = h.capacity ∧ h2.array.length = h.array.length ∧
      h2.contents.Perm h.contents := by
  unfold buildMinHeap
  simp only
  split
  · exact ⟨h, rfl, rfl, rfl, rfl, List.Perm.refl _⟩
  · exact buildMinHeapFrom_spec _ h hv

theorem createAndBuildMinHeap_spec (frequencies : List (Byte × Int)) :
    ∃ h, createAndBuildMinHeap frequencies = some h ∧ h.Valid ∧
      h.size = frequencies.length ∧ h.capacity = frequencies.length ∧
      h.array.length = frequencies.length ∧
      h.contents.Perm (frequencies.map (fun pair => newNode pair.1 pair.2)) := by
  have hv : MinHeap.Valid
      { size := frequencies.length, capacity := frequencies.length,
        array := frequencies.map (fun pair => newNode pair.1 pair.2) } := by
    refine ⟨by simp, ?_⟩
    intro p hp
    have hp2 := List.mem_of_mem_take hp
    simp only [List.mem_map] at hp2
    obtain ⟨pair, _, rfl⟩ := hp2
    simp [newNode]
  obtain ⟨h2, e1, e2, e3, e4, e5⟩ := buildMinHeap_spec _ hv
  refine ⟨h2, e1, valid_of_perm _ h2 hv e2 e4 e5, e2, e3, by simpa using e4, ?_⟩
  refine e5.trans ?_
  have : List.take frequencies.length
      (List.map (fun pair : Byte × Int => newNode pair.1 pair.2) frequencies)
      = List.map (fun pair => newNode pair.1 pair.2) frequencies :=
    List.take_of_length_le (by simp)
  simp only [MinHeap.contents, this]
  exact List.Perm.refl _

theorem mergeLoop_spec (P : HuffmanNode → Prop)
    (hnull : ∀ t, P t → t ≠ HuffmanNode.null)
    (hmerge : ∀ l r lf rf, P l → P r → frequencyOf l = some lf → frequencyOf r = some rf →
      P (HuffmanNode.node 0 (wrapInt32 (lf + rf)) l r)) :
    ∀ (fuel : Nat) (h : MinHeap), h.Valid → 1 ≤ h.size → h.size ≤ fuel →
      (∀ t ∈ h.contents, P t) →
      ∃ h2, mergeLoop fuel h = some h2 ∧ h2.size = 1 ∧ h2.Valid ∧
        (∀ t ∈ h2.contents, P t) ∧
        (h2.contents.flatMap leafPairs).Perm (h.contents.flatMap leafPairs) := by
  intro fuel
  induction fuel with
  | zero => intro h _ h1 h2; omega
  | succ fuel ih =>
    intro h hv hs hfuel hP
    by_cases h1 : h.size = 1
    · exact ⟨h, by simp [mergeLoop, isSizeOne, h1], h1, hv, hP, List.Perm.refl _⟩
    · obtain ⟨left, ha, ea, _, esa, _, ela, epa⟩ := extractMin_spec h hv hs
      have hva : ha.Valid :=
        ⟨by rw [esa, ela]; have := hv.1; omega,
          fun p hp => hv.2 p (epa.subset (List.mem_cons_of_mem _ hp))⟩
      obtain ⟨right, hb, eb, _, esb, _, elb, epb⟩ := extractMin_spec ha hva (by omega)
      have hvb : hb.Valid :=
        ⟨by rw [esb, elb]; have := hva.1; omega,
          fun p hp => hva.2 p (epb.subset (List.mem_cons_of_mem _ hp))⟩
      have hPl : P left := hP _ (epa.subset (List.mem_cons_self _ _))
      have hPr : P right :=
        hP _ (epa.subset (List.mem_cons_of_mem _ (epb.subset (List.mem_cons_self _ _))))
      obtain ⟨ld, lf, ll, lr, rfl⟩ : ∃ d f l r, left = HuffmanNode.node d f l r := by
        cases left with
        | null => exact absurd rfl (hnull _ hPl)
        | node d f l r => exact ⟨d, f, l, r, rfl⟩
      obtain ⟨rd, rf, rl, rr, rfl⟩ : ∃ d f l r, right = HuffmanNode.node d f l r := by
        cases right with
        | null => exact absurd rfl (hnull _ hPr)
        | node d f l r => exact ⟨d, f, l, r, rfl⟩
      have hPtop := hmerge _ _ lf rf hPl hPr rfl rfl
      obtain ⟨hc, ec, esc, _, elc, epc⟩ := insertMinHeap_spec hb _ hvb
        (by rw [esb, esa, elb, ela]; have := hv.1; omega) (hnull _ hPtop)
      have hvc : hc.Valid := by
        refine ⟨by rw [esc, esb, esa, elc, elb, ela]; have := hv.1; omega, ?_⟩
        intro p hp
        rcases List.mem_cons.1 (epc.subset hp) with hp | hp
        · subst hp; exact hnull _ hPtop
        · exact hvb.2 p hp
      have hPc : ∀ t ∈ hc.contents, P t := by
        intro t ht
        rcases List.mem_cons.1 (epc.subset ht) with ht | ht
        · subst ht; exact hPtop
        · exact hP _ (epa.subset (List.mem_cons_of_mem _
            (epb.subset (List.mem_cons_of_mem _ ht))))
      obtain ⟨h2, e1, e2, e3, e4, e5⟩ := ih hc hvc (by omega) (by omega) hPc
      refine ⟨h2, ?_, e2, e3, e4, e5.trans ?_⟩
      · simp [mergeLoop, isSizeOne, h1, ea, eb, frequencyOf, ec, e1]
      · have q1 : (hc.contents.flatMap leafPairs).Perm
            ((HuffmanNode.node 0 (wrapInt32 (lf + rf)) (HuffmanNode.node ld lf ll lr)
              (HuffmanNode.node rd rf rl rr) :: hb.contents).flatMap leafPairs) :=
          List.Perm.flatMap_right _ epc
        have q2 : (h.contents.flatMap leafPairs).Perm
            ((HuffmanNode.node ld lf ll lr :: HuffmanNode.node rd rf rl rr ::
              hb.contents).flatMap leafPairs) :=
          List.Perm.flatMap_right _ (epa.symm.trans (List.Perm.cons _ epb.symm))
        refine q1.trans (List.Perm.trans ?_ q2.symm)
        simp [List.flatMap_cons, leafPairs]

theorem leafPairs_newNodes (frequencies : List (Byte × Int)) :
    (frequencies.map (fun pair => newNode pair.1 pair.2)).flatMap leafPairs
      = frequencies := by
  induction frequencies with
  | nil => rfl
  | cons a rest ih =>
    simp only [List.map_cons, List.flatMap_cons, ih]
    simp [newNode, leafPairs]

theorem buildHuffmanTree_spec (P : HuffmanNode → Prop)
    (hnull : ∀ t, P t → t ≠ HuffmanNode.null)
    (hmerge : ∀ l r lf rf, P l → P r → frequencyOf l = some lf → frequencyOf r = some rf →
      P (HuffmanNode.node 0 (wrapInt32 (lf + rf)) l r))
    (hleaf : ∀ d f, P (newNode d f))
    (frequencies : List (Byte × Int)) (hne : frequencies ≠ []) :
    ∃ root, buildHuffmanTree frequencies = some root ∧ P root ∧
      (leafPairs root).Perm frequencies := by
  obtain ⟨h, e1, hv, es, _, el, ep⟩ := createAndBuildMinHeap_spec frequencies
  have hpos : 1 ≤ h.size := by
    rw [es]; exact List.length_pos.2 hne
  have hP : ∀ t ∈ h.contents, P t := by
    intro t ht
    have := ep.subset ht
    simp only [List.mem_map] at this
    obtain ⟨pair, _, rfl⟩ := this
    exact hleaf _ _
  obtain ⟨h2, f1, f2, f3, f4, f5⟩ :=
    mergeLoop_spec P hnull hmerge (h.size + 1) h hv hpos (by omega) hP
  obtain ⟨root, h3, g1, _, g3, _, _, g6⟩ := extractMin_spec h2 f3 (by omega)
  have hnil : h3.contents = [] := by
    unfold MinHeap.contents; rw [g3, f2]; rfl
  rw [hnil] at g6
  refine ⟨root, by simp [buildHuffmanTree, e1, f1, g1], f4 _ (g6.subset (by simp)), ?_⟩
  have q1 : (h2.contents.flatMap leafPairs).Perm ([root].flatMap leafPairs) :=
    List.Perm.flatMap_right _ g6.symm
  have q2 : (h.contents.flatMap leafPairs).Perm
      ((frequencies.map (fun pair => newNode pair.1 pair.2)).flatMap leafPairs) :=
    List.Perm.flatMap_right _ ep
  have q3 := leafPairs_newNodes frequencies
  have q4 : [root].flatMap leafPairs = leafPairs root := by simp [List.flatMap_cons]
  rw [q3] at q2
  rw [q4] at q1
  exact q1.symm.trans (f5.trans q2)

theorem proper_ne_null (t : HuffmanNode) (h : Proper t) : t ≠ HuffmanNode.null := by
  intro e; subst e; exact h

theorem buildHuffmanTree_proper (frequencies : List (Byte × Int)) (hne : frequencies ≠ []) :
    ∃ root, buildHuffmanTree frequencies = some root ∧ Proper root ∧
      (leafPairs root).Perm frequencies :=
  buildHuffmanTree_spec Proper proper_ne_null
    (fun _ _ _ _ hl hr _ _ => Or.inr ⟨hl, hr⟩) (fun _ _ => Or.inl ⟨rfl, rfl⟩)
    frequencies hne

/-! ## Codes are root-to-leaf paths -/

theorem generateCodes_spec : ∀ (t : HuffmanNode), Proper t →
    ∀ (code : List Bool) (codes : CodeMap) (x : Byte),
      (x ∈ (leafPairs t).map Prod.fst →
        ∃ c, PathTo t x c ∧ generateCodes t code codes x = some (code ++ c)) ∧
      (x ∉ (leafPairs t).map Prod.fst → generateCodes t code codes x = codes x) := by
  intro t
  induction t with
  | null => intro h; exact absurd h id
  | node d f l r ihl ihr =>
    intro hp code codes x
    by_cases hleaf : l = HuffmanNode.null ∧ r = HuffmanNode.null
    · obtain ⟨rfl, rfl⟩ := hleaf
      simp only [leafPairs, generateCodes, and_self, if_true, List.map_cons, List.map_nil,
        List.mem_singleton]
      constructor
      · intro hx
        subst hx
        exact ⟨[], PathTo.leaf _ f, by simp⟩
      · intro hx
        simp [Function.update, hx]
    · have hp2 : Proper l ∧ Proper r := by
        simp only [Proper] at hp
        rcases hp with h | h
        · exact absurd h hleaf
        · exact h
      simp only [leafPairs, generateCodes, hleaf, if_false, List.map_append, List.mem_append]
      by_cases hr : x ∈ (leafPairs r).map Prod.fst
      · constructor
        · intro _
          obtain ⟨c, hc1, hc2⟩ := (ihr hp2.2 (code ++ [true])
            (generateCodes l (code ++ [false]) codes) x).1 hr
          exact ⟨true :: c, PathTo.right d f l r x c hleaf hc1, by simp [hc2]⟩
        · intro hx
          exact absurd (Or.inr hr) hx
      · have e := (ihr hp2.2 (code ++ [true])
          (generateCodes l (code ++ [false]) codes) x).2 hr
        rw [e]
        constructor
        · intro hx
          rcases hx with hx | hx
          · obtain ⟨c, hc1, hc2⟩ := (ihl hp2.1 (code ++ [false]) codes x).1 hx
            exact ⟨false :: c, PathTo.left d f l r x c hleaf hc1, by simp [hc2]⟩
          · exact absurd hx hr
        · intro hx
          exact (ihl hp2.1 (code ++ [false]) codes x).2 (fun h => hx (Or.inl h))

theorem codesOf_spec (root : HuffmanNode) (hp : Proper root) (x : Byte) :
    (x ∈ (leafPairs root).map Prod.fst → ∃ c, PathTo root x c ∧ codesOf root x = some c) ∧
    (x ∉ (leafPairs root).map Prod.fst → codesOf root x = none) := by
  have h := generateCodes_spec root hp [] (fun _ => none) x
  simpa [codesOf] using h

theorem codesOf_some (root : HuffmanNode) (hp : Proper root) (x : Byte) (c : List Bool)
    (h : codesOf root x = some c) :
    x ∈ (leafPairs root).map Prod.fst ∧ PathTo root x c := by
  by_cases hx : x ∈ (leafPairs root).map Prod.fst
  · obtain ⟨c2, h1, h2⟩ := (codesOf_spec root hp x).1 hx
    rw [h] at h2
    cases h2
    exact ⟨hx, h1⟩
  · rw [(codesOf_spec root hp x).2 hx] at h
    cases h

theorem pathTo_prefix_eq : ∀ (t : HuffmanNode) (x : Byte) (cx : List Bool), PathTo t x cx →
    ∀ (y : Byte) (cy : List Bool), PathTo t y cy → cx <+: cy → x = y := by
  intro t x cx h
  induction h with
  | leaf d f =>
    intro y cy h2 _
    cases h2 with
    | leaf => rfl
    | left _ _ _ _ _ _ hn _ => exact absurd ⟨rfl, rfl⟩ hn
    | right _ _ _ _ _ _ hn _ => exact absurd ⟨rfl, rfl⟩ hn
  | left d f l r x c hn _ ih =>
    intro y cy h2 hpre
    cases h2 with
    | leaf => exact absurd ⟨rfl, rfl⟩ hn
    | left _ _ _ _ _ c2 _ h3 =>
      exact ih y c2 h3 (by simpa using hpre)
    | right _ _ _ _ _ c2 _ h3 =>
      simp at hpre
  | right d f l r x c hn _ ih =>
    intro y cy h2 hpre
    cases h2 with
    | leaf => exact absurd ⟨rfl, rfl⟩ hn
    | left _ _ _ _ _ c2 _ h3 =>
      simp at hpre
    | right _ _ _ _ _ c2 _ h3 =>
      exact ih y c2 h3 (by simpa using hpre)

theorem pathTo_nonempty (d : Byte) (f : Int) (l r : HuffmanNode) (x : Byte) (c : List Bool)
    (hn : ¬(l = HuffmanNode.null ∧ r = HuffmanNode.null))
    (h : PathTo (HuffmanNode.node d f l r) x c) : c ≠ [] := by
  cases h with
  | leaf => exact absurd ⟨rfl, rfl⟩ hn
  | left => simp
  | right => simp

theorem root_not_leaf (root : HuffmanNode) (hp : Proper root)
    (h2 : 2 ≤ (leafPairs root).length) :
    ∃ d f l r, root = HuffmanNode.node d f l r ∧
      ¬(l = HuffmanNode.null ∧ r = HuffmanNode.null) := by
  cases root with
  | null => exact absurd hp id
  | node d f l r =>
    refine ⟨d, f, l, r, rfl, ?_⟩
    intro hl
    simp [leafPairs, hl] at h2

/-! ## The decoding loop -/

theorem decodeBits_done (root : HuffmanNode) (totalFreq : Int) (bits : List Bool)
    (st : DecodeState) (h : st.decodedChars = totalFreq) :
    decodeBits root totalFreq bits st = some st := by
  cases bits with
  | nil => rfl
  | cons b bs => simp [decodeBits, h]

theorem decodeBits_append (root : HuffmanNode) (totalFreq : Int) :
    ∀ (xs ys : List Bool) (st : DecodeState),
      decodeBits root totalFreq (xs ++ ys) st =
        match decodeBits root totalFreq xs st with
        | none => none
        | some st2 => decodeBits root totalFreq ys st2 := by
  intro xs
  induction xs with
  | nil => intro ys st; rfl
  | cons b bs ih =>
    intro ys st
    by_cases hd : st.decodedChars = totalFreq
    · simp only [List.cons_append, decodeBits, hd, if_true]
      exact (decodeBits_done root totalFreq ys st hd).symm
    · simp only [List.cons_append, decodeBits, hd, if_false]
      cases decodeStep root st b with
      | none => rfl
      | some st2 => exact ih ys st2

theorem decodeBytes_eq_decodeBits (root : HuffmanNode) (totalFreq : Int) :
    ∀ (bytes : List Byte) (st : DecodeState),
      decodeBytes root totalFreq bytes st =
        decodeBits root totalFreq (bytes.flatMap bitsOfByte) st := by
  intro bytes
  induction bytes with
  | nil => intro st; rfl
  | cons b rest ih =>
    intro st
    simp only [decodeBytes, List.flatMap_cons, decodeBits_append]
    cases decodeBits root totalFreq (bitsOfByte b) st with
    | none => rfl
    | some st2 => exact ih st2

theorem pathTo_nil (t : HuffmanNode) (x : Byte) (h : PathTo t x []) :
    ∃ f, t = HuffmanNode.node x f HuffmanNode.null HuffmanNode.null := by
  cases h with
  | leaf d f => exact ⟨f, rfl⟩

theorem pathTo_cons_shape (t : HuffmanNode) (x : Byte) (b : Bool) (c : List Bool)
    (h : PathTo t x (b :: c)) :
    ∃ d f l r, t = HuffmanNode.node d f l r ∧
      ¬(l = HuffmanNode.null ∧ r = HuffmanNode.null) ∧
      PathTo (if b then r else l) x c := by
  cases h with
  | left d f l r _ _ hn h2 => exact ⟨d, f, l, r, rfl, hn, h2⟩
  | right d f l r _ _ hn h2 => exact ⟨d, f, l, r, rfl, hn, h2⟩

theorem decodeBits_path (root : HuffmanNode) (totalFreq : Int) :
    ∀ (c : List Bool) (t : HuffmanNode) (x : Byte), PathTo t x c → c ≠ [] →
      ∀ (n : Int) (out : List Byte), n ≠ totalFreq →
        decodeBits root totalFreq c { currentNode := t, decodedChars := n, output := out }
          = some { currentNode := root, decodedChars := n + 1, output := out ++ [x] } := by
  intro c
  induction c with
  | nil => intro t x _ h; exact absurd rfl h
  | cons b c ih =>
    intro t x hpath _ n out hn
    obtain ⟨d, f, l, r, rfl, hnl, hsub⟩ := pathTo_cons_shape t x b c hpath
    cases c with
    | nil =>
      obtain ⟨f2, hleaf⟩ := pathTo_nil _ x hsub
      simp [decodeBits, hn, decodeStep, hleaf]
    | cons b2 c2 =>
      obtain ⟨d2, f2, l2, r2, hshape, hnl2, _⟩ := pathTo_cons_shape _ x b2 c2 hsub
      have hstep : decodeStep root
          { currentNode := HuffmanNode.node d f l r, decodedChars := n, output := out } b
          = some { currentNode := (if b then r else l), decodedChars := n, output := out } := by
        simp only [decodeStep, hshape]
        simp [hnl2]
      simp only [decodeBits, hn, if_false, hstep]
      have := ih (if b then r else l) x hsub (by simp) n out hn
      simpa [decodeBits, hn] using this

theorem decodeBits_symbols (root : HuffmanNode) (totalFreq : Int) (codes : CodeMap)
    (hroot : ∀ x c, PathTo root x c → c ≠ []) :
    ∀ (input : List Byte) (n : Int) (out : List Byte),
      (∀ s ∈ input, ∃ c, codes s = some c ∧ PathTo root s c) →
      n + input.length ≤ totalFreq →
      decodeBits root totalFreq (codeBits codes input)
          { currentNode := root, decodedChars := n, output := out }
        = some { currentNode := root, decodedChars := n + input.length,
                 output := out ++ input } := by
  intro input
  induction input with
  | nil => intro n out _ _; simp [decodeBits, codeBits]
  | cons s rest ih =>
    intro n out hcodes hle
    unfold codeBits at ih ⊢
    obtain ⟨c, hc1, hc2⟩ := hcodes s (List.mem_cons_self _ _)
    have hlen : (n : Int) + 1 + rest.length ≤ totalFreq := by
      simp only [List.length_cons, Nat.cast_add, Nat.cast_one] at hle; omega
    have hn : n ≠ totalFreq := by
      have : (0 : Int) ≤ rest.length := Int.natCast_nonneg _
      omega
    rw [List.flatMap_cons, decodeBits_append, hc1, Option.getD_some,
      decodeBits_path root totalFreq c root s hc2 (hroot s c hc2) n out hn]
    simp only
    rw [ih (n + 1) (out ++ [s]) (fun s2 h2 => hcodes s2 (List.mem_cons_of_mem _ h2)) hlen]
    simp only [List.length_cons, Nat.cast_add, Nat.cast_one, List.append_assoc,
      List.singleton_append]
    congr 2
    omega

/-! ## The bit packer -/

set_option maxRecDepth 100000 in
theorem putBit_byte : ∀ (bw : Fin 8) (buf : Fin 256) (b : Bool), buf.val < 2 ^ bw.val →
    (bitsOfByte (Fin.ofNat ((buf.val <<< 1) ||| b.toNat))).drop (7 - bw.val)
        = (bitsOfByte buf).drop (8 - bw.val) ++ [b] ∧
      (Fin.ofNat ((buf.val <<< 1) ||| b.toNat) : Byte).val < 2 ^ (bw.val + 1) := by
  decide

set_option maxRecDepth 100000 in
theorem flush_byte : ∀ (bw : Fin 8) (buf : Fin 256), buf.val < 2 ^ bw.val →
    bitsOfByte (Fin.ofNat (buf.val <<< (8 - bw.val)))
      = (bitsOfByte buf).drop (8 - bw.val) ++ List.replicate (8 - bw.val) false := by
  decide

theorem length_bitsOfByte (b : Byte) : (bitsOfByte b).length = 8 := by
  simp [bitsOfByte]

theorem length_flatMap_bitsOfByte (bytes : List Byte) :
    (bytes.flatMap bitsOfByte).length = 8 * bytes.length := by
  induction bytes with
  | nil => rfl
  | cons b rest ih =>
    simp only [List.flatMap_cons, List.length_append, length_bitsOfByte, ih, List.length_cons]
    omega

theorem putBit_spec (w : BitWriter) (b : Bool) (hw : w.Ok) :
    (putBit w b).Ok ∧ (putBit w b).stream = w.stream ++ [b] := by
  obtain ⟨h1, h2⟩ := putBit_byte ⟨w.bitsWritten, hw.1⟩ w.buffer b hw.2
  simp only at h1 h2
  by_cases h8 : w.bitsWritten + 1 = 8
  · have h7 : w.bitsWritten = 7 := by omega
    rw [h7] at h1
    simp only [Nat.sub_self, List.drop_zero] at h1
    constructor
    · simp [putBit, h8, BitWriter.Ok]
    · simp only [putBit, h8, if_true, BitWriter.stream, BitWriter.pending, List.flatMap_append,
        List.flatMap_cons, List.flatMap_nil, List.append_nil, h1, h7]
      have : (bitsOfByte 0).drop (8 - 0) = [] := by decide
      rw [this]
      simp
  · constructor
    · refine ⟨?_, ?_⟩
      · simp only [putBit, h8, if_false]; have := hw.1; omega
      · simpa [putBit, h8] using h2
    · have e : 8 - (w.bitsWritten + 1) = 7 - w.bitsWritten := by omega
      simp only [putBit, h8, if_false, BitWriter.stream, BitWriter.pending, e, h1]
      simp

theorem putBits_spec : ∀ (bits : List Bool) (w : BitWriter), w.Ok →
    (bits.foldl putBit w).Ok ∧ (bits.foldl putBit w).stream = w.stream ++ bits := by
  intro bits
  induction bits with
  | nil => intro w hw; exact ⟨hw, by simp⟩
  | cons b rest ih =>
    intro w hw
    obtain ⟨h1, h2⟩ := putBit_spec w b hw
    obtain ⟨h3, h4⟩ := ih (putBit w b) h1
    exact ⟨h3, by rw [List.foldl_cons, h4, h2]; simp⟩

theorem putSymbols_spec (codes : CodeMap) : ∀ (input : List Byte) (w : BitWriter), w.Ok →
    (input.foldl (putSymbol codes) w).Ok ∧
      (input.foldl (putSymbol codes) w).stream = w.stream ++ codeBits codes input := by
  intro input
  induction input with
  | nil => intro w hw; exact ⟨hw, by simp [codeBits]⟩
  | cons s rest ih =>
    intro w hw
    obtain ⟨h1, h2⟩ := putBits_spec ((codes s).getD []) w hw
    obtain ⟨h3, h4⟩ := ih (putSymbol codes w s) h1
    refine ⟨h3, ?_⟩
    rw [List.foldl_cons, h4]
    simp only [putSymbol, h2, codeBits, List.flatMap_cons, List.append_assoc]

theorem flushBits_spec (w : BitWriter) (hw : w.Ok) :
    ∃ pad, pad < 8 ∧
      (flushBits w).flatMap bitsOfByte = w.stream ++ List.replicate pad false ∧
      (flushBits w).length = (w.stream.length + 7) / 8 := by
  have hlen : w.stream.length = 8 * w.written.length + w.bitsWritten := by
    have := hw.1
    simp only [BitWriter.stream, BitWriter.pending, List.length_append,
      length_flatMap_bitsOfByte, List.length_drop, length_bitsOfByte]
    omega
  by_cases h0 : w.bitsWritten > 0
  · have hb := flush_byte ⟨w.bitsWritten, hw.1⟩ w.buffer hw.2
    simp only at hb
    refine ⟨8 - w.bitsWritten, by omega, ?_, ?_⟩
    · simp only [flushBits, h0, if_true, List.flatMap_append, List.flatMap_cons,
        List.flatMap_nil, List.append_nil, hb, BitWriter.stream, BitWriter.pending,
        List.append_assoc]
    · have := hw.1
      simp only [flushBits, h0, if_true, List.length_append, List.length_singleton, hlen]
      omega
  · have hz : w.bitsWritten = 0 := by omega
    refine ⟨0, by omega, ?_, ?_⟩
    · simp only [flushBits, h0, if_false, BitWriter.stream, BitWriter.pending, hz,
        List.replicate_zero, List.append_nil]
      have : (bitsOfByte w.buffer).drop (8 - 0) = [] := by
        apply List.drop_eq_nil_of_le; simp [length_bitsOfByte]
      rw [this]; simp
    · rw [flushBits, if_neg h0, hlen, hz]
      omega

theorem writePayload_spec (codes : CodeMap) (input : List Byte) :
    ∃ pad, pad < 8 ∧
      (writePayload codes input).flatMap bitsOfByte
        = codeBits codes input ++ List.replicate pad false ∧
      (writePayload codes input).length = ((codeBits codes input).length + 7) / 8 := by
  have hinit : BitWriter.Ok { buffer := 0, bitsWritten := 0, written := [] } := by
    simp [BitWriter.Ok]
  obtain ⟨h1, h2⟩ := putSymbols_spec codes input _ hinit
  obtain ⟨pad, hp, e1, e2⟩ := flushBits_spec _ h1
  have hs : BitWriter.stream { buffer := 0, bitsWritten := 0, written := [] } = [] := by
    decide
  rw [h2, hs, List.nil_append] at e1 e2
  exact ⟨pad, hp, e1, e2⟩

/-! ## Counting frequencies -/

theorem wrapInt32_inInt32 (z : Int) : InInt32 (wrapInt32 z) := by
  unfold InInt32 wrapInt32; omega

theorem wrapInt32_of_inInt32 (z : Int) (h : InInt32 z) : wrapInt32 z = z := by
  unfold InInt32 at h; unfold wrapInt32; omega

theorem wrapInt32_succ (z : Int) : wrapInt32 (wrapInt32 z + 1) = wrapInt32 (z + 1) := by
  unfold wrapInt32; omega

theorem keys_incrementAt (m : FreqMap) (c : Byte) :
    (incrementAt m c).map Prod.fst =
      if c ∈ m.map Prod.fst then m.map Prod.fst else m.map Prod.fst ++ [c] := by
  induction m with
  | nil => simp [incrementAt]
  | cons a rest ih =>
    obtain ⟨k, v⟩ := a
    by_cases hk : k = c
    · simp [incrementAt, hk]
    · have hk2 : ¬ c = k := fun e => hk e.symm
      simp only [incrementAt, hk, if_false, List.map_cons, ih, List.mem_cons, hk2, false_or]
      split <;> simp

theorem valueAt_incrementAt (m : FreqMap) (c k : Byte) :
    valueAt (incrementAt m c) k =
      if k = c then wrapInt32 (valueAt m k + 1) else valueAt m k := by
  induction m with
  | nil =>
    by_cases hk : k = c
    · simp [incrementAt, valueAt, hk]
    · have hk2 : ¬ c = k := fun e => hk e.symm
      simp [incrementAt, valueAt, hk, hk2]
  | cons a rest ih =>
    obtain ⟨k2, v⟩ := a
    by_cases h1 : k2 = c
    · subst h1
      by_cases h2 : k2 = k
      · subst h2; simp [incrementAt, valueAt]
      · have h3 : ¬ k = k2 := fun e => h2 e.symm
        simp [incrementAt, valueAt, h2, h3]
    · by_cases h2 : k2 = k
      · subst h2
        simp [incrementAt, valueAt, h1]
      · simp only [incrementAt, h1, if_false, valueAt, h2, ih]

theorem countFrequencies_append (input : List Byte) (c : Byte) :
    countFrequencies (input ++ [c]) = incrementAt (countFrequencies input) c := by
  simp [countFrequencies, List.foldl_append]

theorem keys_countFrequencies (input : List Byte) :
    ((countFrequencies input).map Prod.fst).Nodup ∧
      ∀ k, k ∈ (countFrequencies input).map Prod.fst ↔ k ∈ input := by
  induction input using List.reverseRecOn with
  | nil => simp [countFrequencies]
  | append_singleton rest c ih =>
    rw [countFrequencies_append, keys_incrementAt]
    obtain ⟨h1, h2⟩ := ih
    by_cases hc : c ∈ (countFrequencies rest).map Prod.fst
    · rw [if_pos hc]
      refine ⟨h1, fun k => ?_⟩
      rw [h2, List.mem_append, List.mem_singleton]
      constructor
      · exact Or.inl
      · rintro (h | h)
        · exact h
        · subst h; exact (h2 k).1 hc
    · rw [if_neg hc]
      refine ⟨?_, fun k => ?_⟩
      · rw [List.nodup_append]
        refine ⟨h1, List.nodup_singleton c, ?_⟩
        intro a ha hb
        rw [List.mem_singleton] at hb
        subst hb
        exact hc ha
      · simp only [List.mem_append, List.mem_singleton, h2]

theorem valueAt_countFrequencies (input : List Byte) (k : Byte) :
    valueAt (countFrequencies input) k = wrapInt32 (input.count k) := by
  induction input using List.reverseRecOn with
  | nil => simp [countFrequencies, valueAt, wrapInt32]
  | append_singleton rest c ih =>
    rw [countFrequencies_append, valueAt_incrementAt, ih]
    by_cases hk : k = c
    · subst hk
      simp only [if_true, wrapInt32_succ, List.count_append, List.count_singleton_self,
        Nat.cast_add, Nat.cast_one]
    · have hk2 : ¬ c = k := fun e => hk e.symm
      simp [hk, List.count_append, List.count_singleton, hk2]

theorem eq_map_valueAt (m : FreqMap) (hn : (m.map Prod.fst).Nodup) :
    m = (m.map Prod.fst).map (fun k => (k, valueAt m k)) := by
  induction m with
  | nil => rfl
  | cons a rest ih =>
    obtain ⟨k, v⟩ := a
    simp only [List.map_cons, List.nodup_cons] at hn
    have h2 := ih hn.2
    simp only [List.map_cons, valueAt, if_true, List.cons.injEq, true_and]
    rw [List.map_map] at h2 ⊢
    conv_lhs => rw [h2]
    apply List.map_congr_left
    intro p hp
    have : k ≠ p.1 := by
      intro e
      exact hn.1 (by rw [e]; exact List.mem_map_of_mem _ hp)
    simp [this]

theorem mem_countFrequencies (input : List Byte) (pair : Byte × Int) :
    pair ∈ countFrequencies input ↔
      pair.1 ∈ input ∧ pair.2 = wrapInt32 (input.count pair.1) := by
  obtain ⟨hn, hk⟩ := keys_countFrequencies input
  have he := eq_map_valueAt (countFrequencies input) hn
  constructor
  · intro hp
    rw [he] at hp
    simp only [List.map_map, List.mem_map, Function.comp] at hp
    obtain ⟨q, hq, rfl⟩ := hp
    exact ⟨(hk q.1).1 (List.mem_map_of_mem _ hq), valueAt_countFrequencies input q.1⟩
  · rintro ⟨h1, h2⟩
    have hmem := (hk pair.1).2 h1
    have hpair : pair = (pair.1, valueAt (countFrequencies input) pair.1) := by
      rw [valueAt_countFrequencies, ← h2]
    have hin : (pair.1, valueAt (countFrequencies input) pair.1) ∈
        ((countFrequencies input).map Prod.fst).map
          (fun k => (k, valueAt (countFrequencies input) k)) :=
      List.mem_map_of_mem (fun k => (k, valueAt (countFrequencies input) k)) hmem
    rw [← he] at hin
    rw [hpair]
    exact hin

theorem keys_perm_dedup (input : List Byte) :
    ((countFrequencies input).map Prod.fst).Perm input.dedup := by
  obtain ⟨hn, hk⟩ := keys_countFrequencies input
  exact (List.perm_ext_iff_of_nodup hn (List.nodup_dedup input)).2
    (fun a => by rw [hk, List.mem_dedup])

theorem length_countFrequencies (input : List Byte) :
    (countFrequencies input).length = input.dedup.length := by
  rw [← (keys_perm_dedup input).length_eq, List.length_map]

theorem keys_eq_singleton (l : List Byte) (a : Byte) (hn : l.Nodup)
    (h : ∀ k, k ∈ l ↔ k = a) : l = [a] := by
  match l with
  | [] => exact absurd ((h a).2 rfl) (List.not_mem_nil a)
  | [x] => rw [(h x).1 (List.mem_singleton_self x)]
  | x :: y :: rest =>
    have hx := (h x).1 (List.mem_cons_self _ _)
    have hy := (h y).1 (List.mem_cons_of_mem _ (List.mem_cons_self _ _))
    rw [List.nodup_cons] at hn
    exact absurd (by rw [hx, hy]; exact List.mem_cons_self _ _) hn.1

theorem countFrequencies_single (input : List Byte) (a : Byte) (hne : input ≠ [])
    (h : ∀ s ∈ input, s = a) :
    countFrequencies input = [(a, wrapInt32 (input.length))] := by
  obtain ⟨hn, hk⟩ := keys_countFrequencies input
  have hmem : a ∈ input := by
    obtain ⟨x, rest, rfl⟩ := List.exists_cons_of_ne_nil hne
    rw [← h x (List.mem_cons_self _ _)]
    exact List.mem_cons_self _ _
  have hkeys : (countFrequencies input).map Prod.fst = [a] := by
    apply keys_eq_singleton _ a hn
    intro k
    rw [hk]
    exact ⟨h k, fun e => e ▸ hmem⟩
  have he := eq_map_valueAt (countFrequencies input) hn
  rw [hkeys] at he
  have hcount : input.count a = input.length := by
    rw [List.count_eq_length]
    intro b hb
    exact (h b hb).symm
  rw [he]
  simp only [List.map_cons, List.map_nil, valueAt_countFrequencies, hcount]

theorem sum_countFrequencies (input : List Byte)
    (hc : ∀ b, input.count b < 2147483648) :
    ((countFrequencies input).map Prod.snd).sum = (input.length : Int) := by
  obtain ⟨hn, hk⟩ := keys_countFrequencies input
  have he := eq_map_valueAt (countFrequencies input) hn
  have hperm : ((countFrequencies input).map Prod.fst).Perm input.dedup :=
    (List.perm_ext_iff_of_nodup hn (List.nodup_dedup input)).2
      (fun a => by rw [hk, List.mem_dedup])
  have h1 : (countFrequencies input).map Prod.snd
      = ((countFrequencies input).map Prod.fst).map (fun k => ((input.count k : Nat) : Int)) := by
    conv_lhs => rw [he]
    rw [List.map_map]
    apply List.map_congr_left
    intro k _
    simp only [Function.comp, valueAt_countFrequencies]
    apply wrapInt32_of_inInt32
    have := hc k
    unfold InInt32
    omega
  rw [h1, (hperm.map _).sum_eq]
  have h2 := List.sum_map_count_dedup_eq_length input
  have h3 : (input.dedup.map (fun k => ((input.count k : Nat) : Int))).sum
      = (((input.dedup.map (fun k => input.count k)).sum : Nat) : Int) := by
    rw [Nat.cast_list_sum, List.map_map]
    rfl
  rw [h3, h2]

/-! ## Writing the header and reading it back -/

theorem u32_roundtrip (n : Nat) (h : n < 4294967296) :
    u32OfBytes (Fin.ofNat n) (Fin.ofNat (n / 256)) (Fin.ofNat (n / 65536))
      (Fin.ofNat (n / 16777216)) = n := by
  show n % 256 + 256 * (n / 256 % 256) + 65536 * (n / 65536 % 256)
    + 16777216 * (n / 16777216 % 256) = n
  omega

theorem int32_roundtrip (z : Int) (h : InInt32 z) :
    int32OfBytes (Fin.ofNat (z % 4294967296).toNat) (Fin.ofNat ((z % 4294967296).toNat / 256))
      (Fin.ofNat ((z % 4294967296).toNat / 65536))
      (Fin.ofNat ((z % 4294967296).toNat / 16777216)) = z := by
  have hlt : (z % 4294967296).toNat < 4294967296 := by omega
  unfold int32OfBytes
  simp only [u32_roundtrip _ hlt]
  unfold InInt32 at h
  split <;> omega

theorem assignAt_of_not_mem (m : FreqMap) (c : Byte) (f : Int)
    (h : c ∉ m.map Prod.fst) : assignAt m c f = m ++ [(c, f)] := by
  induction m with
  | nil => rfl
  | cons a rest ih =>
    obtain ⟨k, v⟩ := a
    simp only [List.map_cons, List.mem_cons, not_or] at h
    have hk : ¬ k = c := fun e => h.1 e.symm
    simp [assignAt, hk, ih h.2]

theorem foldl_assignAt (entries : List (Byte × Int)) :
    ∀ (acc : FreqMap), ((acc ++ entries).map Prod.fst).Nodup →
      entries.foldl (fun m pair => assignAt m pair.1 pair.2) acc = acc ++ entries := by
  induction entries with
  | nil => intro acc _; simp
  | cons a rest ih =>
    intro acc hn
    have hna : a.1 ∉ acc.map Prod.fst := by
      simp only [List.map_append, List.map_cons] at hn
      have := (List.nodup_append.1 hn).2.2
      intro hmem
      exact this hmem (List.mem_cons_self _ _)
    rw [List.foldl_cons, assignAt_of_not_mem acc a.1 a.2 hna]
    have := ih (acc ++ [(a.1, a.2)]) (by simpa using hn)
    simpa using this

theorem readHeader_spec (rest : List Byte) :
    ∀ (entries : List (Byte × Int)) (frequencies : FreqMap) (totalFreq : Int),
      (∀ pair ∈ entries, InInt32 pair.2) →
      readHeader entries.length (entries.flatMap headerRecord ++ rest) frequencies totalFreq
        = some (entries.foldl (fun m pair => assignAt m pair.1 pair.2) frequencies,
            totalFreq + (entries.map Prod.snd).sum, rest) := by
  intro entries
  induction entries with
  | nil => intro fr tot _; simp [readHeader]
  | cons a rest2 ih =>
    intro fr tot hr
    have ha := hr a (List.mem_cons_self _ _)
    have e : (a :: rest2).flatMap headerRecord ++ rest
        = a.1 :: Fin.ofNat (a.2 % 4294967296).toNat
          :: Fin.ofNat ((a.2 % 4294967296).toNat / 256)
          :: Fin.ofNat ((a.2 % 4294967296).toNat / 65536)
          :: Fin.ofNat ((a.2 % 4294967296).toNat / 16777216)
          :: (rest2.flatMap headerRecord ++ rest) := by
      rw [List.flatMap_cons]
      rfl
    rw [e, List.length_cons, readHeader, int32_roundtrip a.2 ha,
      ih _ _ (fun p hp => hr p (List.mem_cons_of_mem _ hp))]
    simp [add_assoc]

/-! ## The two file operations -/

theorem countFrequencies_ne_nil (input : List Byte) (h : input ≠ []) :
    countFrequencies input ≠ [] := by
  obtain ⟨a, rest, rfl⟩ := List.exists_cons_of_ne_nil h
  have := ((keys_countFrequencies (a :: rest)).2 a).2 (List.mem_cons_self _ _)
  intro e
  rw [e] at this
  simp at this

theorem visit_ne_nil (order : IterationOrder) (m : FreqMap) (h : m ≠ []) :
    order.visit m ≠ [] := by
  intro e
  have := order.perm m
  rw [e] at this
  exact h (List.Perm.nil_eq this).symm

theorem compressFile_success (order : IterationOrder) (input : List Byte)
    (h : input ≠ []) :
    ∃ root, buildHuffmanTree (order.visit (countFrequencies input)) = some root ∧
      Proper root ∧ (leafPairs root).Perm (order.visit (countFrequencies input)) ∧
      compressFile order input = Outcome.success
        (writeHeader (countFrequencies input).length (order.visit (countFrequencies input))
          ++ writePayload (codesOf root) input) := by
  have hm := countFrequencies_ne_nil input h
  obtain ⟨root, e1, e2, e3⟩ :=
    buildHuffmanTree_proper (order.visit (countFrequencies input)) (visit_ne_nil order _ hm)
  exact ⟨root, e1, e2, e3, by simp [compressFile, hm, e1]⟩

theorem length_le_of_keys_nodup (entries : List (Byte × Int))
    (hn : (entries.map Prod.fst).Nodup) : entries.length ≤ 256 := by
  have := List.Nodup.length_le_card hn
  rw [List.length_map, Fintype.card_fin] at this
  exact this

theorem readFrequencies_of_header (entries : List (Byte × Int))
    (hn : (entries.map Prod.fst).Nodup) (hr : ∀ pair ∈ entries, InInt32 pair.2)
    (payload : List Byte) :
    readFrequencies (writeHeader entries.length entries ++ payload)
      = some (entries, (entries.map Prod.snd).sum, payload) := by
  have hlen : entries.length < 4294967296 := by
    have := length_le_of_keys_nodup entries hn; omega
  have e : writeHeader entries.length entries ++ payload
      = Fin.ofNat entries.length :: Fin.ofNat (entries.length / 256)
        :: Fin.ofNat (entries.length / 65536) :: Fin.ofNat (entries.length / 16777216)
        :: (entries.flatMap headerRecord ++ payload) := by
    simp [writeHeader, u32Bytes]
  have hread := readHeader_spec payload entries [] 0 hr
  rw [foldl_assignAt entries [] (by simpa using hn), List.nil_append, zero_add] at hread
  rw [e]
  unfold readFrequencies
  simp only
  rw [u32_roundtrip _ hlen, hread]

theorem decompressFile_of_read (order : IterationOrder) (file : List Byte)
    (frequencies : FreqMap) (totalFreq : Int) (payload : List Byte)
    (h : readFrequencies file = some (frequencies, totalFreq, payload)) :
    decompressFile order file =
      match buildHuffmanTree (order.visit frequencies) with
      | none => Outcome.undefined
      | some root =>
        match decodeBytes root totalFreq payload (initialState root) with
        | none => Outcome.undefined
        | some st => Outcome.success st.output := by
  cases file with
  | nil => simp [readFrequencies] at h
  | cons b rest =>
    unfold decompressFile
    simp only [h]
    rfl

theorem decompressFile_of_header (order : IterationOrder) (entries : List (Byte × Int))
    (hn : (entries.map Prod.fst).Nodup) (hr : ∀ pair ∈ entries, InInt32 pair.2)
    (payload : List Byte) :
    decompressFile order (writeHeader entries.length entries ++ payload) =
      match buildHuffmanTree (order.visit entries) with
      | none => Outcome.undefined
      | some root =>
        match decodeBytes root (entries.map Prod.snd).sum payload (initialState root) with
        | none => Outcome.undefined
        | some st => Outcome.success st.output :=
  decompressFile_of_read order _ _ _ _ (readFrequencies_of_header entries hn hr payload)

theorem two_le_length_of_mem {α : Type} (l : List α) (a b : α) (ha : a ∈ l) (hb : b ∈ l)
    (hab : a ≠ b) : 2 ≤ l.length := by
  match l with
  | [] => simp at ha
  | [x] =>
    simp only [List.mem_singleton] at ha hb
    exact absurd (ha.trans hb.symm) hab
  | _ :: _ :: _ => simp

/-- Facts about the table visited by the encoder for an input with two distinct bytes. -/
theorem visited_table_facts (order : IterationOrder) (input : List Byte) :
    ((order.visit (countFrequencies input)).map Prod.fst).Nodup ∧
    (∀ pair ∈ order.visit (countFrequencies input), InInt32 pair.2) ∧
    (order.visit (countFrequencies input)).length = (countFrequencies input).length ∧
    (∀ k, k ∈ (order.visit (countFrequencies input)).map Prod.fst ↔ k ∈ input) ∧
    ((order.visit (countFrequencies input)).map Prod.snd).sum
      = ((countFrequencies input).map Prod.snd).sum := by
  have hp := order.perm (countFrequencies input)
  obtain ⟨hn, hk⟩ := keys_countFrequencies input
  refine ⟨(hp.map Prod.fst).nodup_iff.2 hn, ?_, hp.length_eq, ?_, (hp.map Prod.snd).sum_eq⟩
  · intro pair hpair
    have := (mem_countFrequencies input pair).1 (hp.subset hpair)
    rw [this.2]
    exact wrapInt32_inInt32 _
  · intro k
    rw [← hk k]
    exact (hp.map Prod.fst).mem_iff

theorem decode_valid_payload (root : HuffmanNode) (hp : Proper root)
    (h2 : 2 ≤ (leafPairs root).length) (input : List Byte)
    (hin : ∀ s ∈ input, s ∈ (leafPairs root).map Prod.fst) (extra : List Byte) :
    decodeBytes root input.length (writePayload (codesOf root) input ++ extra)
        (initialState root)
      = some { currentNode := root, decodedChars := input.length, output := input } := by
  obtain ⟨d, f, l, r, hroot, hnl⟩ := root_not_leaf root hp h2
  have hne : ∀ x c, PathTo root x c → c ≠ [] := by
    intro x c hpath
    rw [hroot] at hpath
    exact pathTo_nonempty d f l r x c hnl hpath
  have hcodes : ∀ s ∈ input, ∃ c, codesOf root s = some c ∧ PathTo root s c := by
    intro s hs
    obtain ⟨c, h1, h2⟩ := (codesOf_spec root hp s).1 (hin s hs)
    exact ⟨c, h2, h1⟩
  obtain ⟨pad, _, hbits, _⟩ := writePayload_spec (codesOf root) input
  rw [decodeBytes_eq_decodeBits, List.flatMap_append, hbits, List.append_assoc,
    decodeBits_append]
  have hsym := decodeBits_symbols root input.length (codesOf root) hne input 0 []
    hcodes (by simp)
  simp only [zero_add, List.nil_append] at hsym
  rw [initialState, hsym]
  exact decodeBits_done root _ _ _ rfl

/-- For an input with two distinct bytes whose table the decoder visits in the
encoder's order: the tree both sides build, the file written, and what the
decoder does on that header followed by any payload. -/
theorem compressed_file_decoding (order : IterationOrder) (input : List Byte) (a b : Byte)
    (ha : a ∈ input) (hb : b ∈ input) (hab : a ≠ b)
    (hc : ∀ x, input.count x < 2147483648)
    (hord : order.visit (order.visit (countFrequencies input))
      = order.visit (countFrequencies input)) :
    ∃ root, Proper root ∧ 2 ≤ (leafPairs root).length ∧
      (∀ s ∈ input, s ∈ (leafPairs root).map Prod.fst) ∧
      compressFile order input = Outcome.success
        (writeHeader (countFrequencies input).length (order.visit (countFrequencies input))
          ++ writePayload (codesOf root) input) ∧
      ∀ payload, decompressFile order
          (writeHeader (countFrequencies input).length (order.visit (countFrequencies input))
            ++ payload) =
        match decodeBytes root input.length payload (initialState root) with
        | none => Outcome.undefined
        | some st => Outcome.success st.output := by
  have hne : input ≠ [] := List.ne_nil_of_mem ha
  obtain ⟨root, e1, e2, e3, e4⟩ := compressFile_success order input hne
  obtain ⟨f1, f2, f3, f4, f5⟩ := visited_table_facts order input
  have hleaves : ∀ s ∈ input, s ∈ (leafPairs root).map Prod.fst := by
    intro s hs
    exact (e3.map Prod.fst).mem_iff.2 ((f4 s).2 hs)
  have h2 : 2 ≤ (leafPairs root).length := by
    rw [e3.length_eq, ← List.length_map (order.visit (countFrequencies input)) Prod.fst]
    exact two_le_length_of_mem _ a b ((f4 a).2 ha) ((f4 b).2 hb) hab
  refine ⟨root, e2, h2, hleaves, e4, ?_⟩
  intro payload
  rw [← f3, decompressFile_of_header order _ f1 f2, hord, e1, f5,
    sum_countFrequencies input hc]

theorem roundtrip_of_facts (order : IterationOrder) (input : List Byte) (a b : Byte)
    (ha : a ∈ input) (hb : b ∈ input) (hab : a ≠ b)
    (hc : ∀ x, input.count x < 2147483648)
    (hord : order.visit (order.visit (countFrequencies input))
      = order.visit (countFrequencies input)) (extra : List Byte) :
    ∃ file, compressFile order input = Outcome.success file ∧
      decompressFile order (file ++ extra) = Outcome.success input := by
  obtain ⟨root, e1, e2, e3, e4, e5⟩ :=
    compressed_file_decoding order input a b ha hb hab hc hord
  refine ⟨_, e4, ?_⟩
  rw [List.append_assoc, e5, decode_valid_payload root e1 e2 input e3 extra]

theorem decodeStep_output (root : HuffmanNode) (st st2 : DecodeState) (bit : Bool)
    (h : decodeStep root st bit = some st2) : st.output <+: st2.output := by
  unfold decodeStep at h
  split at h
  · cases h
  · split at h
    · cases h
    · split at h
      · cases h; exact List.prefix_append _ _
      · cases h; exact List.prefix_refl _

theorem decodeBits_output_grows (root : HuffmanNode) (totalFreq : Int) :
    ∀ (bits : List Bool) (st st2 : DecodeState),
      decodeBits root totalFreq bits st = some st2 → st.output <+: st2.output := by
  intro bits
  induction bits with
  | nil => intro st st2 h; simp only [decodeBits] at h; cases h; exact List.prefix_refl _
  | cons b rest ih =>
    intro st st2 h
    by_cases hd : st.decodedChars = totalFreq
    · simp only [decodeBits, hd, if_true] at h
      cases h; exact List.prefix_refl _
    · simp only [decodeBits, hd, if_false] at h
      cases hs : decodeStep root st b with
      | none => rw [hs] at h; cases h
      | some st3 =>
        rw [hs] at h
        exact (decodeStep_output root st st3 b hs).trans (ih st3 st2 h)

/-- A node with two well-formed children: where the decoder's walk may stand. -/
theorem decodeStep_safe (root : HuffmanNode) (st : DecodeState) (bit : Bool)
    (hroot : ∃ d f l r, root = HuffmanNode.node d f l r ∧ Proper l ∧ Proper r)
    (hcur : ∃ d f l r, st.currentNode = HuffmanNode.node d f l r ∧ Proper l ∧ Proper r) :
    ∃ st2, decodeStep root st bit = some st2 ∧
      (∃ d f l r, st2.currentNode = HuffmanNode.node d f l r ∧ Proper l ∧ Proper r) ∧
      st2.output.length ≤ st.output.length + 1 ∧
      st2.decodedChars - st2.output.length = st.decodedChars - st.output.length := by
  obtain ⟨d, f, l, r, hc, hl, hr⟩ := hcur
  have hnext : Proper (if bit then r else l) := by
    cases bit <;> simpa
  cases hn : (if bit then r else l) with
  | null => rw [hn] at hnext; exact absurd hnext id
  | node d2 f2 l2 r2 =>
    rw [hn] at hnext
    by_cases hleaf : l2 = HuffmanNode.null ∧ r2 = HuffmanNode.null
    · refine ⟨{ currentNode := root, decodedChars := st.decodedChars + 1,
                output := st.output ++ [d2] }, ?_, hroot, by simp, ?_⟩
      · simp only [decodeStep, hc, hn]
        simp [hleaf]
      · simp only [List.length_append, List.length_singleton, Nat.cast_add, Nat.cast_one]
        omega
    · have hp2 : Proper l2 ∧ Proper r2 := by
        simp only [Proper] at hnext
        rcases hnext with h | h
        · exact absurd h hleaf
        · exact h
      refine ⟨{ currentNode := HuffmanNode.node d2 f2 l2 r2, decodedChars := st.decodedChars,
                output := st.output }, ?_, ⟨d2, f2, l2, r2, rfl, hp2⟩, by simp, rfl⟩
      simp only [decodeStep, hc, hn]
      simp [hleaf]

theorem decodeBits_safe (root : HuffmanNode) (totalFreq : Int)
    (hroot : ∃ d f l r, root = HuffmanNode.node d f l r ∧ Proper l ∧ Proper r) :
    ∀ (bits : List Bool) (st : DecodeState),
      (∃ d f l r, st.currentNode = HuffmanNode.node d f l r ∧ Proper l ∧ Proper r) →
      st.decodedChars = st.output.length → st.decodedChars ≤ totalFreq →
      ∃ st2, decodeBits root totalFreq bits st = some st2 ∧
        (∃ d f l r, st2.currentNode = HuffmanNode.node d f l r ∧ Proper l ∧ Proper r) ∧
        st2.decodedChars = st2.output.length ∧ st2.decodedChars ≤ totalFreq := by
  intro bits
  induction bits with
  | nil => intro st h1 h2 h3; exact ⟨st, rfl, h1, h2, h3⟩
  | cons b rest ih =>
    intro st h1 h2 h3
    by_cases hd : st.decodedChars = totalFreq
    · exact ⟨st, by simp [decodeBits, hd], h1, h2, h3⟩
    · obtain ⟨st2, e1, e2, e3, e4⟩ := decodeStep_safe root st b hroot h1
      have hlen : st2.decodedChars = st2.output.length := by omega
      have hle : st2.decodedChars ≤ totalFreq := by omega
      obtain ⟨st3, g1, g2, g3, g4⟩ := ih st2 e2 hlen hle
      exact ⟨st3, by simp [decodeBits, hd, e1, g1], g2, g3, g4⟩

theorem proper_root_children (root : HuffmanNode) (hp : Proper root)
    (h2 : 2 ≤ (leafPairs root).length) :
    ∃ d f l r, root = HuffmanNode.node d f l r ∧ Proper l ∧ Proper r := by
  obtain ⟨d, f, l, r, rfl, hn⟩ := root_not_leaf root hp h2
  simp only [Proper] at hp
  rcases hp with h | h
  · exact absurd h hn
  · exact ⟨d, f, l, r, rfl, h⟩

theorem decodeBytes_done (root : HuffmanNode) (totalFreq : Int) (bytes : List Byte)
    (st : DecodeState) (h : st.decodedChars = totalFreq) :
    decodeBytes root totalFreq bytes st = some st := by
  rw [decodeBytes_eq_decodeBits]
  exact decodeBits_done root totalFreq _ st h

/-! ## A payload that is cut short -/

/-- In a tree whose root has two well-formed children the decoding loop is defined on
every bit sequence, whatever `totalFreq` is. -/
theorem decodeBits_defined (root : HuffmanNode) (totalFreq : Int)
    (hroot : ∃ d f l r, root = HuffmanNode.node d f l r ∧ Proper l ∧ Proper r) :
    ∀ (bits : List Bool) (st : DecodeState),
      (∃ d f l r, st.currentNode = HuffmanNode.node d f l r ∧ Proper l ∧ Proper r) →
      ∃ st2, decodeBits root totalFreq bits st = some st2 := by
  intro bits
  induction bits with
  | nil => intro st _; exact ⟨st, rfl⟩
  | cons b rest ih =>
    intro st h1
    by_cases hd : st.decodedChars = totalFreq
    · exact ⟨st, by simp [decodeBits, hd]⟩
    · obtain ⟨st2, e1, e2, _, _⟩ := decodeStep_safe root st b hroot h1
      obtain ⟨st3, g1⟩ := ih st2 e2
      exact ⟨st3, by simp [decodeBits, hd, e1, g1]⟩

theorem flatMap_bitsOfByte_take : ∀ (bytes : List Byte) (j : Nat),
    (bytes.take j).flatMap bitsOfByte = (bytes.flatMap bitsOfByte).take (8 * j) := by
  intro bytes
  induction bytes with
  | nil => intro j; simp
  | cons b rest ih =>
    intro j
    cases j with
    | zero => simp
    | succ j =>
      have hlen : (bitsOfByte b).length = 8 := length_bitsOfByte b
      rw [List.take_succ_cons, List.flatMap_cons, List.flatMap_cons, ih j,
        List.take_append_eq_append_take, hlen]
      have h1 : List.take (8 * (j + 1)) (bitsOfByte b) = bitsOfByte b :=
        List.take_of_length_le (by omega)
      have h2 : 8 * (j + 1) - 8 = 8 * j := by omega
      rw [h1, h2]

/-- Bits that stop inside a code move the walk down the tree and emit nothing. -/
theorem decodeBits_partial (root : HuffmanNode) (totalFreq : Int) :
    ∀ (c1 : List Bool) (t : HuffmanNode) (x : Byte) (c2 : List Bool),
      PathTo t x (c1 ++ c2) → c2 ≠ [] →
      ∀ (n : Int) (out : List Byte), n ≠ totalFreq →
        ∃ t2, decodeBits root totalFreq c1
            { currentNode := t, decodedChars := n, output := out }
          = some { currentNode := t2, decodedChars := n, output := out } := by
  intro c1
  induction c1 with
  | nil => intro t x c2 _ _ n out _; exact ⟨t, rfl⟩
  | cons b c1 ih =>
    intro t x c2 hpath hc2 n out hn
    rw [List.cons_append] at hpath
    obtain ⟨d, f, l, r, rfl, _, hsub⟩ := pathTo_cons_shape t x b (c1 ++ c2) hpath
    have hne : c1 ++ c2 ≠ [] := by
      intro h
      exact hc2 (List.append_eq_nil.1 h).2
    obtain ⟨b2, c3, hcons⟩ := List.exists_cons_of_ne_nil hne
    have hsub2 := hsub
    rw [hcons] at hsub2
    obtain ⟨d2, f2, l2, r2, hshape, hnl2, _⟩ := pathTo_cons_shape _ x b2 c3 hsub2
    have hstep : decodeStep root
        { currentNode := HuffmanNode.node d f l r, decodedChars := n, output := out } b
        = some { currentNode := (if b then r else l), decodedChars := n, output := out } := by
      simp only [decodeStep, hshape]
      simp [hnl2]
    obtain ⟨t2, e⟩ := ih (if b then r else l) x c2 hsub hc2 n out hn
    exact ⟨t2, by simp only [decodeBits, hn, if_false, hstep]; exact e⟩

theorem codeBits_cons (codes : CodeMap) (s : Byte) (rest : List Byte) :
    codeBits codes (s :: rest) = (codes s).getD [] ++ codeBits codes rest := by
  simp [codeBits]

/-- Decoding the first `m` bits of the code string of `input`, when bits are missing:
the output is the first `k` symbols, `k` being the number of leading symbols whose codes
lie within the `m` bits. -/
theorem decodeBits_take (root : HuffmanNode) (totalFreq : Int) (codes : CodeMap)
    (hroot : ∀ x c, PathTo root x c → c ≠ []) :
    ∀ (input : List Byte) (m : Nat) (n : Int) (out : List Byte),
      (∀ s ∈ input, ∃ c, codes s = some c ∧ PathTo root s c) →
      m < (codeBits codes input).length → n + input.length ≤ totalFreq →
      ∃ k t2, k < input.length ∧
        (codeBits codes (input.take k)).length ≤ m ∧
        m < (codeBits codes (input.take (k + 1))).length ∧
        decodeBits root totalFreq ((codeBits codes input).take m)
            { currentNode := root, decodedChars := n, output := out }
          = some { currentNode := t2, decodedChars := n + k, output := out ++ input.take k } := by
  intro input
  induction input with
  | nil => intro m n out _ hm _; simp [codeBits] at hm
  | cons s rest ih =>
    intro m n out hcodes hm hle
    obtain ⟨c, hc1, hc2⟩ := hcodes s (List.mem_cons_self _ _)
    have hcb : codeBits codes (s :: rest) = c ++ codeBits codes rest := by
      rw [codeBits_cons, hc1, Option.getD_some]
    have hlen : (n : Int) + 1 + rest.length ≤ totalFreq := by
      simp only [List.length_cons, Nat.cast_add, Nat.cast_one] at hle; omega
    have hn : n ≠ totalFreq := by
      have : (0 : Int) ≤ rest.length := Int.natCast_nonneg _
      omega
    rw [hcb] at hm ⊢
    rw [List.length_append] at hm
    by_cases hshort : m < c.length
    · -- the bits end inside the code of the first symbol
      have hsplit : c = c.take m ++ c.drop m := (List.take_append_drop m c).symm
      have hdrop : c.drop m ≠ [] := by
        intro h
        have := congrArg List.length h
        simp only [List.length_drop, List.length_nil] at this
        omega
      have hpath : PathTo root s (c.take m ++ c.drop m) := by rw [← hsplit]; exact hc2
      obtain ⟨t2, e⟩ := decodeBits_partial root totalFreq (c.take m) root s (c.drop m)
        hpath hdrop n out hn
      refine ⟨0, t2, by simp, by simp [codeBits], ?_, ?_⟩
      · simp only [zero_add, List.take_succ_cons, List.take_zero]
        rw [codeBits_cons, hc1, Option.getD_some]
        simp only [codeBits, List.flatMap_nil, List.append_nil]
        exact hshort
      · rw [List.take_append_of_le_length (by omega), e]
        simp
    · -- the code of the first symbol is complete
      have hge : c.length ≤ m := by omega
      have htake : (c ++ codeBits codes rest).take m
          = c ++ (codeBits codes rest).take (m - c.length) := by
        rw [List.take_append_eq_append_take, List.take_of_length_le hge]
      obtain ⟨k, t2, k1, k2, k3, k4⟩ := ih (m - c.length) (n + 1) (out ++ [s])
        (fun s2 h2 => hcodes s2 (List.mem_cons_of_mem _ h2)) (by omega) hlen
      refine ⟨k + 1, t2, by simp only [List.length_cons]; omega, ?_, ?_, ?_⟩
      · rw [List.take_succ_cons, codeBits_cons, hc1, Option.getD_some, List.length_append]
        omega
      · rw [List.take_succ_cons, codeBits_cons, hc1, Option.getD_some, List.length_append]
        omega
      · rw [htake, decodeBits_append,
          decodeBits_path root totalFreq c root s hc2 (hroot s c hc2) n out hn]
        simp only
        rw [k4]
        simp only [List.take_succ_cons, List.append_assoc, List.singleton_append,
          Nat.cast_add, Nat.cast_one]
        congr 2
        omega

/-- What `decompressFile` does with any bytes after a header written by `compressFile`
for an input with two distinct byte values: it ends with the success message. -/
theorem decompressFile_never_fails (order : IterationOrder) (input : List Byte) (a b : Byte)
    (ha : a ∈ input) (hb : b ∈ input) (hab : a ≠ b) (payload : List Byte) :
    ∃ out, decompressFile order
        (writeHeader (countFrequencies input).length (order.visit (countFrequencies input))
          ++ payload) = Outcome.success out := by
  obtain ⟨f1, f2, f3, f4, _⟩ := visited_table_facts order input
  have h2 : 2 ≤ (order.visit (countFrequencies input)).length := by
    rw [← List.length_map (order.visit (countFrequencies input)) Prod.fst]
    exact two_le_length_of_mem _ a b ((f4 a).2 ha) ((f4 b).2 hb) hab
  have hlen2 : 2 ≤ (order.visit (order.visit (countFrequencies input))).length := by
    rw [(order.perm _).length_eq]; exact h2
  have hne : order.visit (order.visit (countFrequencies input)) ≠ [] := by
    intro e; rw [e] at hlen2; simp at hlen2
  obtain ⟨root, e1, e2, e3⟩ := buildHuffmanTree_proper _ hne
  have hleaves : 2 ≤ (leafPairs root).length := by rw [e3.length_eq]; exact hlen2
  have hroot := proper_root_children root e2 hleaves
  obtain ⟨st, g1⟩ := decodeBits_defined root
    ((order.visit (countFrequencies input)).map Prod.snd).sum hroot
    (payload.flatMap bitsOfByte) (initialState root) hroot
  refine ⟨st.output, ?_⟩
  rw [← f3, decompressFile_of_header order _ f1 f2, e1]
  simp only [decodeBytes_eq_decodeBits, g1]

/-- Decoding a payload cut to its first `j` bytes, in the tree of the encoder. -/
theorem decode_truncated_payload (root : HuffmanNode) (hp : Proper root)
    (h2 : 2 ≤ (leafPairs root).length) (input : List Byte)
    (hin : ∀ s ∈ input, s ∈ (leafPairs root).map Prod.fst) (j : Nat)
    (hj : j < (writePayload (codesOf root) input).length) :
    ∃ k st, k < input.length ∧
      (codeBits (codesOf root) (input.take k)).length ≤ 8 * j ∧
      8 * j < (codeBits (codesOf root) (input.take (k + 1))).length ∧
      decodeBytes root input.length ((writePayload (codesOf root) input).take j)
        (initialState root) = some st ∧ st.output = input.take k := by
  obtain ⟨d, f, l, r, hroot, hnl⟩ := root_not_leaf root hp h2
  have hne : ∀ x c, PathTo root x c → c ≠ [] := by
    intro x c hpath
    rw [hroot] at hpath
    exact pathTo_nonempty d f l r x c hnl hpath
  have hcodes : ∀ s ∈ input, ∃ c, codesOf root s = some c ∧ PathTo root s c := by
    intro s hs
    obtain ⟨c, h1, h2⟩ := (codesOf_spec root hp s).1 (hin s hs)
    exact ⟨c, h2, h1⟩
  obtain ⟨pad, _, hbits, hlen⟩ := writePayload_spec (codesOf root) input
  have hm : 8 * j < (codeBits (codesOf root) input).length := by
    rw [hlen] at hj
    omega
  obtain ⟨k, t2, k1, k2, k3, k4⟩ := decodeBits_take root input.length (codesOf root) hne
    input (8 * j) 0 [] hcodes hm (by simp)
  refine ⟨k, { currentNode := t2, decodedChars := 0 + k, output := [] ++ input.take k },
    k1, k2, k3, ?_, ?_⟩
  · rw [decodeBytes_eq_decodeBits, flatMap_bitsOfByte_take, hbits,
      List.take_append_of_le_length (by omega), initialState]
    exact k4
  · simp

/-! ## A tree with a single leaf -/

theorem visit_singleton (order : IterationOrder) (pair : Byte × Int) :
    order.visit [pair] = [pair] :=
  List.perm_singleton.1 (order.perm [pair])

theorem buildHuffmanTree_singleton (s : Byte) (k : Int) :
    buildHuffmanTree [(s, k)] = some (newNode s k) := rfl

theorem codesOf_newNode (s : Byte) (k : Int) (x : Byte) :
    (codesOf (newNode s k) x).getD [] = [] := by
  by_cases hx : x = s
  · simp [codesOf, newNode, generateCodes, Function.update, hx]
  · simp [codesOf, newNode, generateCodes, Function.update, hx]

theorem writePayload_of_empty_codes (codes : CodeMap) (input : List Byte)
    (h : ∀ s ∈ input, (codes s).getD [] = []) : writePayload codes input = [] := by
  have hfold : ∀ (l : List Byte) (w : BitWriter), (∀ s ∈ l, (codes s).getD [] = []) →
      l.foldl (putSymbol codes) w = w := by
    intro l
    induction l with
    | nil => intro w _; rfl
    | cons s rest ih =>
      intro w hl
      rw [List.foldl_cons]
      have : putSymbol codes w s = w := by
        simp [putSymbol, hl s (List.mem_cons_self _ _)]
      rw [this]
      exact ih w (fun s2 h2 => hl s2 (List.mem_cons_of_mem _ h2))
  unfold writePayload
  rw [hfold input _ h]
  rfl

theorem decodeBytes_single_leaf (s : Byte) (k : Int) (payload : List Byte) :
    decodeBytes (newNode s k) k payload (initialState (newNode s k)) =
      if k = 0 ∨ payload = [] then some (initialState (newNode s k)) else none := by
  by_cases hk : k = 0
  · simp only [hk, true_or, if_true]
    exact decodeBytes_done _ _ _ _ rfl
  · cases payload with
    | nil => simp [decodeBytes]
    | cons b rest =>
      have hk2 : ¬ (0 : Int) = k := fun e => hk e.symm
      have hstep : ∀ x, decodeStep (newNode s k) (initialState (newNode s k)) x = none := by
        intro x; cases x <;> rfl
      obtain ⟨x, xs, hx⟩ : ∃ x xs, bitsOfByte b = x :: xs := ⟨_, _, rfl⟩
      have hbits : decodeBits (newNode s k) k (bitsOfByte b) (initialState (newNode s k))
          = none := by
        rw [hx, decodeBits, hstep]
        simp [initialState, hk2]
      simp [decodeBytes, hbits, hk]

theorem compressFile_single (order : IterationOrder) (input : List Byte) (a : Byte)
    (hne : input ≠ []) (hall : ∀ s ∈ input, s = a) :
    compressFile order input
      = Outcome.success (writeHeader 1 [(a, wrapInt32 ↑input.length)]) := by
  have hm := countFrequencies_single input a hne hall
  have hpay : writePayload (codesOf (newNode a (wrapInt32 ↑input.length))) input = [] :=
    writePayload_of_empty_codes _ _ (fun s _ => codesOf_newNode _ _ s)
  unfold compressFile
  simp only [hm, visit_singleton, buildHuffmanTree_singleton, hpay]
  simp

theorem length_writeHeader (mapSize : Nat) (entries : List (Byte × Int)) :
    (writeHeader mapSize entries).length = 4 + 5 * entries.length := by
  have h : ∀ l : List (Byte × Int), (l.flatMap headerRecord).length = 5 * l.length := by
    intro l
    induction l with
    | nil => rfl
    | cons p rest ih =>
      rw [List.flatMap_cons, List.length_append, ih, List.length_cons]
      have : (headerRecord p).length = 5 := rfl
      omega
  rw [writeHeader, List.length_append, h]
  rfl

/-! ## Claims C1 to C10 -/

/-- C1 (round trip for every non-empty input), evaluated on inputs with a single
distinct byte value: for `n + 1` repetitions of a byte `a`, `compressFile` succeeds
and writes a file on which `decompressFile` ends with the success message and an
empty output file, so the input is not restored. -/
theorem C1_single_symbol_input_decodes_to_nothing (order : IterationOrder) (a : Byte)
    (n : Nat) :
    ∃ file, compressFile order (List.replicate (n + 1) a) = Outcome.success file ∧
      decompressFile order file = Outcome.success [] ∧
      List.replicate (n + 1) a ≠ [] := by
  have hne : List.replicate (n + 1) a ≠ [] := by simp
  have hall : ∀ s ∈ List.replicate (n + 1) a, s = a := fun s hs => List.eq_of_mem_replicate hs
  refine ⟨writeHeader 1 [(a, wrapInt32 ↑(List.replicate (n + 1) a).length)],
    compressFile_single order _ a hne hall, ?_, hne⟩
  have h := decompressFile_of_header order
    [(a, wrapInt32 ↑(List.replicate (n + 1) a).length)] (by simp)
    (by intro pair hp; simp only [List.mem_singleton] at hp; rw [hp];
        exact wrapInt32_inInt32 _) []
  simp only [List.length_singleton, List.append_nil, visit_singleton,
    buildHuffmanTree_singleton, decodeBytes] at h
  exact h

/-- C2 (round trip, multi-symbol input): for every input that contains two distinct
byte values and in which every byte value occurs fewer than `2^31` times,
`compressFile` succeeds and `decompressFile` on the file it wrote ends with exactly
the input as output, provided the decoder's frequency map is visited in the order in
which the encoder visited its own. -/
theorem C2_roundtrip_multi_symbol (order : IterationOrder) (input : List Byte) (a b : Byte)
    (ha : a ∈ input) (hb : b ∈ input) (hab : a ≠ b)
    (hc : ∀ x, input.count x < 2147483648)
    (hord : order.visit (order.visit (countFrequencies input))
      = order.visit (countFrequencies input)) :
    ∃ file, compressFile order input = Outcome.success file ∧
      decompressFile order file = Outcome.success input := by
  obtain ⟨file, h1, h2⟩ := roundtrip_of_facts order input a b ha hb hab hc hord []
  rw [List.append_nil] at h2
  exact ⟨file, h1, h2⟩

set_option maxRecDepth 100000 in

/-- C2 at the input "aaabbc" with the map visited in insertion order. -/
theorem C2_roundtrip_multi_symbol_witness :
    (97 : Byte) ∈ ([97, 97, 97, 98, 98, 99] : List Byte) ∧
    (98 : Byte) ∈ ([97, 97, 97, 98, 98, 99] : List Byte) ∧ (97 : Byte) ≠ 98 ∧
    (∀ x, ([97, 97, 97, 98, 98, 99] : List Byte).count x < 2147483648) ∧
    ∃ file, compressFile insertionOrder [97, 97, 97, 98, 98, 99] = Outcome.success file ∧
      decompressFile insertionOrder file = Outcome.success [97, 97, 97, 98, 98, 99] :=
  ⟨by decide, by decide, by decide, by decide,
    C2_roundtrip_multi_symbol insertionOrder [97, 97, 97, 98, 98, 99] 97 98
      (by decide) (by decide) (by decide) (by decide) rfl⟩

/-- C3 (empty input): on a zero-byte input `compressFile` takes its early return,
before the tree builder is called, and leaves a zero-byte output file; on a zero-byte
input `decompressFile` takes its early return and leaves a zero-byte output file. -/
theorem C3_empty_input (order : IterationOrder) :
    compressFile order [] = Outcome.emptyInput ∧
    (compressFile order []).file = some [] ∧
    decompressFile order [] = Outcome.emptyInput ∧
    (decompressFile order []).file = some [] :=
  ⟨rfl, rfl, rfl, rfl⟩

/-- C4 (single-leaf decoding), what the code does: on a file whose header holds
exactly one record (symbol `s`, frequency bytes `b0 b1 b2 b3`), `decompressFile`
writes nothing and ends normally when the stored frequency is zero or the payload is
empty, and otherwise dereferences the missing child of the single leaf on the first
payload bit; it never writes `s`. -/
theorem C4_single_leaf_decoding (order : IterationOrder) (s b0 b1 b2 b3 : Byte)
    (payload : List Byte) :
    decompressFile order ([1, 0, 0, 0, s, b0, b1, b2, b3] ++ payload) =
      if int32OfBytes b0 b1 b2 b3 = 0 ∨ payload = [] then Outcome.success []
      else Outcome.undefined := by
  have hread : readFrequencies ([1, 0, 0, 0, s, b0, b1, b2, b3] ++ payload)
      = some ([(s, int32OfBytes b0 b1 b2 b3)], 0 + int32OfBytes b0 b1 b2 b3, payload) := rfl
  rw [zero_add] at hread
  rw [decompressFile_of_read order _ _ _ _ hread, visit_singleton,
    buildHuffmanTree_singleton]
  simp only [decodeBytes_single_leaf]
  by_cases h : int32OfBytes b0 b1 b2 b3 = 0 ∨ payload = []
  · simp only [h, if_true]; rfl
  · simp only [h, if_false]

/-- C5 (corruption detection) fails as stated: the file written for "aaabbc" has the
two payload bytes `31, 0`; with the payload cut to its first byte the bits end after
five of the six symbols, and `decompressFile` ends with the success message and the
five-byte output "aaabb". -/
theorem C5_counterexample :
    compressFile insertionOrder [97, 97, 97, 98, 98, 99] = Outcome.success
      [3, 0, 0, 0, 97, 3, 0, 0, 0, 98, 2, 0, 0, 0, 99, 1, 0, 0, 0, 31, 0] ∧
    decompressFile insertionOrder
      [3, 0, 0, 0, 97, 3, 0, 0, 0, 98, 2, 0, 0, 0, 99, 1, 0, 0, 0, 31]
      = Outcome.success [97, 97, 97, 98, 98] := by
  decide

/-- C5 (amended): for a file written by `compressFile` from an input with two distinct
byte values, (1) whatever bytes follow the header, so also when the payload is cut
short, `decompressFile` reports no failure: it ends with the success message; (2) when
each byte value occurs fewer than `2^31` times and the decoder visits the map in the
encoder's order, cutting the payload to its first `j` bytes, `j` less than the
payload's length, makes the output exactly the first `n` symbols of the input, where
`n` is less than the input's length and is the number of leading symbols whose codes
lie within the `8 * j` bits that are kept. -/
theorem C5_truncated_payload_ends_in_success (order : IterationOrder) (input : List Byte)
    (a b : Byte) (ha : a ∈ input) (hb : b ∈ input) (hab : a ≠ b) :
    ∃ root, buildHuffmanTree (order.visit (countFrequencies input)) = some root ∧
      compressFile order input = Outcome.success
        (writeHeader (countFrequencies input).length (order.visit (countFrequencies input))
          ++ writePayload (codesOf root) input) ∧
      (∀ payload : List Byte, ∃ out, decompressFile order
        (writeHeader (countFrequencies input).length (order.visit (countFrequencies input))
          ++ payload) = Outcome.success out) ∧
      ((∀ x, input.count x < 2147483648) →
        order.visit (order.visit (countFrequencies input))
          = order.visit (countFrequencies input) →
        ∀ j, j < (writePayload (codesOf root) input).length →
          ∃ n, n < input.length ∧
            (codeBits (codesOf root) (input.take n)).length ≤ 8 * j ∧
            8 * j < (codeBits (codesOf root) (input.take (n + 1))).length ∧
            decompressFile order
              (writeHeader (countFrequencies input).length
                  (order.visit (countFrequencies input))
                ++ (writePayload (codesOf root) input).take j)
              = Outcome.success (input.take n)) := by
  have hne : input ≠ [] := List.ne_nil_of_mem ha
  obtain ⟨root, e1, e2, e3, e4⟩ := compressFile_success order input hne
  refine ⟨root, e1, e4, ?_, ?_⟩
  · intro payload
    exact decompressFile_never_fails order input a b ha hb hab payload
  · intro hc hord j hj
    obtain ⟨f1, f2, f3, f4, f5⟩ := visited_table_facts order input
    have hleaves : ∀ s ∈ input, s ∈ (leafPairs root).map Prod.fst := by
      intro s hs
      exact (e3.map Prod.fst).mem_iff.2 ((f4 s).2 hs)
    have h2 : 2 ≤ (leafPairs root).length := by
      rw [e3.length_eq, ← List.length_map (order.visit (countFrequencies input)) Prod.fst]
      exact two_le_length_of_mem _ a b ((f4 a).2 ha) ((f4 b).2 hb) hab
    obtain ⟨k, st, k1, k2, k3, k4, k5⟩ :=
      decode_truncated_payload root e2 h2 input hleaves j hj
    refine ⟨k, k1, k2, k3, ?_⟩
    rw [← f3, decompressFile_of_header order _ f1 f2, hord, e1, f5,
      sum_countFrequencies input hc]
    simp only [k4, k5]

set_option maxRecDepth 100000 in
/-- C5 (amended) at "aaabbc" with the two-byte payload cut to its first byte. -/
theorem C5_truncated_payload_ends_in_success_witness :
    (97 : Byte) ∈ ([97, 97, 97, 98, 98, 99] : List Byte) ∧
    (98 : Byte) ∈ ([97, 97, 97, 98, 98, 99] : List Byte) ∧ (97 : Byte) ≠ 98 ∧
    (∀ x, ([97, 97, 97, 98, 98, 99] : List Byte).count x < 2147483648) ∧
    ∃ root,
      buildHuffmanTree (insertionOrder.visit (countFrequencies [97, 97, 97, 98, 98, 99]))
        = some root ∧
      compressFile insertionOrder [97, 97, 97, 98, 98, 99] = Outcome.success
        (writeHeader (countFrequencies [97, 97, 97, 98, 98, 99]).length
            (insertionOrder.visit (countFrequencies [97, 97, 97, 98, 98, 99]))
          ++ writePayload (codesOf root) [97, 97, 97, 98, 98, 99]) ∧
      (∀ payload : List Byte, ∃ out, decompressFile insertionOrder
        (writeHeader (countFrequencies [97, 97, 97, 98, 98, 99]).length
            (insertionOrder.visit (countFrequencies [97, 97, 97, 98, 98, 99]))
          ++ payload) = Outcome.success out) ∧
      1 < (writePayload (codesOf root) [97, 97, 97, 98, 98, 99]).length ∧
      ∃ n, n < ([97, 97, 97, 98, 98, 99] : List Byte).length ∧
        (codeBits (codesOf root) (([97, 97, 97, 98, 98, 99] : List Byte).take n)).length
          ≤ 8 * 1 ∧
        8 * 1 < (codeBits (codesOf root)
          (([97, 97, 97, 98, 98, 99] : List Byte).take (n + 1))).length ∧
        decompressFile insertionOrder
          (writeHeader (countFrequencies [97, 97, 97, 98, 98, 99]).length
              (insertionOrder.visit (countFrequencies [97, 97, 97, 98, 98, 99]))
            ++ (writePayload (codesOf root) [97, 97, 97, 98, 98, 99]).take 1)
          = Outcome.success (([97, 97, 97, 98, 98, 99] : List Byte).take n) := by
  refine ⟨by decide, by decide, by decide, by decide, ?_⟩
  obtain ⟨root, e0, e1, e2, e3⟩ :=
    C5_truncated_payload_ends_in_success insertionOrder [97, 97, 97, 98, 98, 99] 97 98
      (by decide) (by decide) (by decide)
  have hroot :
      buildHuffmanTree (insertionOrder.visit (countFrequencies [97, 97, 97, 98, 98, 99]))
        = some (HuffmanNode.node 0 6 (newNode 97 3)
            (HuffmanNode.node 0 3 (newNode 99 1) (newNode 98 2))) := by
    decide
  have hr := e0.symm.trans hroot
  cases hr
  have hlen : 1 < (writePayload (codesOf (HuffmanNode.node 0 6 (newNode 97 3)
      (HuffmanNode.node 0 3 (newNode 99 1) (newNode 98 2)))) [97, 97, 97, 98, 98, 99]).length := by
    decide
  exact ⟨_, hroot, e1, e2, hlen, e3 (by decide) rfl 1 hlen⟩

/-- C6 (padding and trailing bits) fails as stated, in both halves.  First, a
header with the records (`a`, frequency bytes `FF FF FF FF`) and (`b`, 0) stores the
frequencies -1 and 0, so `totalFreq` is -1, its tree has two leaves, and on the
one-byte payload `00` the decoder writes eight symbols.  Second, with the map
visited in reverse insertion order, the file written for the nine-byte input
`2 1 5 3 2 6 4 2 3` decodes to eight symbols, and to nine when a byte `FF` is
appended to it. -/
theorem C6_counterexample :
    (readFrequencies [2, 0, 0, 0, 97, 255, 255, 255, 255, 98, 0, 0, 0, 0, 0]
        = some ([(97, -1), (98, 0)], -1, [0]) ∧
      decompressFile insertionOrder [2, 0, 0, 0, 97, 255, 255, 255, 255, 98, 0, 0, 0, 0, 0]
        = Outcome.success [97, 97, 97, 97, 97, 97, 97, 97]) ∧
    (compressFile reverseOrder [2, 1, 5, 3, 2, 6, 4, 2, 3] = Outcome.success
        [6, 0, 0, 0, 4, 1, 0, 0, 0, 6, 1, 0, 0, 0, 3, 2, 0, 0, 0, 5, 1, 0, 0, 0,
          1, 1, 0, 0, 0, 2, 3, 0, 0, 0, 211, 178, 56] ∧
      decompressFile reverseOrder
        [6, 0, 0, 0, 4, 1, 0, 0, 0, 6, 1, 0, 0, 0, 3, 2, 0, 0, 0, 5, 1, 0, 0, 0,
          1, 1, 0, 0, 0, 2, 3, 0, 0, 0, 211, 178, 56]
        = Outcome.success [2, 6, 5, 4, 1, 1, 5, 1] ∧
      decompressFile reverseOrder
        ([6, 0, 0, 0, 4, 1, 0, 0, 0, 6, 1, 0, 0, 0, 3, 2, 0, 0, 0, 5, 1, 0, 0, 0,
          1, 1, 0, 0, 0, 2, 3, 0, 0, 0, 211, 178, 56] ++ [255])
        = Outcome.success [2, 6, 5, 4, 1, 1, 5, 1, 5]) := by
  decide

/-- C6 (amended): (1) for every file whose header is read in full, holds at least
two entries and stores frequencies with a non-negative sum `totalFreq`, and for
every payload, `decompressFile` ends with the success message and writes at most
`totalFreq` symbols; (2) for a file written by `compressFile` from an input with two
distinct byte values (each fewer than `2^31` times), when the decoder visits the map
in the encoder's order, decoding the file followed by any bytes gives the same
output as decoding the file, namely the input. -/
theorem C6_trailing_bits_not_decoded (order : IterationOrder) :
    (∀ (file : List Byte) (frequencies : FreqMap) (totalFreq : Int) (payload : List Byte),
      readFrequencies file = some (frequencies, totalFreq, payload) →
      2 ≤ frequencies.length → 0 ≤ totalFreq →
      ∃ out, decompressFile order file = Outcome.success out ∧
        (out.length : Int) ≤ totalFreq) ∧
    (∀ (input : List Byte) (a b : Byte), a ∈ input → b ∈ input → a ≠ b →
      (∀ x, input.count x < 2147483648) →
      order.visit (order.visit (countFrequencies input))
        = order.visit (countFrequencies input) →
      ∀ extra : List Byte, ∃ file, compressFile order input = Outcome.success file ∧
        decompressFile order (file ++ extra) = Outcome.success input ∧
        decompressFile order file = Outcome.success input) := by
  constructor
  · intro file frequencies totalFreq payload hread h2 h0
    have hne : order.visit frequencies ≠ [] := by
      intro e
      have := (order.perm frequencies).length_eq
      rw [e] at this
      simp at this
      omega
    obtain ⟨root, e1, e2, e3⟩ := buildHuffmanTree_proper (order.visit frequencies) hne
    have hlen : 2 ≤ (leafPairs root).length := by
      rw [e3.length_eq, (order.perm frequencies).length_eq]; exact h2
    have hroot := proper_root_children root e2 hlen
    obtain ⟨st, g1, _, g3, g4⟩ := decodeBits_safe root totalFreq hroot
      (payload.flatMap bitsOfByte) (initialState root) hroot rfl h0
    refine ⟨st.output, ?_, by rw [← g3]; exact g4⟩
    rw [decompressFile_of_read order _ _ _ _ hread, e1]
    simp only [decodeBytes_eq_decodeBits, g1]
  · intro input a b ha hb hab hc hord extra
    obtain ⟨file, h1, h2⟩ := roundtrip_of_facts order input a b ha hb hab hc hord extra
    obtain ⟨file2, h3, h4⟩ := roundtrip_of_facts order input a b ha hb hab hc hord []
    rw [h1] at h3
    cases h3
    rw [List.append_nil] at h4
    exact ⟨file, h1, h2, h4⟩

set_option maxRecDepth 100000 in

/-- C6 (amended) at the file written for "aaabbc", and at that input followed by
three more bytes. -/
theorem C6_trailing_bits_not_decoded_witness :
    (readFrequencies [3, 0, 0, 0, 97, 3, 0, 0, 0, 98, 2, 0, 0, 0, 99, 1, 0, 0, 0, 31, 0]
        = some ([(97, 3), (98, 2), (99, 1)], 6, [31, 0]) ∧
      2 ≤ ([(97, 3), (98, 2), (99, 1)] : FreqMap).length ∧ (0 : Int) ≤ 6 ∧
      ∃ out, decompressFile insertionOrder
          [3, 0, 0, 0, 97, 3, 0, 0, 0, 98, 2, 0, 0, 0, 99, 1, 0, 0, 0, 31, 0]
          = Outcome.success out ∧ (out.length : Int) ≤ 6) ∧
    ((97 : Byte) ∈ ([97, 97, 97, 98, 98, 99] : List Byte) ∧
      (98 : Byte) ∈ ([97, 97, 97, 98, 98, 99] : List Byte) ∧ (97 : Byte) ≠ 98 ∧
      (∀ x, ([97, 97, 97, 98, 98, 99] : List Byte).count x < 2147483648) ∧
      ∃ file, compressFile insertionOrder [97, 97, 97, 98, 98, 99] = Outcome.success file ∧
        decompressFile insertionOrder (file ++ [1, 2, 3])
          = Outcome.success [97, 97, 97, 98, 98, 99] ∧
        decompressFile insertionOrder file = Outcome.success [97, 97, 97, 98, 98, 99]) :=
  ⟨⟨by decide, by decide, by decide,
      (C6_trailing_bits_not_decoded insertionOrder).1 _ _ _ _
        (by decide : readFrequencies
          [3, 0, 0, 0, 97, 3, 0, 0, 0, 98, 2, 0, 0, 0, 99, 1, 0, 0, 0, 31, 0]
          = some ([(97, 3), (98, 2), (99, 1)], 6, [31, 0])) (by decide) (by decide)⟩,
    ⟨by decide, by decide, by decide, by decide,
      (C6_trailing_bits_not_decoded insertionOrder).2 [97, 97, 97, 98, 98, 99] 97 98
        (by decide) (by decide) (by decide) (by decide) rfl [1, 2, 3]⟩⟩

/-- C7 (frequency fidelity) fails as stated for a byte value that occurs `2^31`
times: the `int` counter wraps, the header written for `2^31` zero bytes stores the
frequency `-2^31`, and the header loop reads back the record `(0, -2^31)` with
`totalFreq = -2^31`, while the byte occurs `2^31` times in an input of that length. -/
theorem C7_counterexample :
    compressFile insertionOrder (List.replicate 2147483648 0)
      = Outcome.success (writeHeader 1 [(0, -2147483648)]) ∧
    readFrequencies (writeHeader 1 [(0, -2147483648)])
      = some ([(0, -2147483648)], -2147483648, []) ∧
    (List.replicate 2147483648 (0 : Byte)).count 0 = 2147483648 ∧
    (List.replicate 2147483648 (0 : Byte)).length = 2147483648 := by
  refine ⟨?_, by decide, List.count_replicate_self _ _, List.length_replicate _ _⟩
  have h := compressFile_single insertionOrder (List.replicate 2147483648 0) 0
    (by rw [Ne, List.replicate_eq_nil_iff]; decide) (fun s hs => List.eq_of_mem_replicate hs)
  rw [List.length_replicate] at h
  have hw : wrapInt32 ((2147483648 : Nat) : Int) = -2147483648 := by decide
  rw [hw] at h
  exact h

/-- C7 (amended): for every non-empty input in which every byte value occurs fewer
than `2^31` times, the file written by `compressFile` starts with a header of
`4 + 5 k` bytes, `k` being the number of distinct byte values of the input: the
count `k`, then one (symbol, frequency) record per entry visited.  The header loop of
`decompressFile` reads back from it a map whose entries are exactly the pairs (byte
value occurring in the input, its number of occurrences), stops at the first payload
byte, and the frequencies sum to the length of the input. -/
theorem C7_frequency_fidelity (order : IterationOrder) (input : List Byte)
    (hne : input ≠ []) (hc : ∀ x, input.count x < 2147483648) :
    ∃ root frequencies,
      compressFile order input = Outcome.success
        (writeHeader input.dedup.length (order.visit (countFrequencies input))
          ++ writePayload (codesOf root) input) ∧
      (order.visit (countFrequencies input)).length = input.dedup.length ∧
      (writeHeader input.dedup.length (order.visit (countFrequencies input))).length
        = 4 + 5 * input.dedup.length ∧
      readFrequencies
        (writeHeader input.dedup.length (order.visit (countFrequencies input))
          ++ writePayload (codesOf root) input)
        = some (frequencies, (input.length : Int), writePayload (codesOf root) input) ∧
      (∀ pair, pair ∈ frequencies ↔
        pair.1 ∈ input ∧ pair.2 = (input.count pair.1 : Int)) ∧
      (frequencies.map Prod.snd).sum = (input.length : Int) := by
  obtain ⟨root, _, _, _, e4⟩ := compressFile_success order input hne
  obtain ⟨f1, f2, f3, _, f5⟩ := visited_table_facts order input
  have hk := length_countFrequencies input
  have hsum := sum_countFrequencies input hc
  have hread := readFrequencies_of_header (order.visit (countFrequencies input)) f1 f2
    (writePayload (codesOf root) input)
  rw [f3, hk, f5, hsum] at hread
  refine ⟨root, order.visit (countFrequencies input), ?_, by rw [f3, hk], ?_, hread, ?_,
    by rw [f5, hsum]⟩
  · rw [← hk]; exact e4
  · rw [length_writeHeader, f3, hk]
  · intro pair
    rw [(order.perm (countFrequencies input)).mem_iff, mem_countFrequencies,
      wrapInt32_of_inInt32 _ (by have := hc pair.1; unfold InInt32; omega)]

set_option maxRecDepth 100000 in

/-- C7 (amended) at the input "aaabbc". -/
theorem C7_frequency_fidelity_witness :
    ([97, 97, 97, 98, 98, 99] : List Byte) ≠ [] ∧
    (∀ x, ([97, 97, 97, 98, 98, 99] : List Byte).count x < 2147483648) ∧
    ∃ root frequencies,
      compressFile insertionOrder [97, 97, 97, 98, 98, 99] = Outcome.success
        (writeHeader ([97, 97, 97, 98, 98, 99] : List Byte).dedup.length
            (insertionOrder.visit (countFrequencies [97, 97, 97, 98, 98, 99]))
          ++ writePayload (codesOf root) [97, 97, 97, 98, 98, 99]) ∧
      (insertionOrder.visit (countFrequencies [97, 97, 97, 98, 98, 99])).length
        = ([97, 97, 97, 98, 98, 99] : List Byte).dedup.length ∧
      (writeHeader ([97, 97, 97, 98, 98, 99] : List Byte).dedup.length
          (insertionOrder.visit (countFrequencies [97, 97, 97, 98, 98, 99]))).length
        = 4 + 5 * ([97, 97, 97, 98, 98, 99] : List Byte).dedup.length ∧
      readFrequencies
        (writeHeader ([97, 97, 97, 98, 98, 99] : List Byte).dedup.length
            (insertionOrder.visit (countFrequencies [97, 97, 97, 98, 98, 99]))
          ++ writePayload (codesOf root) [97, 97, 97, 98, 98, 99])
        = some (frequencies, (([97, 97, 97, 98, 98, 99] : List Byte).length : Int),
            writePayload (codesOf root) [97, 97, 97, 98, 98, 99]) ∧
      (∀ pair, pair ∈ frequencies ↔
        pair.1 ∈ ([97, 97, 97, 98, 98, 99] : List Byte) ∧
          pair.2 = (([97, 97, 97, 98, 98, 99] : List Byte).count pair.1 : Int)) ∧
      (frequencies.map Prod.snd).sum = (([97, 97, 97, 98, 98, 99] : List Byte).length : Int) :=
  ⟨by decide, by decide,
    C7_frequency_fidelity insertionOrder [97, 97, 97, 98, 98, 99] (by decide) (by decide)⟩

/-- C8 (prefix-free codes): for every frequency table with at least two entries,
`buildHuffmanTree` returns a tree, the code table `generateCodes` fills from it has
an entry exactly for the symbols of the table, and no symbol's code is a prefix of
the code of a different symbol; in particular every code is non-empty and two
different symbols have different codes. -/
theorem C8_prefix_free_codes (frequencies : List (Byte × Int))
    (h2 : 2 ≤ frequencies.length) :
    ∃ root, buildHuffmanTree frequencies = some root ∧
      (∀ x, (codesOf root x).isSome ↔ x ∈ frequencies.map Prod.fst) ∧
      ∀ x y cx cy, codesOf root x = some cx → codesOf root y = some cy → x ≠ y →
        ¬ cx <+: cy ∧ cx ≠ [] ∧ cx ≠ cy := by
  have hne : frequencies ≠ [] := by
    intro e; rw [e] at h2; simp at h2
  obtain ⟨root, e1, e2, e3⟩ := buildHuffmanTree_proper frequencies hne
  have hlen : 2 ≤ (leafPairs root).length := by rw [e3.length_eq]; exact h2
  obtain ⟨d, f, l, r, hroot, hnl⟩ := root_not_leaf root e2 hlen
  refine ⟨root, e1, ?_, ?_⟩
  · intro x
    rw [← (e3.map Prod.fst).mem_iff]
    constructor
    · intro hx
      obtain ⟨c, hc⟩ := Option.isSome_iff_exists.1 hx
      exact (codesOf_some root e2 x c hc).1
    · intro hx
      obtain ⟨c, _, hc⟩ := (codesOf_spec root e2 x).1 hx
      rw [hc]; rfl
  · intro x y cx cy hx hy hxy
    have px := (codesOf_some root e2 x cx hx).2
    have py := (codesOf_some root e2 y cy hy).2
    have hpre : ¬ cx <+: cy := fun h => hxy (pathTo_prefix_eq root x cx px y cy py h)
    refine ⟨hpre, ?_, fun e => hpre (e ▸ List.prefix_refl _)⟩
    rw [hroot] at px
    exact pathTo_nonempty d f l r x cx hnl px

/-- C8 at the table of "aaabbc". -/
theorem C8_prefix_free_codes_witness :
    2 ≤ ([(97, 3), (98, 2), (99, 1)] : List (Byte × Int)).length ∧
    ∃ root, buildHuffmanTree [(97, 3), (98, 2), (99, 1)] = some root ∧
      (∀ x, (codesOf root x).isSome ↔
        x ∈ ([(97, 3), (98, 2), (99, 1)] : List (Byte × Int)).map Prod.fst) ∧
      ∀ x y cx cy, codesOf root x = some cx → codesOf root y = some cy → x ≠ y →
        ¬ cx <+: cy ∧ cx ≠ [] ∧ cx ≠ cy :=
  ⟨by decide, C8_prefix_free_codes [(97, 3), (98, 2), (99, 1)] (by decide)⟩

/-- C9 (payload bit packing): for every non-empty input, the file written by
`compressFile` is the header (`4 + 5 k` bytes for `k` table entries) followed by a
payload which, read as bits most significant bit first, is the concatenation of the
codes of the input bytes in order followed by fewer than eight zero bits; the
payload has `ceil(B / 8)` bytes for `B` code bits; and it has no byte at all when
the input holds a single distinct byte value. -/
theorem C9_payload_bit_packing (order : IterationOrder) (input : List Byte)
    (hne : input ≠ []) :
    ∃ root, buildHuffmanTree (order.visit (countFrequencies input)) = some root ∧
      compressFile order input = Outcome.success
        (writeHeader (countFrequencies input).length (order.visit (countFrequencies input))
          ++ writePayload (codesOf root) input) ∧
      (writeHeader (countFrequencies input).length
          (order.visit (countFrequencies input))).length
        = 4 + 5 * (countFrequencies input).length ∧
      (∃ pad, pad < 8 ∧
        (writePayload (codesOf root) input).flatMap bitsOfByte
          = codeBits (codesOf root) input ++ List.replicate pad false) ∧
      (writePayload (codesOf root) input).length
        = ((codeBits (codesOf root) input).length + 7) / 8 ∧
      ((∃ a, ∀ s ∈ input, s = a) → writePayload (codesOf root) input = []) := by
  obtain ⟨root, e1, _, _, e4⟩ := compressFile_success order input hne
  obtain ⟨pad, hp, hbits, hlen⟩ := writePayload_spec (codesOf root) input
  refine ⟨root, e1, e4, ?_, ⟨pad, hp, hbits⟩, hlen, ?_⟩
  · rw [length_writeHeader, (order.perm _).length_eq]
  · rintro ⟨a, hall⟩
    rw [countFrequencies_single input a hne hall, visit_singleton,
      buildHuffmanTree_singleton] at e1
    cases e1
    exact writePayload_of_empty_codes _ _ (fun s _ => codesOf_newNode _ _ s)

/-- C9 at the input "aaabbc". -/
theorem C9_payload_bit_packing_witness :
    ([97, 97, 97, 98, 98, 99] : List Byte) ≠ [] ∧
    ∃ root,
      buildHuffmanTree (insertionOrder.visit (countFrequencies [97, 97, 97, 98, 98, 99]))
        = some root ∧
      compressFile insertionOrder [97, 97, 97, 98, 98, 99] = Outcome.success
        (writeHeader (countFrequencies [97, 97, 97, 98, 98, 99]).length
            (insertionOrder.visit (countFrequencies [97, 97, 97, 98, 98, 99]))
          ++ writePayload (codesOf root) [97, 97, 97, 98, 98, 99]) ∧
      (writeHeader (countFrequencies [97, 97, 97, 98, 98, 99]).length
          (insertionOrder.visit (countFrequencies [97, 97, 97, 98, 98, 99]))).length
        = 4 + 5 * (countFrequencies [97, 97, 97, 98, 98, 99]).length ∧
      (∃ pad, pad < 8 ∧
        (writePayload (codesOf root) [97, 97, 97, 98, 98, 99]).flatMap bitsOfByte
          = codeBits (codesOf root) [97, 97, 97, 98, 98, 99] ++ List.replicate pad false) ∧
      (writePayload (codesOf root) [97, 97, 97, 98, 98, 99]).length
        = ((codeBits (codesOf root) [97, 97, 97, 98, 98, 99]).length + 7) / 8 ∧
      ((∃ a, ∀ s ∈ ([97, 97, 97, 98, 98, 99] : List Byte), s = a) →
        writePayload (codesOf root) [97, 97, 97, 98, 98, 99] = []) :=
  ⟨by decide, C9_payload_bit_packing insertionOrder [97, 97, 97, 98, 98, 99] (by decide)⟩

/-- C10 (truncated header), what the code does: the early return of
`decompressFile` is taken for the zero-byte file only; on a file of one, two or
three bytes the test `gcount() == 0` fails and the run goes on with a `mapSize` of
which only part was read, which is undefined behaviour, instead of treating the
input as empty. -/
theorem C10_short_header_not_treated_as_empty (order : IterationOrder) (b0 b1 b2 : Byte) :
    decompressFile order [] = Outcome.emptyInput ∧
    decompressFile order [b0] = Outcome.undefined ∧
    decompressFile order [b0, b1] = Outcome.undefined ∧
    decompressFile order [b0, b1, b2] = Outcome.undefined :=
  ⟨rfl, rfl, rfl, rfl⟩

/-! ## Min-heap order -/

theorem frequencyAt_eq_keyAt (h : MinHeap) (hv : h.Valid) (i : Nat) (hi : i < h.size) :
    frequencyAt h i = some (keyAt h.array i) := by
  obtain ⟨d, f, l, r, hx⟩ := contents_nonnull_at h hv i hi
  simp [frequencyAt, keyAt, hx, frequencyOf]

theorem keyAt_swap (array : List HuffmanNode) (a b : Nat) (ha : a < array.length)
    (hb : b < array.length) (j : Nat) :
    keyAt ((array.set a array[b]).set b array[a]) j =
      if j = b then keyAt array a else if j = a then keyAt array b else keyAt array j := by
  unfold keyAt
  by_cases hjb : j = b
  · subst hjb
    simp [List.getElem?_set_self, ha, hb, List.getElem?_eq_getElem]
  · by_cases hja : j = a
    · subst hja
      have hne : ¬ b = j := fun e => hjb e.symm
      simp [hjb, List.getElem?_set_ne hne, List.getElem?_set_self, ha, hb,
        List.getElem?_eq_getElem]
    · have h1 : ¬ b = j := fun e => hjb e.symm
      have h2 : ¬ a = j := fun e => hja e.symm
      simp [hjb, hja, List.getElem?_set_ne h1, List.getElem?_set_ne h2]

theorem minHeapifyFuel_eq (fuel : Nat) (h : MinHeap) (idx : Nat) (hv : h.Valid) :
    minHeapifyFuel (fuel + 1) h idx =
      if smallestOf h idx ≠ idx then
        match swapHuffmanNode h.array (smallestOf h idx) idx with
        | none => none
        | some array =>
          minHeapifyFuel fuel { size := h.size, capacity := h.capacity, array := array }
            (smallestOf h idx)
      else some h := by
  unfold smallestOf
  simp only [minHeapifyFuel]
  by_cases hl : 2 * idx + 1 < h.size
  · simp only [hl, if_true, true_and, frequencyAt_eq_keyAt h hv _ hl,
      frequencyAt_eq_keyAt h hv idx (by omega)]
    by_cases hc : keyAt h.array (2 * idx + 1) < keyAt h.array idx
    · simp only [hc, if_true]
      by_cases hr : 2 * idx + 2 < h.size
      · simp only [hr, if_true, true_and, frequencyAt_eq_keyAt h hv _ hr,
          frequencyAt_eq_keyAt h hv _ hl]
      · simp only [hr, if_false, false_and]
    · simp only [hc, if_false]
      by_cases hr : 2 * idx + 2 < h.size
      · simp only [hr, if_true, true_and, frequencyAt_eq_keyAt h hv _ hr,
          frequencyAt_eq_keyAt h hv idx (by omega)]
      · simp only [hr, if_false, false_and]
  · have hr : ¬ 2 * idx + 2 < h.size := by omega
    simp only [hl, hr, if_false, false_and]

theorem smallestOf_spec (h : MinHeap) (idx : Nat) :
    (smallestOf h idx = idx ∨ (idx < smallestOf h idx ∧ smallestOf h idx < h.size ∧
        (smallestOf h idx - 1) / 2 = idx ∧
        keyAt h.array (smallestOf h idx) < keyAt h.array idx)) ∧
    keyAt h.array (smallestOf h idx) ≤ keyAt h.array idx ∧
    (2 * idx + 1 < h.size → keyAt h.array (smallestOf h idx) ≤ keyAt h.array (2 * idx + 1)) ∧
    (2 * idx + 2 < h.size → keyAt h.array (smallestOf h idx) ≤ keyAt h.array (2 * idx + 2)) := by
  unfold smallestOf
  simp only
  by_cases hl : 2 * idx + 1 < h.size ∧ keyAt h.array (2 * idx + 1) < keyAt h.array idx
  · rw [if_pos hl]
    by_cases hr : 2 * idx + 2 < h.size ∧ keyAt h.array (2 * idx + 2) < keyAt h.array (2 * idx + 1)
    · rw [if_pos hr]
      refine ⟨Or.inr ⟨by omega, hr.1, by omega, by omega⟩, by omega, fun _ => by omega,
        fun _ => le_refl _⟩
    · rw [if_neg hr]
      refine ⟨Or.inr ⟨by omega, hl.1, by omega, hl.2⟩, by omega, fun _ => le_refl _, ?_⟩
      intro h2
      have : ¬ keyAt h.array (2 * idx + 2) < keyAt h.array (2 * idx + 1) := fun e => hr ⟨h2, e⟩
      omega
  · rw [if_neg hl]
    by_cases hr : 2 * idx + 2 < h.size ∧ keyAt h.array (2 * idx + 2) < keyAt h.array idx
    · rw [if_pos hr]
      refine ⟨Or.inr ⟨by omega, hr.1, by omega, hr.2⟩, by omega, ?_, fun _ => le_refl _⟩
      intro h1
      have : ¬ keyAt h.array (2 * idx + 1) < keyAt h.array idx := fun e => hl ⟨h1, e⟩
      omega
    · rw [if_neg hr]
      refine ⟨Or.inl rfl, le_refl _, ?_, ?_⟩
      · intro h1
        have : ¬ keyAt h.array (2 * idx + 1) < keyAt h.array idx := fun e => hl ⟨h1, e⟩
        omega
      · intro h2
        have : ¬ keyAt h.array (2 * idx + 2) < keyAt h.array idx := fun e => hr ⟨h2, e⟩
        omega

theorem minHeapifyFuel_order (lo : Nat) : ∀ (fuel : Nat) (h : MinHeap) (idx : Nat)
    (h2 : MinHeap), h.Valid → lo ≤ idx → minHeapifyFuel fuel h idx = some h2 →
    OrderedExcept lo idx h.array h.size → OrderedFrom lo h2.array h.size := by
  intro fuel
  induction fuel with
  | zero => intro h idx h2 _ _ e; simp [minHeapifyFuel] at e
  | succ fuel ih =>
    intro h idx h2 hv hlo e hpre
    rw [minHeapifyFuel_eq fuel h idx hv] at e
    obtain ⟨hshape, hle, hleft, hright⟩ := smallestOf_spec h idx
    by_cases hs : smallestOf h idx = idx
    · rw [hs] at hleft hright
      simp only [hs, ne_eq, not_true_eq_false, if_false] at e
      cases e
      intro j hj0 hjn hjlo
      by_cases hp : (j - 1) / 2 = idx
      · rw [hp]
        have : j = 2 * idx + 1 ∨ j = 2 * idx + 2 := by omega
        rcases this with rfl | rfl
        · exact hleft hjn
        · exact hright hjn
      · exact hpre.1 j hj0 hjn hjlo hp
    · rcases hshape with h0 | ⟨hs1, hs2, hs3, hs4⟩
      · exact absurd h0 hs
      · generalize hsdef : smallestOf h idx = s at *
        have hsl : s < h.array.length := lt_of_lt_of_le hs2 hv.1
        have hil : idx < h.array.length := by omega
        have hswap : swapHuffmanNode h.array s idx
            = some ((h.array.set s h.array[idx]).set idx h.array[s]) := by
          simp [swapHuffmanNode, List.getElem?_eq_getElem hsl, List.getElem?_eq_getElem hil]
        simp only [ne_eq, hs, not_false_eq_true, if_true, hswap] at e
        have hv2 : MinHeap.Valid (MinHeap.mk h.size h.capacity
            ((h.array.set s h.array[idx]).set idx h.array[s])) := by
          obtain ⟨arr, harr, hlen, hperm⟩ :=
            swapHuffmanNode_spec h.array s idx h.size hs2 (by omega) hv.1
          rw [hswap] at harr
          cases harr
          exact ⟨by simpa using hv.1, fun p hp => hv.2 p (hperm.subset hp)⟩
        have hkey := keyAt_swap h.array s idx hsl hil
        refine ih (MinHeap.mk h.size h.capacity
            ((h.array.set s h.array[idx]).set idx h.array[s])) s h2 hv2 (by omega) e ?_
        constructor
        · intro j hj0 hjn hjlo hp
          have hjn2 : j < h.size := hjn
          rw [hkey, hkey]
          by_cases hq : (j - 1) / 2 = idx
          · have hjne : j ≠ idx := by omega
            rw [if_pos hq]
            by_cases hjs : j = s
            · rw [if_neg hjne, if_pos hjs]; exact hle
            · rw [if_neg hjne, if_neg hjs]
              have : j = 2 * idx + 1 ∨ j = 2 * idx + 2 := by omega
              rcases this with h1 | h1
              · rw [h1]; exact hleft (h1 ▸ hjn)
              · rw [h1]; exact hright (h1 ▸ hjn)
          · rw [if_neg hq, if_neg hp]
            by_cases hji : j = idx
            · rw [if_pos hji]
              have := hpre.2 s (by omega) hs2 hs3 (by omega) (by rw [← hji]; exact hjlo)
              rw [← hji] at this
              exact this
            · have hjs : j ≠ s := by
                intro e2; rw [e2] at hq; exact hq hs3
              rw [if_neg hji, if_neg hjs]
              exact hpre.1 j hj0 hjn hjlo hq
        · intro j hj0 hjn hp _ _
          have hjn2 : j < h.size := hjn
          rw [hkey, hkey, hs3]
          have hjne : j ≠ idx := by omega
          have hjs : j ≠ s := by omega
          rw [if_pos rfl, if_neg hjne, if_neg hjs]
          have := hpre.1 j hj0 hjn2 (by omega) (by omega)
          rw [hp] at this
          exact this

theorem keyAt_set_ne (array : List HuffmanNode) (k i : Nat) (v : HuffmanNode)
    (h : i ≠ k) : keyAt (array.set k v) i = keyAt array i := by
  unfold keyAt
  rw [List.getElem?_set_ne (fun e => h e.symm)]

theorem keyAt_set_self (array : List HuffmanNode) (k : Nat) (d : Byte) (f : Int)
    (l r : HuffmanNode) (h : k < array.length) :
    keyAt (array.set k (HuffmanNode.node d f l r)) k = f := by
  unfold keyAt
  rw [List.getElem?_set_self h]

theorem keyAt_of_getElem? (array : List HuffmanNode) (i : Nat) (p : HuffmanNode) (f : Int)
    (h1 : array[i]? = some p) (h2 : frequencyOf p = some f) : keyAt array i = f := by
  unfold keyAt
  rw [h1]
  cases p with
  | null => simp [frequencyOf] at h2
  | node d f2 l r => simp only [frequencyOf, Option.some.injEq] at h2; exact h2

theorem minHeapify_ordered (lo : Nat) (h : MinHeap) (idx : Nat) (hv : h.Valid)
    (hlo : lo ≤ idx) (hpre : OrderedExcept lo idx h.array h.size) :
    ∃ h2, minHeapify h idx = some h2 ∧ h2.size = h.size ∧
      h2.capacity = h.capacity ∧ h2.array.length = h.array.length ∧
      h2.contents.Perm h.contents ∧ OrderedFrom lo h2.array h2.size := by
  obtain ⟨h2, e1, e2, e3, e4, e5⟩ := minHeapify_spec h idx hv
  refine ⟨h2, e1, e2, e3, e4, e5, ?_⟩
  rw [e2]
  exact minHeapifyFuel_order lo _ h idx h2 hv hlo e1 hpre

theorem buildMinHeapFrom_ordered : ∀ (k : Nat) (h : MinHeap), h.Valid →
    OrderedFrom k h.array h.size →
    ∃ h2, buildMinHeapFrom k h = some h2 ∧ h2.size = h.size ∧
      h2.capacity = h.capacity ∧ h2.array.length = h.array.length ∧
      h2.contents.Perm h.contents ∧ OrderedFrom 0 h2.array h2.size := by
  intro k
  induction k with
  | zero => intro h _ ho; exact ⟨h, rfl, rfl, rfl, rfl, List.Perm.refl _, ho⟩
  | succ k ih =>
    intro h hv ho
    have hpre : OrderedExcept k k h.array h.size := by
      constructor
      · intro j hj0 hjn hjlo hne
        exact ho j hj0 hjn (by omega)
      · intro j _ _ _ hk hlo
        omega
    obtain ⟨h1, e1, e2, e3, e4, e5, e6⟩ := minHeapify_ordered k h k hv (le_refl _) hpre
    obtain ⟨h2, f1, f2, f3, f4, f5, f6⟩ := ih h1 (valid_of_perm h h1 hv e2 e4 e5) e6
    exact ⟨h2, by simp [buildMinHeapFrom, e1, f1], f2.trans e2, f3.trans e3, f4.trans e4,
      f5.trans e5, f6⟩

theorem buildMinHeap_ordered (h : MinHeap) (hv : h.Valid) :
    ∃ h2, buildMinHeap h = some h2 ∧ h2.size = h.size ∧
      h2.capacity = h.capacity ∧ h2.array.length = h.array.length ∧
      h2.contents.Perm h.contents ∧ h2.Ordered := by
  unfold buildMinHeap
  simp only
  split
  · rename_i hneg
    refine ⟨h, rfl, rfl, rfl, rfl, List.Perm.refl _, ?_⟩
    intro j hj0 hjn _
    exfalso
    have : Int.tdiv ((h.size : Int) - 1 - 1) 2 < 0 := hneg
    have h2 : (2 : Int) ≤ h.size := by exact_mod_cast (by omega : 2 ≤ h.size)
    have h3 : (0 : Int) ≤ (h.size : Int) - 1 - 1 := by omega
    have := Int.tdiv_nonneg h3 (by decide : (0 : Int) ≤ 2)
    omega
  · rename_i hnn
    have hstart : 0 ≤ Int.tdiv ((h.size : Int) - 1 - 1) 2 := by omega
    apply buildMinHeapFrom_ordered _ h hv
    intro j hj0 hjn hlo
    exfalso
    have h2 : (0 : Int) ≤ (h.size : Int) - 1 - 1 := by omega
    have h3 : Int.tdiv ((h.size : Int) - 1 - 1) 2 = ((h.size : Int) - 1 - 1) / 2 :=
      Int.tdiv_eq_ediv h2 (by decide)
    rw [h3] at hlo hstart
    omega

theorem root_is_min (array : List HuffmanNode) (n : Nat) (ho : OrderedFrom 0 array n) :
    ∀ i, i < n → keyAt array 0 ≤ keyAt array i := by
  intro i
  induction i using Nat.strong_induction_on with
  | _ i ih =>
    intro hi
    by_cases h0 : i = 0
    · rw [h0]
    · have h1 := ih ((i - 1) / 2) (by omega) (by omega)
      have h2 := ho i (by omega) hi (Nat.zero_le _)
      omega

theorem extractMin_ordered (h : MinHeap) (hv : h.Valid) (ho : h.Ordered) (hs : 1 ≤ h.size) :
    ∃ temp h2, extractMin h = some (temp, h2) ∧ h.array[0]? = some temp ∧
      h2.size = h.size - 1 ∧ h2.capacity = h.capacity ∧
      h2.array.length = h.array.length ∧ (temp :: h2.contents).Perm h.contents ∧
      h2.Valid ∧ h2.Ordered ∧
      ∃ ft, frequencyOf temp = some ft ∧
        ∀ p ∈ h.contents, ∃ fp, frequencyOf p = some fp ∧ ft ≤ fp := by
  have hl := hv.1
  have h0 : 0 < h.array.length := by omega
  have h1 : h.size - 1 < h.array.length := by omega
  have hperm := take_pred_set_zero_perm h.array h.size hs hl h.array[0] h.array[h.size - 1]
    (List.getElem?_eq_getElem h0) (List.getElem?_eq_getElem h1)
  have hv1 : MinHeap.Valid (MinHeap.mk (h.size - 1) h.capacity
      (h.array.set 0 h.array[h.size - 1])) := by
    refine ⟨by simp; omega, ?_⟩
    intro p hp
    exact hv.2 p (hperm.subset (List.mem_cons_of_mem _ hp))
  have hpre : OrderedExcept 0 0 (h.array.set 0 h.array[h.size - 1]) (h.size - 1) := by
    constructor
    · intro j hj0 hjn _ hne
      rw [keyAt_set_ne _ _ _ _ hne, keyAt_set_ne _ _ _ _ (by omega)]
      exact ho j hj0 (by omega) (Nat.zero_le _)
    · intro j _ _ _ h00 _
      omega
  obtain ⟨h2, e1, e2, e3, e4, e5, e6⟩ := minHeapify_ordered 0 _ 0 hv1 (le_refl _) hpre
  have hne : h.size ≠ 0 := by omega
  have hext : extractMin h = some (h.array[0], h2) := by
    simp [extractMin, List.getElem?_eq_getElem h0, List.getElem?_eq_getElem h1, hne, e1]
  obtain ⟨d, f, l, r, hroot⟩ := contents_nonnull_at h hv 0 (by omega)
  have hroot2 : h.array[0] = HuffmanNode.node d f l r := by
    rw [List.getElem?_eq_getElem h0] at hroot
    exact Option.some.inj hroot
  refine ⟨h.array[0], h2, hext, List.getElem?_eq_getElem h0, e2, e3, by simpa using e4,
    (List.Perm.cons _ e5).trans hperm, valid_of_perm _ h2 hv1 e2 e4 e5, e6, f, ?_, ?_⟩
  · rw [hroot2]; rfl
  · intro p hp
    unfold MinHeap.contents at hp
    rw [List.mem_take_iff_getElem] at hp
    obtain ⟨i, hi, hpi⟩ := hp
    have hi2 : i < h.size := by omega
    obtain ⟨d2, f2, l2, r2, hx⟩ := contents_nonnull_at h hv i hi2
    have hil : i < h.array.length := by omega
    rw [List.getElem?_eq_getElem hil] at hx
    have hp2 : p = HuffmanNode.node d2 f2 l2 r2 := by
      rw [← hpi]; exact Option.some.inj hx
    refine ⟨f2, by rw [hp2]; rfl, ?_⟩
    have hmin := root_is_min h.array h.size ho i hi2
    have k0 : keyAt h.array 0 = f := by
      unfold keyAt; rw [List.getElem?_eq_getElem h0, hroot2]
    have ki : keyAt h.array i = f2 := by
      unfold keyAt; rw [List.getElem?_eq_getElem hil, Option.some.inj hx]
    rw [k0, ki] at hmin
    exact hmin

theorem insertLoop_order (d : Byte) (f : Int) (l r : HuffmanNode) (n : Nat) :
    ∀ (fuel : Nat) (array : List HuffmanNode) (i : Nat) (array2 : List HuffmanNode) (j : Nat),
      i < n → n ≤ array.length →
      insertLoop fuel array (HuffmanNode.node d f l r) i = some (array2, j) →
      OrderedHole f i array n →
      OrderedHole f j array2 n ∧ (0 < j → keyAt array2 ((j - 1) / 2) ≤ f) := by
  intro fuel
  induction fuel with
  | zero => intro array i array2 j _ _ e; simp [insertLoop] at e
  | succ fuel ih =>
    intro array i array2 j hin hn e hpre
    by_cases hi : i = 0
    · simp only [insertLoop, hi, if_true, Option.some.injEq, Prod.mk.injEq] at e
      obtain ⟨rfl, rfl⟩ := e
      rw [hi] at hpre
      exact ⟨hpre, fun h => absurd h (lt_irrefl 0)⟩
    · simp only [insertLoop, hi, if_false, frequencyOf] at e
      cases hpar : array[(i - 1) / 2]? with
      | none => rw [hpar] at e; simp at e
      | some parent =>
        rw [hpar] at e
        simp only at e
        cases parent with
        | null => simp [frequencyOf] at e
        | node pd pf pl pr =>
          have hkp : keyAt array ((i - 1) / 2) = pf := by
            unfold keyAt; rw [hpar]
          simp only [frequencyOf] at e
          by_cases hc : f < pf
          · have hil : i < array.length := by omega
            simp only [hc, if_true, storeAt, hil] at e
            have hk : ∀ x, keyAt (array.set i (HuffmanNode.node pd pf pl pr)) x
                = if x = i then pf else keyAt array x := by
              intro x
              by_cases hx : x = i
              · rw [if_pos hx, hx]; exact keyAt_set_self _ _ _ _ _ _ hil
              · rw [if_neg hx]; exact keyAt_set_ne _ _ _ _ hx
            refine ih _ ((i - 1) / 2) array2 j (by omega) (by simpa using hn) e ?_
            refine ⟨?_, ?_, ?_⟩
            · intro x hx0 hxn hxp hpp
              rw [hk, hk]
              have hxi : x ≠ i := by
                intro e2; rw [e2] at hpp; exact hpp rfl
              rw [if_neg hxi]
              by_cases hq : (x - 1) / 2 = i
              · rw [if_pos hq, ← hkp]
                exact hpre.2.2 x hx0 hxn hq (by omega)
              · rw [if_neg hq]
                exact hpre.1 x hx0 hxn hxi hq
            · intro x hx0 hxn hq
              rw [hk]
              by_cases hxi : x = i
              · rw [if_pos hxi]; omega
              · rw [if_neg hxi]
                have := hpre.1 x hx0 hxn hxi (by omega)
                rw [hq, hkp] at this
                omega
            · intro x hx0 hxn hq hp0
              rw [hk, hk]
              have hne : ((i - 1) / 2 - 1) / 2 ≠ i := by omega
              rw [if_neg hne]
              have h1 := hpre.1 ((i - 1) / 2) hp0 (by omega) (by omega) hne
              rw [hkp] at h1
              by_cases hxi : x = i
              · rw [if_pos hxi]; exact h1
              · rw [if_neg hxi]
                have := hpre.1 x hx0 hxn hxi (by omega)
                rw [hq, hkp] at this
                omega
          · simp only [hc, if_false, Option.some.injEq, Prod.mk.injEq] at e
            obtain ⟨rfl, rfl⟩ := e
            exact ⟨hpre, fun _ => by rw [hkp]; omega⟩

theorem insertMinHeap_ordered (h : MinHeap) (nd : HuffmanNode) (hv : h.Valid)
    (ho : h.Ordered) (hs : h.size < h.array.length) (hnd : nd ≠ HuffmanNode.null) :
    ∃ h2, insertMinHeap h nd = some h2 ∧ h2.size = h.size + 1 ∧
      h2.capacity = h.capacity ∧ h2.array.length = h.array.length ∧
      h2.contents.Perm (nd :: h.contents) ∧ h2.Valid ∧ h2.Ordered := by
  obtain ⟨h2, e1, e2, e3, e4, e5⟩ := insertMinHeap_spec h nd hv hs hnd
  have hv2 : h2.Valid := by
    refine ⟨by rw [e2, e4]; omega, ?_⟩
    intro p hp
    rcases List.mem_cons.1 (e5.subset hp) with hp | hp
    · rw [hp]; exact hnd
    · exact hv.2 p hp
  refine ⟨h2, e1, e2, e3, e4, e5, hv2, ?_⟩
  obtain ⟨d, f, l, r, rfl⟩ : ∃ d f l r, nd = HuffmanNode.node d f l r := by
    cases nd with
    | null => exact absurd rfl hnd
    | node d f l r => exact ⟨d, f, l, r, rfl⟩
  unfold insertMinHeap at e1
  simp only [Nat.add_sub_cancel] at e1
  cases hloop : insertLoop (h.size + 1) h.array (HuffmanNode.node d f l r) h.size with
  | none => rw [hloop] at e1; simp at e1
  | some res =>
    obtain ⟨array2, j⟩ := res
    rw [hloop] at e1
    simp only [storeAt] at e1
    by_cases hj : j < array2.length
    · simp only [hj, if_true, Option.some.injEq] at e1
      have hinit : OrderedHole f h.size h.array (h.size + 1) := by
        refine ⟨?_, ?_, ?_⟩
        · intro x hx0 hxn hxi _
          exact ho x hx0 (by omega) (Nat.zero_le _)
        · intro x _ hxn hq; omega
        · intro x _ hxn hq; omega
      obtain ⟨hhole, hexit⟩ := insertLoop_order d f l r (h.size + 1) (h.size + 1) h.array
        h.size array2 j (by omega) (by omega) hloop hinit
      rw [← e1]
      have hk : ∀ x, keyAt (array2.set j (HuffmanNode.node d f l r)) x
          = if x = j then f else keyAt array2 x := by
        intro x
        by_cases hx : x = j
        · rw [if_pos hx, hx]; exact keyAt_set_self _ _ _ _ _ _ hj
        · rw [if_neg hx]; exact keyAt_set_ne _ _ _ _ hx
      intro x hx0 hxn _
      have hxn2 : x < h.size + 1 := hxn
      show keyAt (array2.set j (HuffmanNode.node d f l r)) ((x - 1) / 2)
        ≤ keyAt (array2.set j (HuffmanNode.node d f l r)) x
      rw [hk, hk]
      by_cases hxj : x = j
      · have hne : (x - 1) / 2 ≠ j := by omega
        rw [if_neg hne, if_pos hxj, hxj]
        exact hexit (by omega)
      · rw [if_neg hxj]
        by_cases hq : (x - 1) / 2 = j
        · rw [if_pos hq]; exact hhole.2.1 x hx0 hxn2 hq
        · rw [if_neg hq]; exact hhole.1 x hx0 hxn2 hxj hq
    · simp [hj] at e1

/-! ## The merge loop as a greedy run -/

theorem mergeLoop_succ (fuel : Nat) (h : MinHeap) :
    mergeLoop (fuel + 1) h =
      if isSizeOne h then some h
      else match mergeStep h with
        | none => none
        | some h3 => mergeLoop fuel h3 := by
  simp only [mergeLoop, mergeStep]
  split
  · rfl
  · cases extractMin h with
    | none => rfl
    | some a =>
      obtain ⟨left, h1⟩ := a
      simp only
      cases extractMin h1 with
      | none => rfl
      | some b =>
        obtain ⟨right, h2⟩ := b
        simp only
        cases frequencyOf left with
        | none => rfl
        | some lf =>
          cases frequencyOf right with
          | none => rfl
          | some rf => rfl

theorem mergeStep_spec (h : MinHeap) (hv : h.Valid) (ho : h.Ordered) (hs : 2 ≤ h.size) :
    ∃ left h1 right h2 lf rf h3,
      extractMin h = some (left, h1) ∧ h1.size = h.size - 1 ∧
      extractMin h1 = some (right, h2) ∧ h2.size = h.size - 2 ∧
      h2.capacity = h.capacity ∧ h2.array.length = h.array.length ∧
      frequencyOf left = some lf ∧ frequencyOf right = some rf ∧
      insertMinHeap h2 (HuffmanNode.node 0 (wrapInt32 (lf + rf)) left right) = some h3 ∧
      mergeStep h = some h3 ∧
      h3.Valid ∧ h3.Ordered ∧ h3.size = h.size - 1 ∧ h3.capacity = h.capacity ∧
      h3.array.length = h.array.length ∧
      h.contents.Perm (left :: right :: h2.contents) ∧
      h3.contents.Perm (HuffmanNode.node 0 (wrapInt32 (lf + rf)) left right :: h2.contents) ∧
      (∀ t ∈ right :: h2.contents, ∃ f, frequencyOf t = some f ∧ lf ≤ f) ∧
      (∀ t ∈ h2.contents, ∃ f, frequencyOf t = some f ∧ rf ≤ f) := by
  obtain ⟨left, h1, a1, _, a3, a4, a5, a6, a7, a8, lf, a9, a10⟩ :=
    extractMin_ordered h hv ho (by omega)
  obtain ⟨right, h2, b1, _, b3, b4, b5, b6, b7, b8, rf, b9, b10⟩ :=
    extractMin_ordered h1 a7 a8 (by omega)
  obtain ⟨h3, c1, c2, c3, c4, c5, c6, c7⟩ :=
    insertMinHeap_ordered h2 (HuffmanNode.node 0 (wrapInt32 (lf + rf)) left right) b7 b8
      (by rw [b3, a3, b5, a5]; have := hv.1; omega) (by simp)
  refine ⟨left, h1, right, h2, lf, rf, h3, a1, a3, b1, by rw [b3, a3]; omega,
    b4.trans a4, b5.trans a5, a9, b9, c1, ?_, c6, c7, by rw [c2, b3, a3]; omega,
    c3.trans (b4.trans a4), c4.trans (b5.trans a5), ?_, c5, ?_, ?_⟩
  · simp [mergeStep, a1, b1, a9, b9, c1]
  · exact a6.symm.trans (List.Perm.cons _ b6.symm)
  · intro t ht
    exact a10 t (a6.subset (List.mem_cons_of_mem _ (b6.subset ht)))
  · intro t ht
    exact b10 t (b6.subset (List.mem_cons_of_mem _ ht))

theorem greedyRun_perm (forest forest2 : List HuffmanNode) (root : HuffmanNode)
    (h : GreedyRun forest root) (hp : forest.Perm forest2) : GreedyRun forest2 root := by
  cases h with
  | done t =>
    rw [List.perm_singleton.1 hp.symm]
    exact GreedyRun.done root
  | step _ rest left right _ lf rf h1 h2 h3 h4 h5 h6 =>
    exact GreedyRun.step forest2 rest left right root lf rf (hp.symm.trans h1) h2 h3 h4 h5 h6

theorem mergeLoop_greedy : ∀ (fuel : Nat) (h : MinHeap), h.Valid → h.Ordered →
    1 ≤ h.size → h.size ≤ fuel →
    ∃ h2 root rest, mergeLoop fuel h = some h2 ∧ h2.size = 1 ∧
      extractMin h2 = some (root, rest) ∧ GreedyRun h.contents root := by
  intro fuel
  induction fuel with
  | zero => intro h _ _ h1 h2; omega
  | succ fuel ih =>
    intro h hv ho hs hfuel
    by_cases h1 : h.size = 1
    · obtain ⟨root, h3, g1, _, g3, _, _, g6⟩ := extractMin_spec h hv (by omega)
      have hnil : h3.contents = [] := by
        unfold MinHeap.contents; rw [g3, h1]; rfl
      rw [hnil] at g6
      exact ⟨h, root, h3, by simp [mergeLoop, isSizeOne, h1], h1, g1,
        greedyRun_perm _ _ root (GreedyRun.done root) g6⟩
    · obtain ⟨left, _, right, h2, lf, rf, h3, _, _, _, _, _, _, e7, e8, _, e10, e11, e12, e13,
        _, _, e16, e17, e18, e19⟩ := mergeStep_spec h hv ho (by omega)
      obtain ⟨hk, root, rest, f1, f2, f3, f4⟩ := ih h3 e11 e12 (by omega) (by omega)
      refine ⟨hk, root, rest, ?_, f2, f3, ?_⟩
      · rw [mergeLoop_succ]
        simp [isSizeOne, h1, e10, f1]
      · exact GreedyRun.step h.contents h2.contents left right root lf rf e16 e7 e8 e18 e19
          (greedyRun_perm _ _ root f4 e17)

theorem createAndBuildMinHeap_ordered (frequencies : List (Byte × Int)) :
    ∃ h, createAndBuildMinHeap frequencies = some h ∧ h.Valid ∧ h.Ordered ∧
      h.size = frequencies.length ∧ h.capacity = frequencies.length ∧
      h.array.length = frequencies.length ∧
      h.contents.Perm (frequencies.map (fun pair => newNode pair.1 pair.2)) := by
  obtain ⟨h, e1, e2, e3, e4, e5, e6⟩ := createAndBuildMinHeap_spec frequencies
  refine ⟨h, e1, e2, ?_, e3, e4, e5, e6⟩
  have hv : MinHeap.Valid (MinHeap.mk frequencies.length frequencies.length
      (frequencies.map (fun pair => newNode pair.1 pair.2))) := by
    refine ⟨by simp, ?_⟩
    intro p hp
    have hp2 := List.mem_of_mem_take hp
    simp only [List.mem_map] at hp2
    obtain ⟨pair, _, rfl⟩ := hp2
    simp [newNode]
  obtain ⟨h2, f1, _, _, _, _, f6⟩ := buildMinHeap_ordered _ hv
  have : createAndBuildMinHeap frequencies = some h2 := f1
  rw [e1] at this
  cases this
  exact f6

theorem buildHuffmanTree_greedy (frequencies : List (Byte × Int)) (hne : frequencies ≠ []) :
    ∃ root, buildHuffmanTree frequencies = some root ∧
      GreedyRun (frequencies.map (fun pair => newNode pair.1 pair.2)) root := by
  obtain ⟨h, e1, hv, ho, es, _, _, ep⟩ := createAndBuildMinHeap_ordered frequencies
  have hpos : 1 ≤ h.size := by rw [es]; exact List.length_pos.2 hne
  obtain ⟨h2, root, rest, f1, _, f3, f4⟩ := mergeLoop_greedy (h.size + 1) h hv ho hpos (by omega)
  exact ⟨root, by simp [buildHuffmanTree, e1, f1, f3], greedyRun_perm _ _ root f4 ep⟩

/-! ## The order as the source reads it, and the loop count -/

theorem keyAt_of_frequencyAt (h : MinHeap) (i : Nat) (f : Int)
    (e : frequencyAt h i = some f) : keyAt h.array i = f := by
  unfold frequencyAt at e
  cases hx : h.array[i]? with
  | none => rw [hx] at e; cases e
  | some p =>
    rw [hx] at e
    exact keyAt_of_getElem? h.array i p f hx e

theorem ordered_of_heapOrder (h : MinHeap) (ho : h.HeapOrder) : h.Ordered := by
  intro j hj0 hjn _
  obtain ⟨fp, fi, e1, e2, e3⟩ := ho j hj0 hjn
  rw [keyAt_of_frequencyAt h _ fp e1, keyAt_of_frequencyAt h _ fi e2]
  exact e3

theorem heapOrder_of_ordered (h : MinHeap) (hv : h.Valid) (ho : h.Ordered) : h.HeapOrder := by
  intro i hi0 hin
  exact ⟨_, _, frequencyAt_eq_keyAt h hv _ (by omega), frequencyAt_eq_keyAt h hv i hin,
    ho i hi0 hin (Nat.zero_le _)⟩

theorem extractMin_of_size_zero (h : MinHeap) (hs : h.size = 0) : extractMin h = none := by
  unfold extractMin
  cases h.array[0]? with
  | none => rfl
  | some temp => simp [hs]

theorem insertLoop_index_le : ∀ (fuel : Nat) (array : List HuffmanNode) (nd : HuffmanNode)
    (i : Nat) (array2 : List HuffmanNode) (j : Nat),
    insertLoop fuel array nd i = some (array2, j) →
    (j = i ∧ array2 = array) ∨ i < array.length := by
  intro fuel
  induction fuel with
  | zero => intro array nd i array2 j e; simp [insertLoop] at e
  | succ fuel ih =>
    intro array nd i array2 j e
    by_cases hi : i = 0
    · simp only [insertLoop, hi, if_true, Option.some.injEq, Prod.mk.injEq] at e
      exact Or.inl ⟨by rw [hi]; exact e.2.symm, e.1.symm⟩
    · simp only [insertLoop, hi, if_false] at e
      split at e
      · split at e
        · cases e
        · split at e
          · by_cases hil : i < array.length
            · exact Or.inr hil
            · simp [storeAt, hil] at e
          · simp only [Option.some.injEq, Prod.mk.injEq] at e
            exact Or.inl ⟨e.2.symm, e.1.symm⟩
      · cases e

theorem insertMinHeap_of_full (h : MinHeap) (nd : HuffmanNode)
    (hs : h.array.length ≤ h.size) : insertMinHeap h nd = none := by
  unfold insertMinHeap
  simp only [Nat.add_sub_cancel]
  cases hloop : insertLoop (h.size + 1) h.array nd h.size with
  | none => rfl
  | some res =>
    obtain ⟨array2, j⟩ := res
    simp only
    rcases insertLoop_index_le _ _ _ _ _ _ hloop with ⟨h1, h2⟩ | h1
    · have : ¬ j < array2.length := by rw [h1, h2]; omega
      simp [storeAt, this]
    · omega

theorem mergeSteps_state (h0 : MinHeap) (hv : h0.Valid) (ho : h0.Ordered) :
    ∀ i, i + 1 ≤ h0.size → ∃ hi, mergeSteps i h0 = some hi ∧ hi.Valid ∧ hi.Ordered ∧
      hi.size = h0.size - i ∧ hi.capacity = h0.capacity ∧
      hi.array.length = h0.array.length ∧ hi.contents.length = h0.size - i := by
  have hgen : ∀ i (h : MinHeap), h.Valid → h.Ordered → i + 1 ≤ h.size →
      ∃ hi, mergeSteps i h = some hi ∧ hi.Valid ∧ hi.Ordered ∧
        hi.size = h.size - i ∧ hi.capacity = h.capacity ∧
        hi.array.length = h.array.length := by
    intro i
    induction i with
    | zero => intro h hv ho _; exact ⟨h, rfl, hv, ho, rfl, rfl, rfl⟩
    | succ i ih =>
      intro h hv ho hs
      obtain ⟨_, _, _, _, _, _, h3, _, _, _, _, _, _, _, _, _, e10, e11, e12, e13, e14, e15,
        _⟩ := mergeStep_spec h hv ho (by omega)
      obtain ⟨hi, f1, f2, f3, f4, f5, f6⟩ := ih h3 e11 e12 (by omega)
      exact ⟨hi, by simp [mergeSteps, e10, f1], f2, f3, by rw [f4, e13]; omega,
        f5.trans e14, f6.trans e15⟩
  intro i hi
  obtain ⟨h, e1, e2, e3, e4, e5, e6⟩ := hgen i h0 hv ho hi
  refine ⟨h, e1, e2, e3, e4, e5, e6, ?_⟩
  unfold MinHeap.contents
  rw [List.length_take, e4]
  have := e2.1
  omega

theorem mergeLoop_eq_mergeSteps : ∀ (m : Nat) (h : MinHeap), h.Valid → h.Ordered →
    h.size = m + 1 → ∀ fuel, m + 1 ≤ fuel → mergeLoop fuel h = mergeSteps m h := by
  intro m
  induction m with
  | zero =>
    intro h _ _ hs fuel hf
    obtain ⟨f, rfl⟩ : ∃ f, fuel = f + 1 := ⟨fuel - 1, by omega⟩
    simp [mergeLoop, isSizeOne, hs, mergeSteps]
  | succ m ih =>
    intro h hv ho hs fuel hf
    obtain ⟨f, rfl⟩ : ∃ f, fuel = f + 1 := ⟨fuel - 1, by omega⟩
    obtain ⟨_, _, _, _, _, _, h3, _, _, _, _, _, _, _, _, _, e10, e11, e12, e13, _⟩ :=
      mergeStep_spec h hv ho (by omega)
    rw [mergeLoop_succ]
    simp only [isSizeOne, hs, mergeSteps, e10]
    have := ih h3 e11 e12 (by omega) f (by omega)
    simpa using this

theorem mergeLoop_short : ∀ (fuel : Nat) (h : MinHeap), h.Valid → h.Ordered →
    fuel < h.size → mergeLoop fuel h = none := by
  intro fuel
  induction fuel with
  | zero => intro h _ _ _; rfl
  | succ fuel ih =>
    intro h hv ho hs
    obtain ⟨_, _, _, _, _, _, h3, _, _, _, _, _, _, _, _, _, e10, e11, e12, e13, _⟩ :=
      mergeStep_spec h hv ho (by omega)
    rw [mergeLoop_succ]
    have h1 : ¬ h.size = 1 := by omega
    simp only [isSizeOne, beq_iff_eq, h1, if_false, e10]
    exact ih h3 e11 e12 (by omega)

theorem proper_internalCount : ∀ (t : HuffmanNode), Proper t →
    internalCount t + 1 = (leafPairs t).length := by
  intro t
  induction t with
  | null => intro h; exact absurd h id
  | node d f l r ihl ihr =>
    intro hp
    by_cases hleaf : l = HuffmanNode.null ∧ r = HuffmanNode.null
    · simp [internalCount, leafPairs, hleaf]
    · simp only [Proper] at hp
      rcases hp with h | ⟨h1, h2⟩
      · exact absurd h hleaf
      · have := ihl h1
        have := ihr h2
        simp only [internalCount, leafPairs, hleaf, if_false, List.length_append]
        omega

theorem proper_single_leaf (t : HuffmanNode) (hp : Proper t)
    (h1 : (leafPairs t).length = 1) :
    ∃ d f, t = HuffmanNode.node d f HuffmanNode.null HuffmanNode.null := by
  cases t with
  | null => exact absurd hp id
  | node d f l r =>
    by_cases hleaf : l = HuffmanNode.null ∧ r = HuffmanNode.null
    · exact ⟨d, f, by rw [hleaf.1, hleaf.2]⟩
    · exfalso
      simp only [Proper] at hp
      rcases hp with h | ⟨hl, hr⟩
      · exact hleaf h
      · have a := proper_internalCount l hl
        have b := proper_internalCount r hr
        simp only [leafPairs, hleaf, if_false, List.length_append] at h1
        omega

/-! ## Depth assignments and the Kraft sum -/

theorem profileCost_perm (p q : Profile) (h : p.Perm q) : profileCost p = profileCost q :=
  (h.map _).sum_eq

theorem kraft_of_depths_perm (D : Nat) (p q : Profile)
    (h : (p.map Prod.snd).Perm (q.map Prod.snd)) : kraft D p = kraft D q := by
  have e : ∀ r : Profile, kraft D r = ((r.map Prod.snd).map (fun d => 2 ^ (D - d))).sum := by
    intro r; rw [List.map_map]; rfl
  rw [e, e]
  exact (h.map _).sum_eq

theorem kraft_scale (D k : Nat) (p : Profile) (hb : ∀ e ∈ p, e.2 ≤ D) :
    kraft (D + k) p = 2 ^ k * kraft D p := by
  induction p with
  | nil => simp [kraft]
  | cons e rest ih =>
    have he := hb e (List.mem_cons_self _ _)
    have := ih (fun e2 h2 => hb e2 (List.mem_cons_of_mem _ h2))
    simp only [kraft, List.map_cons, List.sum_cons] at this ⊢
    rw [this, Nat.mul_add]
    congr 1
    rw [← pow_add]
    congr 1
    omega

theorem kraftOK_at (p : Profile) (h : KraftOK p) (D : Nat) (hb : ∀ e ∈ p, e.2 ≤ D) :
    kraft D p = 2 ^ D := by
  obtain ⟨D0, hb0, hk⟩ := h
  rcases Nat.le_total D D0 with hle | hle
  · obtain ⟨k, rfl⟩ := Nat.exists_eq_add_of_le hle
    rw [kraft_scale D k p hb, pow_add, Nat.mul_comm] at hk
    exact Nat.eq_of_mul_eq_mul_right (by positivity) hk
  · obtain ⟨k, rfl⟩ := Nat.exists_eq_add_of_le hle
    rw [kraft_scale D0 k p hb0, hk, pow_add, Nat.mul_comm]

theorem kraftOK_of_depths_perm (p q : Profile) (h : (p.map Prod.snd).Perm (q.map Prod.snd))
    (hp : KraftOK p) : KraftOK q := by
  obtain ⟨D, hb, hk⟩ := hp
  refine ⟨D, ?_, by rw [← kraft_of_depths_perm D p q h]; exact hk⟩
  intro e he
  have : e.2 ∈ p.map Prod.snd := h.symm.subset (List.mem_map_of_mem _ he)
  obtain ⟨e2, he2, heq⟩ := List.mem_map.1 this
  rw [← heq]
  exact hb e2 he2

theorem exists_max_depth (p : Profile) (hne : p ≠ []) :
    ∃ e ∈ p, ∀ e2 ∈ p, e2.2 ≤ e.2 := by
  induction p with
  | nil => exact absurd rfl hne
  | cons a rest ih =>
    by_cases hr : rest = []
    · subst hr
      exact ⟨a, List.mem_cons_self _ _, fun e2 h2 => by
        rw [List.mem_singleton] at h2; rw [h2]⟩
    · obtain ⟨e, he, hmax⟩ := ih hr
      by_cases hc : e.2 ≤ a.2
      · refine ⟨a, List.mem_cons_self _ _, ?_⟩
        intro e2 h2
        rcases List.mem_cons.1 h2 with h3 | h3
        · rw [h3]
        · exact le_trans (hmax e2 h3) hc
      · refine ⟨e, List.mem_cons_of_mem _ he, ?_⟩
        intro e2 h2
        rcases List.mem_cons.1 h2 with h3 | h3
        · rw [h3]; omega
        · exact hmax e2 h3

/-- Parity of the Kraft sum at the largest depth `m`: it is the parity of the number
of entries at depth `m`. -/
theorem kraft_mod_two (m : Nat) (p : Profile) (hb : ∀ e ∈ p, e.2 ≤ m) :
    kraft m p % 2 = (p.map Prod.snd).count m % 2 := by
  induction p with
  | nil => simp [kraft]
  | cons e rest ih =>
    have he := hb e (List.mem_cons_self _ _)
    have := ih (fun e2 h2 => hb e2 (List.mem_cons_of_mem _ h2))
    simp only [kraft, List.map_cons, List.sum_cons] at this ⊢
    by_cases hd : e.2 = m
    · rw [hd, Nat.sub_self, pow_zero, List.count_cons_self]
      omega
    · have hlt : 1 ≤ m - e.2 := by omega
      obtain ⟨k, hk⟩ : ∃ k, m - e.2 = k + 1 := ⟨m - e.2 - 1, by omega⟩
      rw [hk, pow_succ, List.count_cons_of_ne (fun h => hd h.symm)]
      omega

theorem two_at_max_depth (p : Profile) (hk : KraftOK p) (h2 : 2 ≤ p.length)
    (m : Nat) (hb : ∀ e ∈ p, e.2 ≤ m) (hm : m ∈ p.map Prod.snd) :
    1 ≤ m ∧ 2 ≤ (p.map Prod.snd).count m := by
  have hkm := kraftOK_at p hk m hb
  have hpar := kraft_mod_two m p hb
  have hpos : 1 ≤ (p.map Prod.snd).count m := List.count_pos_iff.2 hm
  have hm1 : 1 ≤ m := by
    by_contra hcon
    have hm0 : m = 0 := by omega
    subst hm0
    have hall : ∀ q : Profile, (∀ e ∈ q, e.2 ≤ 0) → kraft 0 q = q.length := by
      intro q
      induction q with
      | nil => intro _; rfl
      | cons e rest ih =>
        intro hq
        have := ih (fun e2 h2 => hq e2 (List.mem_cons_of_mem _ h2))
        simp only [kraft, List.map_cons, List.sum_cons, List.length_cons] at this ⊢
        rw [this]
        simp
        omega
    rw [hall p hb] at hkm
    simp at hkm
    omega
  refine ⟨hm1, ?_⟩
  rw [hkm] at hpar
  obtain ⟨k, hk2⟩ : ∃ k, m = k + 1 := ⟨m - 1, by omega⟩
  subst hk2
  rw [pow_succ, Nat.mul_mod_left] at hpar
  omega

theorem exists_perm_cons_of_mem {α : Type} (l : List α) (a : α) (h : a ∈ l) :
    ∃ l2, l.Perm (a :: l2) := by
  obtain ⟨s, t, rfl⟩ := List.append_of_mem h
  exact ⟨s ++ t, List.perm_middle⟩

theorem exchange_to_max (p : Profile) (x : Int) (m : Nat) (hx : x ∈ p.map Prod.fst)
    (hmin : ∀ e ∈ p, x ≤ e.1) (hm : m ∈ p.map Prod.snd) (hmax : ∀ e ∈ p, e.2 ≤ m) :
    ∃ q : Profile, (((x, m) :: q).map Prod.fst).Perm (p.map Prod.fst) ∧
      (((x, m) :: q).map Prod.snd).Perm (p.map Prod.snd) ∧
      profileCost ((x, m) :: q) ≤ profileCost p := by
  obtain ⟨e1, he1, hx1⟩ := List.mem_map.1 hx
  obtain ⟨e2, he2, hm2⟩ := List.mem_map.1 hm
  obtain ⟨x1, dx⟩ := e1
  obtain ⟨a, m2⟩ := e2
  simp only at hx1 hm2
  subst hx1
  subst hm2
  obtain ⟨p1, hp1⟩ := exists_perm_cons_of_mem p (x1, dx) he1
  by_cases hd : dx = m2
  · subst hd
    exact ⟨p1, (hp1.map Prod.fst).symm, (hp1.map Prod.snd).symm,
      le_of_eq (profileCost_perm _ _ hp1.symm)⟩
  · have hne : (a, m2) ≠ (x1, dx) := by
      intro e; exact hd (by cases e; rfl)
    have hmem : (a, m2) ∈ p1 := by
      rcases List.mem_cons.1 (hp1.subset he2) with h | h
      · exact absurd h hne
      · exact h
    obtain ⟨p2, hp2⟩ := exists_perm_cons_of_mem p1 (a, m2) hmem
    have hp : p.Perm ((x1, dx) :: (a, m2) :: p2) := hp1.trans (List.Perm.cons _ hp2)
    refine ⟨(a, dx) :: p2, (hp.map Prod.fst).symm, ?_, ?_⟩
    · refine List.Perm.trans ?_ (hp.map Prod.snd).symm
      simp only [List.map_cons]
      exact List.Perm.swap _ _ _
    · rw [profileCost_perm _ _ hp]
      simp only [profileCost, List.map_cons, List.sum_cons]
      have h1 : x1 ≤ a := hmin (a, m2) he2
      have h2 : dx ≤ m2 := hmax (x1, dx) he1
      have h3 : (0 : Int) ≤ (a - x1) * ((m2 : Int) - (dx : Int)) :=
        mul_nonneg (by omega) (by omega)
      nlinarith [h3]

theorem merge_two_smallest (p : Profile) (hk : KraftOK p) (x y : Int) (R : List Int)
    (hw : (p.map Prod.fst).Perm (x :: y :: R)) (hx : ∀ w ∈ y :: R, x ≤ w)
    (hy : ∀ w ∈ R, y ≤ w) :
    ∃ p2 : Profile, KraftOK p2 ∧ (p2.map Prod.fst).Perm ((x + y) :: R) ∧
      profileCost p2 + x + y ≤ profileCost p := by
  have hlen : 2 ≤ p.length := by
    have := hw.length_eq
    simp only [List.length_map, List.length_cons] at this
    omega
  have hne : p ≠ [] := by
    intro e; rw [e] at hlen; simp at hlen
  obtain ⟨em, hem, hmax⟩ := exists_max_depth p hne
  have hm : em.2 ∈ p.map Prod.snd := List.mem_map_of_mem _ hem
  obtain ⟨hm1, hcount⟩ := two_at_max_depth p hk hlen em.2 hmax hm
  -- bring `x` to the largest depth
  have hxmem : x ∈ p.map Prod.fst := hw.symm.subset (List.mem_cons_self _ _)
  have hxmin : ∀ e ∈ p, x ≤ e.1 := by
    intro e he
    have := hw.subset (List.mem_map_of_mem Prod.fst he)
    rcases List.mem_cons.1 this with h | h
    · rw [h]
    · exact hx _ h
  obtain ⟨q1, a1, a2, a3⟩ := exchange_to_max p x em.2 hxmem hxmin hm hmax
  simp only [List.map_cons] at a1 a2
  have hq1w : (q1.map Prod.fst).Perm (y :: R) := (a1.trans hw).cons_inv
  have hq1max : ∀ e ∈ q1, e.2 ≤ em.2 := by
    intro e he
    have : e.2 ∈ p.map Prod.snd :=
      a2.subset (List.mem_cons_of_mem _ (List.mem_map_of_mem Prod.snd he))
    obtain ⟨e2, he2, heq⟩ := List.mem_map.1 this
    rw [← heq]; exact hmax e2 he2
  have hq1m : em.2 ∈ q1.map Prod.snd := by
    have hc : (em.2 :: q1.map Prod.snd).count em.2 = (p.map Prod.snd).count em.2 :=
      a2.count_eq _
    rw [List.count_cons_self] at hc
    exact List.count_pos_iff.1 (by omega)
  -- bring `y` to the largest depth
  have hymem : y ∈ q1.map Prod.fst := hq1w.symm.subset (List.mem_cons_self _ _)
  have hymin : ∀ e ∈ q1, y ≤ e.1 := by
    intro e he
    have := hq1w.subset (List.mem_map_of_mem Prod.fst he)
    rcases List.mem_cons.1 this with h | h
    · rw [h]
    · exact hy _ h
  obtain ⟨q2, b1, b2, b3⟩ := exchange_to_max q1 y em.2 hymem hymin hq1m hq1max
  simp only [List.map_cons] at b1 b2
  have hq2w : (q2.map Prod.fst).Perm R := (b1.trans hq1w).cons_inv
  have hdepths : (((x, em.2) :: (y, em.2) :: q2).map Prod.snd).Perm (p.map Prod.snd) := by
    simp only [List.map_cons]
    exact (List.Perm.cons _ b2).trans a2
  have hk2 : KraftOK ((x, em.2) :: (y, em.2) :: q2) :=
    kraftOK_of_depths_perm _ _ hdepths.symm hk
  have hcost2 : profileCost ((x, em.2) :: (y, em.2) :: q2) ≤ profileCost p := by
    have e1 : profileCost ((x, em.2) :: (y, em.2) :: q2)
        = x * (em.2 : Int) + profileCost ((y, em.2) :: q2) := by
      simp [profileCost]
    have e2 : profileCost ((x, em.2) :: q1) = x * (em.2 : Int) + profileCost q1 := by
      simp [profileCost]
    rw [e1]
    rw [e2] at a3
    omega
  -- merge the two entries
  have hq2max : ∀ e ∈ q2, e.2 ≤ em.2 := by
    intro e he
    have : e.2 ∈ q1.map Prod.snd :=
      b2.subset (List.mem_cons_of_mem _ (List.mem_map_of_mem Prod.snd he))
    obtain ⟨e2, he2, heq⟩ := List.mem_map.1 this
    rw [← heq]; exact hq1max e2 he2
  refine ⟨(x + y, em.2 - 1) :: q2, ?_, ?_, ?_⟩
  · refine ⟨em.2, ?_, ?_⟩
    · intro e he
      rcases List.mem_cons.1 he with h | h
      · rw [h]; simp
      · exact hq2max e h
    · have hb : ∀ e ∈ (x, em.2) :: (y, em.2) :: q2, e.2 ≤ em.2 := by
        intro e he
        rcases List.mem_cons.1 he with h | h
        · rw [h]
        · rcases List.mem_cons.1 h with h | h
          · rw [h]
          · exact hq2max e h
      have := kraftOK_at _ hk2 em.2 hb
      simp only [kraft, List.map_cons, List.sum_cons, Nat.sub_self, pow_zero] at this ⊢
      have e3 : em.2 - (em.2 - 1) = 1 := by omega
      rw [e3]
      omega
  · simp only [List.map_cons]
    exact List.Perm.cons _ hq2w
  · refine le_trans (le_of_eq ?_) hcost2
    simp only [profileCost, List.map_cons, List.sum_cons]
    have : ((em.2 - 1 : Nat) : Int) = (em.2 : Int) - 1 := by omega
    rw [this]
    ring

/-! ## Weighted leaf depth of the tree built -/

theorem nodeInvariant_proper : ∀ t, NodeInvariant t → Proper t := by
  intro t
  induction t with
  | null => intro h; exact absurd h id
  | node d f l r ihl ihr =>
    intro h
    simp only [NodeInvariant] at h
    rcases h with h | ⟨_, _, _, _, _, _, hl, hr⟩
    · exact Or.inl h
    · exact Or.inr ⟨ihl hl, ihr hr⟩

theorem leafSum_node (d : Byte) (f : Int) (l r : HuffmanNode)
    (hn : ¬(l = HuffmanNode.null ∧ r = HuffmanNode.null)) :
    leafSum (HuffmanNode.node d f l r) = leafSum l + leafSum r := by
  simp [leafSum, leafPairs, hn]

theorem leafSum_leaf (d : Byte) (f : Int) :
    leafSum (HuffmanNode.node d f HuffmanNode.null HuffmanNode.null) = f := by
  simp [leafSum, leafPairs]

theorem nodeInvariant_frequency : ∀ t, NodeInvariant t → frequencyOf t = some (leafSum t) := by
  intro t
  induction t with
  | null => intro h; exact absurd h id
  | node d f l r ihl ihr =>
    intro h
    simp only [NodeInvariant] at h
    rcases h with ⟨h1, h2⟩ | ⟨fl, fr, e1, e2, e3, _, hl, hr⟩
    · subst h1; subst h2
      rw [leafSum_leaf]; rfl
    · have hn : ¬(l = HuffmanNode.null ∧ r = HuffmanNode.null) := by
        rintro ⟨h1, _⟩
        rw [h1] at hl
        exact hl
      rw [leafSum_node d f l r hn]
      rw [ihl hl] at e1
      rw [ihr hr] at e2
      cases e1; cases e2
      rw [e3]; rfl

theorem depthProfile_weights : ∀ (t : HuffmanNode) (d : Nat),
    (depthProfile t d).map Prod.fst = (leafPairs t).map Prod.snd := by
  intro t
  induction t with
  | null => intro d; rfl
  | node s f l r ihl ihr =>
    intro d
    by_cases hn : l = HuffmanNode.null ∧ r = HuffmanNode.null
    · simp [depthProfile, leafPairs, hn]
    · simp [depthProfile, leafPairs, hn, ihl, ihr]

theorem profileCost_append (p q : Profile) :
    profileCost (p ++ q) = profileCost p + profileCost q := by
  simp [profileCost]

theorem profileCost_shift : ∀ (t : HuffmanNode) (d : Nat),
    profileCost (depthProfile t (d + 1)) = profileCost (depthProfile t d) + leafSum t := by
  intro t
  induction t with
  | null => intro d; simp [depthProfile, profileCost, leafSum, leafPairs]
  | node s f l r ihl ihr =>
    intro d
    by_cases hn : l = HuffmanNode.null ∧ r = HuffmanNode.null
    · obtain ⟨h1, h2⟩ := hn
      subst h1; subst h2
      rw [leafSum_leaf]
      simp only [depthProfile, and_self, if_true, profileCost, List.map_cons, List.map_nil,
        List.sum_cons, List.sum_nil]
      push_cast
      ring
    · rw [leafSum_node s f l r hn]
      simp only [depthProfile, hn, if_false, profileCost_append]
      rw [ihl (d + 1), ihr (d + 1)]
      ring

theorem treeCost_node (s : Byte) (f : Int) (l r : HuffmanNode)
    (hn : ¬(l = HuffmanNode.null ∧ r = HuffmanNode.null)) :
    treeCost (HuffmanNode.node s f l r) = treeCost l + treeCost r + leafSum l + leafSum r := by
  simp only [treeCost, depthProfile, hn, if_false, profileCost_append]
  rw [profileCost_shift l 0, profileCost_shift r 0]
  ring

theorem treeCost_leaf (s : Byte) (f : Int) :
    treeCost (HuffmanNode.node s f HuffmanNode.null HuffmanNode.null) = 0 := by
  simp [treeCost, depthProfile, profileCost]

theorem kraft_append (D : Nat) (p q : Profile) : kraft D (p ++ q) = kraft D p + kraft D q := by
  simp [kraft]

theorem depthProfile_depth_ge : ∀ (t : HuffmanNode) (d : Nat), ∀ e ∈ depthProfile t d, d ≤ e.2 := by
  intro t
  induction t with
  | null => intro d e he; simp [depthProfile] at he
  | node s f l r ihl ihr =>
    intro d e he
    by_cases hn : l = HuffmanNode.null ∧ r = HuffmanNode.null
    · simp only [depthProfile, hn, and_self, if_true, List.mem_singleton] at he
      rw [he]
    · simp only [depthProfile, hn, if_false, List.mem_append] at he
      rcases he with h | h
      · have := ihl (d + 1) e h; omega
      · have := ihr (d + 1) e h; omega

theorem depthProfile_ne_nil : ∀ (t : HuffmanNode), Proper t → ∀ d, depthProfile t d ≠ [] := by
  intro t
  induction t with
  | null => intro h; exact absurd h id
  | node s f l r ihl ihr =>
    intro hp d
    by_cases hn : l = HuffmanNode.null ∧ r = HuffmanNode.null
    · simp [depthProfile, hn]
    · simp only [Proper] at hp
      rcases hp with h | ⟨hl, _⟩
      · exact absurd h hn
      · simp only [depthProfile, hn, if_false]
        intro e
        exact ihl hl (d + 1) (List.append_eq_nil.1 e).1

theorem kraft_proper : ∀ (t : HuffmanNode), Proper t → ∀ (d D : Nat),
    (∀ e ∈ depthProfile t d, e.2 ≤ D) → d ≤ D ∧ kraft D (depthProfile t d) = 2 ^ (D - d) := by
  intro t
  induction t with
  | null => intro h; exact absurd h id
  | node s f l r ihl ihr =>
    intro hp d D hb
    by_cases hn : l = HuffmanNode.null ∧ r = HuffmanNode.null
    · simp only [depthProfile, hn, and_self, if_true] at hb ⊢
      have := hb (f, d) (List.mem_singleton_self _)
      exact ⟨this, by simp [kraft]⟩
    · simp only [Proper] at hp
      rcases hp with h | ⟨hl, hr⟩
      · exact absurd h hn
      · simp only [depthProfile, hn, if_false] at hb ⊢
        obtain ⟨a1, a2⟩ := ihl hl (d + 1) D
          (fun e he => hb e (List.mem_append.2 (Or.inl he)))
        obtain ⟨_, b2⟩ := ihr hr (d + 1) D
          (fun e he => hb e (List.mem_append.2 (Or.inr he)))
        refine ⟨by omega, ?_⟩
        rw [kraft_append, a2, b2]
        obtain ⟨k, hk⟩ : ∃ k, D - d = k + 1 := ⟨D - d - 1, by omega⟩
        have : D - (d + 1) = k := by omega
        rw [this, hk, pow_succ]
        omega

theorem exists_depth_bound (p : Profile) : ∃ D, ∀ e ∈ p, e.2 ≤ D := by
  induction p with
  | nil => exact ⟨0, fun e he => by simp at he⟩
  | cons a rest ih =>
    obtain ⟨D, hD⟩ := ih
    refine ⟨max D a.2, ?_⟩
    intro e he
    rcases List.mem_cons.1 he with h | h
    · rw [h]; exact le_max_right _ _
    · exact le_trans (hD e h) (le_max_left _ _)

theorem kraftOK_proper (t : HuffmanNode) (hp : Proper t) : KraftOK (depthProfile t 0) := by
  obtain ⟨D, hD⟩ := exists_depth_bound (depthProfile t 0)
  exact ⟨D, hD, by simpa using (kraft_proper t hp 0 D hD).2⟩

theorem kraftOK_single (w : Int) (d : Nat) (h : KraftOK [(w, d)]) : d = 0 := by
  obtain ⟨D, hb, hk⟩ := h
  have hd := hb (w, d) (List.mem_singleton_self _)
  simp only [kraft, List.map_cons, List.map_nil, List.sum_cons, List.sum_nil,
    Nat.add_zero] at hk
  have := Nat.pow_right_injective (le_refl 2) hk
  simp only at hd
  omega

theorem sum_nonneg_of_forall (l : List Int) (h : ∀ x ∈ l, 0 ≤ x) : 0 ≤ l.sum := by
  induction l with
  | nil => simp
  | cons a rest ih =>
    have := ih (fun x hx => h x (List.mem_cons_of_mem _ hx))
    have := h a (List.mem_cons_self _ _)
    simp only [List.sum_cons]
    omega

/-- What a greedy run gives on a forest of trees that satisfy the node invariant,
have non-negative frequencies and a total below `2^31`. -/
theorem greedyRun_facts : ∀ (forest : List HuffmanNode) (root : HuffmanNode),
    GreedyRun forest root →
    (∀ t ∈ forest, NodeInvariant t) → (∀ t ∈ forest, 0 ≤ leafSum t) →
    (forest.map leafSum).sum < 2147483648 →
    NodeInvariant root ∧ leafSum root = (forest.map leafSum).sum ∧
      (leafPairs root).Perm (forest.flatMap leafPairs) ∧
      ∀ p : Profile, KraftOK p → (p.map Prod.fst).Perm (forest.map leafSum) →
        treeCost root ≤ (forest.map treeCost).sum + profileCost p := by
  intro forest root hrun
  induction hrun with
  | done t =>
    intro hinv _ _
    refine ⟨hinv t (List.mem_singleton_self t), by simp, by simp, ?_⟩
    intro p hk hw
    simp only [List.map_cons, List.map_nil] at hw
    have hp : ∃ e, p = [e] := by
      have := hw.length_eq
      simp only [List.length_map, List.length_singleton] at this
      exact List.length_eq_one.1 this
    obtain ⟨e, rfl⟩ := hp
    obtain ⟨w, d⟩ := e
    have hd := kraftOK_single w d hk
    subst hd
    simp [profileCost]
  | step forest rest left right root lf rf hperm hl hr hmin1 hmin2 _ ih =>
    intro hinv hnn hsum
    have hmemL : left ∈ forest := hperm.symm.subset (List.mem_cons_self _ _)
    have hmemR : right ∈ forest :=
      hperm.symm.subset (List.mem_cons_of_mem _ (List.mem_cons_self _ _))
    have hmemRest : ∀ t ∈ rest, t ∈ forest := fun t ht =>
      hperm.symm.subset (List.mem_cons_of_mem _ (List.mem_cons_of_mem _ ht))
    have hlf : lf = leafSum left := by
      have := nodeInvariant_frequency left (hinv left hmemL)
      rw [hl] at this; exact Option.some.inj this
    have hrf : rf = leafSum right := by
      have := nodeInvariant_frequency right (hinv right hmemR)
      rw [hr] at this; exact Option.some.inj this
    have hsumF : (forest.map leafSum).sum = lf + rf + (rest.map leafSum).sum := by
      rw [(hperm.map leafSum).sum_eq, hlf, hrf]
      simp only [List.map_cons, List.sum_cons]
      ring
    have hrestnn : 0 ≤ (rest.map leafSum).sum := by
      apply sum_nonneg_of_forall
      intro x hx
      obtain ⟨t, ht, rfl⟩ := List.mem_map.1 hx
      exact hnn t (hmemRest t ht)
    have hl0 : 0 ≤ lf := by rw [hlf]; exact hnn left hmemL
    have hr0 : 0 ≤ rf := by rw [hrf]; exact hnn right hmemR
    have hwrap : wrapInt32 (lf + rf) = lf + rf :=
      wrapInt32_of_inInt32 _ ⟨by omega, by omega⟩
    rw [hwrap] at ih
    have hleftnn : left ≠ HuffmanNode.null := by
      intro e; rw [e] at hl; cases hl
    have hn : ¬(left = HuffmanNode.null ∧ right = HuffmanNode.null) := fun h => hleftnn h.1
    have hle : lf ≤ rf := by
      obtain ⟨f, hf1, hf2⟩ := hmin1 right (List.mem_cons_self _ _)
      rw [hr] at hf1
      cases hf1
      exact hf2
    have htop : NodeInvariant (HuffmanNode.node 0 (lf + rf) left right) := by
      simp only [NodeInvariant]
      exact Or.inr ⟨lf, rf, hl, hr, rfl, hle, hinv left hmemL, hinv right hmemR⟩
    have htopsum : leafSum (HuffmanNode.node 0 (lf + rf) left right) = lf + rf := by
      rw [leafSum_node _ _ _ _ hn, hlf, hrf]
    obtain ⟨i1, i2, i3, i4⟩ := ih
      (by
        intro t ht
        rcases List.mem_cons.1 ht with h | h
        · rw [h]; exact htop
        · exact hinv t (hmemRest t h))
      (by
        intro t ht
        rcases List.mem_cons.1 ht with h | h
        · rw [h, htopsum]; omega
        · exact hnn t (hmemRest t h))
      (by
        simp only [List.map_cons, List.sum_cons, htopsum]
        omega)
    refine ⟨i1, ?_, ?_, ?_⟩
    · rw [i2, hsumF]
      simp only [List.map_cons, List.sum_cons, htopsum]
    · refine i3.trans ?_
      refine List.Perm.trans ?_ (List.Perm.flatMap_right leafPairs hperm).symm
      simp [List.flatMap_cons, leafPairs, hn]
    · intro p hk hw
      have hw2 : (p.map Prod.fst).Perm (lf :: rf :: rest.map leafSum) := by
        refine hw.trans ?_
        have := hperm.map leafSum
        simp only [List.map_cons] at this
        rw [hlf, hrf]
        exact this
      have hx : ∀ w ∈ rf :: rest.map leafSum, lf ≤ w := by
        intro w hw3
        rcases List.mem_cons.1 hw3 with h | h
        · rw [h]; exact hle
        · obtain ⟨t, ht, rfl⟩ := List.mem_map.1 h
          obtain ⟨f, hf1, hf2⟩ := hmin1 t (List.mem_cons_of_mem _ ht)
          have := nodeInvariant_frequency t (hinv t (hmemRest t ht))
          rw [hf1] at this
          rw [← Option.some.inj this]
          exact hf2
      have hy : ∀ w ∈ rest.map leafSum, rf ≤ w := by
        intro w hw3
        obtain ⟨t, ht, rfl⟩ := List.mem_map.1 hw3
        obtain ⟨f, hf1, hf2⟩ := hmin2 t ht
        have := nodeInvariant_frequency t (hinv t (hmemRest t ht))
        rw [hf1] at this
        rw [← Option.some.inj this]
        exact hf2
      obtain ⟨p2, k1, k2, k3⟩ := merge_two_smallest p hk lf rf (rest.map leafSum) hw2 hx hy
      have := i4 p2 k1 (by simpa only [List.map_cons, htopsum] using k2)
      have hcostF : (forest.map treeCost).sum
          = treeCost left + treeCost right + (rest.map treeCost).sum := by
        rw [(hperm.map treeCost).sum_eq]
        simp only [List.map_cons, List.sum_cons]
        ring
      simp only [List.map_cons, List.sum_cons, treeCost_node _ _ _ _ hn] at this
      rw [hcostF]
      rw [← hlf, ← hrf] at this
      omega

theorem buildHuffmanTree_optimal (frequencies : List (Byte × Int)) (hne : frequencies ≠ [])
    (hnn : ∀ pair ∈ frequencies, 0 ≤ pair.2)
    (hsum : (frequencies.map Prod.snd).sum < 2147483648) :
    ∃ root, buildHuffmanTree frequencies = some root ∧ NodeInvariant root ∧
      frequencyOf root = some (frequencies.map Prod.snd).sum ∧
      (leafPairs root).Perm frequencies ∧
      ∀ p : Profile, KraftOK p → (p.map Prod.fst).Perm (frequencies.map Prod.snd) →
        treeCost root ≤ profileCost p := by
  obtain ⟨root, e1, e2⟩ := buildHuffmanTree_greedy frequencies hne
  have hmapsum : (frequencies.map (fun pair => newNode pair.1 pair.2)).map leafSum
      = frequencies.map Prod.snd := by
    rw [List.map_map]
    apply List.map_congr_left
    intro pair _
    simp [newNode, leafSum_leaf]
  have hmapcost : ((frequencies.map (fun pair => newNode pair.1 pair.2)).map treeCost).sum
      = 0 := by
    rw [List.map_map]
    apply List.sum_eq_zero
    intro x hx
    obtain ⟨pair, _, rfl⟩ := List.mem_map.1 hx
    simp [newNode, treeCost_leaf]
  obtain ⟨f1, f2, f3, f4⟩ := greedyRun_facts _ root e2
    (by
      intro t ht
      obtain ⟨pair, _, rfl⟩ := List.mem_map.1 ht
      simp [newNode, NodeInvariant])
    (by
      intro t ht
      obtain ⟨pair, hp, rfl⟩ := List.mem_map.1 ht
      simp only [newNode, leafSum_leaf]
      exact hnn pair hp)
    (by rw [hmapsum]; exact hsum)
  refine ⟨root, e1, f1, ?_, ?_, ?_⟩
  · rw [nodeInvariant_frequency root f1, f2, hmapsum]
  · rw [leafPairs_newNodes] at f3; exact f3
  · intro p hk hw
    have := f4 p hk (by rw [hmapsum]; exact hw)
    rw [hmapcost] at this
    omega

/-! ## Leaves with their paths -/

theorem leafPaths_pairs : ∀ t : HuffmanNode,
    (leafPaths t).map (fun e => (e.1, e.2.1)) = leafPairs t := by
  intro t
  induction t with
  | null => rfl
  | node d f l r ihl ihr =>
    by_cases hn : l = HuffmanNode.null ∧ r = HuffmanNode.null
    · simp [leafPaths, leafPairs, hn]
    · simp only [leafPaths, leafPairs, hn, if_false, List.map_append, List.map_map]
      rw [← ihl, ← ihr]
      rfl

theorem leafPaths_profile : ∀ (t : HuffmanNode) (d : Nat),
    depthProfile t d = (leafPaths t).map (fun e => (e.2.1, d + e.2.2.length)) := by
  intro t
  induction t with
  | null => intro d; rfl
  | node s f l r ihl ihr =>
    intro d
    by_cases hn : l = HuffmanNode.null ∧ r = HuffmanNode.null
    · simp [leafPaths, depthProfile, hn]
    · simp only [leafPaths, depthProfile, hn, if_false, List.map_append, List.map_map]
      rw [ihl, ihr]
      congr 1
      · apply List.map_congr_left
        intro e _
        simp only [Function.comp, List.length_cons]
        congr 1
        omega
      · apply List.map_congr_left
        intro e _
        simp only [Function.comp, List.length_cons]
        congr 1
        omega

theorem leafPaths_keys (t : HuffmanNode) :
    (leafPaths t).map (fun e => e.1) = (leafPairs t).map Prod.fst := by
  rw [← leafPaths_pairs, List.map_map]
  rfl

theorem pathTo_iff_leafPaths : ∀ (t : HuffmanNode) (x : Byte) (c : List Bool),
    PathTo t x c ↔ ∃ f, (x, f, c) ∈ leafPaths t := by
  intro t
  induction t with
  | null =>
    intro x c
    constructor
    · intro h; cases h
    · rintro ⟨f, hf⟩; simp [leafPaths] at hf
  | node d f l r ihl ihr =>
    intro x c
    by_cases hn : l = HuffmanNode.null ∧ r = HuffmanNode.null
    · obtain ⟨h1, h2⟩ := hn
      subst h1; subst h2
      constructor
      · intro h
        cases h with
        | leaf _ _ => exact ⟨f, by simp [leafPaths]⟩
        | left _ _ _ _ _ _ hn2 _ => exact absurd ⟨rfl, rfl⟩ hn2
        | right _ _ _ _ _ _ hn2 _ => exact absurd ⟨rfl, rfl⟩ hn2
      · rintro ⟨f2, hf⟩
        simp only [leafPaths, and_self, if_true, List.mem_singleton, Prod.mk.injEq] at hf
        obtain ⟨rfl, _, rfl⟩ := hf
        exact PathTo.leaf _ _
    · constructor
      · intro h
        cases h with
        | leaf _ _ => exact absurd ⟨rfl, rfl⟩ hn
        | left _ _ _ _ _ c2 _ hp =>
          obtain ⟨f2, hf⟩ := (ihl x c2).1 hp
          refine ⟨f2, ?_⟩
          simp only [leafPaths, hn, if_false, List.mem_append, List.mem_map]
          exact Or.inl ⟨_, hf, rfl⟩
        | right _ _ _ _ _ c2 _ hp =>
          obtain ⟨f2, hf⟩ := (ihr x c2).1 hp
          refine ⟨f2, ?_⟩
          simp only [leafPaths, hn, if_false, List.mem_append, List.mem_map]
          exact Or.inr ⟨_, hf, rfl⟩
      · rintro ⟨f2, hf⟩
        simp only [leafPaths, hn, if_false, List.mem_append, List.mem_map,
          Prod.mk.injEq] at hf
        rcases hf with ⟨e, he, h1, h2, h3⟩ | ⟨e, he, h1, h2, h3⟩
        · subst h1; subst h3
          exact PathTo.left _ _ _ _ _ _ hn ((ihl _ _).2 ⟨e.2.1, he⟩)
        · subst h1; subst h3
          exact PathTo.right _ _ _ _ _ _ hn ((ihr _ _).2 ⟨e.2.1, he⟩)

/-- The code table of any tree whose leaves hold distinct symbols: each leaf's symbol
is mapped to the edges leading to it, other symbols keep their entry. -/
theorem generateCodes_leafPaths : ∀ (t : HuffmanNode),
    ((leafPairs t).map Prod.fst).Nodup →
    ∀ (code : List Bool) (codes : CodeMap),
      (∀ e ∈ leafPaths t, generateCodes t code codes e.1 = some (code ++ e.2.2)) ∧
      (∀ x, x ∉ (leafPairs t).map Prod.fst → generateCodes t code codes x = codes x) := by
  intro t
  induction t with
  | null =>
    intro _ code codes
    exact ⟨by simp [leafPaths], fun x _ => rfl⟩
  | node d f l r ihl ihr =>
    intro hnd code codes
    by_cases hn : l = HuffmanNode.null ∧ r = HuffmanNode.null
    · simp only [leafPaths, leafPairs, generateCodes, hn, and_self, if_true,
        List.mem_singleton, List.map_cons, List.map_nil]
      constructor
      · rintro e rfl
        simp
      · intro x hx
        rw [Function.update_noteq hx]
    · simp only [leafPairs, hn, if_false, List.map_append] at hnd
      have hndl := (List.nodup_append.1 hnd).1
      have hndr := (List.nodup_append.1 hnd).2.1
      have hdis := (List.nodup_append.1 hnd).2.2
      obtain ⟨l1, l2⟩ := ihl hndl (code ++ [false]) codes
      obtain ⟨r1, r2⟩ := ihr hndr (code ++ [true])
        (generateCodes l (code ++ [false]) codes)
      constructor
      · intro e he
        simp only [leafPaths, hn, if_false, List.mem_append, List.mem_map] at he
        simp only [generateCodes, hn, if_false]
        rcases he with ⟨e2, he2, rfl⟩ | ⟨e2, he2, rfl⟩
        · have hk : e2.1 ∈ (leafPairs l).map Prod.fst := by
            rw [← leafPaths_keys]
            exact List.mem_map.2 ⟨e2, he2, rfl⟩
          have hnr : e2.1 ∉ (leafPairs r).map Prod.fst := fun h => hdis hk h
          rw [r2 _ hnr, l1 e2 he2]
          simp
        · rw [r1 e2 he2]
          simp
      · intro x hx
        simp only [leafPairs, hn, if_false, List.map_append, List.mem_append, not_or] at hx
        simp only [generateCodes, hn, if_false]
        rw [r2 x hx.2, l2 x hx.1]

theorem codesOf_leafPaths (t : HuffmanNode) (hnd : ((leafPairs t).map Prod.fst).Nodup) :
    (∀ e ∈ leafPaths t, codesOf t e.1 = some e.2.2) ∧
    (∀ x, x ∉ (leafPairs t).map Prod.fst → codesOf t x = none) := by
  obtain ⟨h1, h2⟩ := generateCodes_leafPaths t hnd [] (fun _ => none)
  refine ⟨?_, h2⟩
  intro e he
  have := h1 e he
  simpa [codesOf] using this

theorem codesOf_iff_pathTo (t : HuffmanNode) (hnd : ((leafPairs t).map Prod.fst).Nodup)
    (x : Byte) (c : List Bool) : codesOf t x = some c ↔ PathTo t x c := by
  obtain ⟨h1, h2⟩ := codesOf_leafPaths t hnd
  constructor
  · intro h
    by_cases hx : x ∈ (leafPairs t).map Prod.fst
    · rw [← leafPaths_keys] at hx
      obtain ⟨e, he, rfl⟩ := List.mem_map.1 hx
      have := h1 e he
      rw [h] at this
      cases this
      exact (pathTo_iff_leafPaths _ _ _).2 ⟨e.2.1, he⟩
    · rw [h2 x hx] at h
      cases h
  · intro h
    obtain ⟨f, hf⟩ := (pathTo_iff_leafPaths _ _ _).1 h
    exact h1 _ hf

theorem followPath_leafPaths : ∀ (t : HuffmanNode), ∀ e ∈ leafPaths t,
    followPath t e.2.2 = HuffmanNode.node e.1 e.2.1 HuffmanNode.null HuffmanNode.null := by
  intro t
  induction t with
  | null => intro e he; simp [leafPaths] at he
  | node d f l r ihl ihr =>
    intro e he
    by_cases hn : l = HuffmanNode.null ∧ r = HuffmanNode.null
    · simp only [leafPaths, hn, and_self, if_true, List.mem_singleton] at he
      subst he
      obtain ⟨h1, h2⟩ := hn
      subst h1; subst h2
      rfl
    · simp only [leafPaths, hn, if_false, List.mem_append, List.mem_map] at he
      rcases he with ⟨e2, he2, rfl⟩ | ⟨e2, he2, rfl⟩
      · simpa [followPath] using ihl e2 he2
      · simpa [followPath] using ihr e2 he2

theorem weightedLength_perm (codes : CodeMap) (fr1 fr2 : List (Byte × Int))
    (h : fr1.Perm fr2) : weightedLength codes fr1 = weightedLength codes fr2 := by
  unfold weightedLength
  exact (h.map _).sum_eq

/-- The weighted leaf depth of a tree with distinct leaf symbols is the sum over its
leaves of frequency times code length. -/
theorem treeCost_eq_weightedLength (t : HuffmanNode)
    (hnd : ((leafPairs t).map Prod.fst).Nodup) :
    treeCost t = weightedLength (codesOf t) (leafPairs t) := by
  obtain ⟨h1, _⟩ := codesOf_leafPaths t hnd
  unfold treeCost weightedLength profileCost
  rw [leafPaths_profile, ← leafPaths_pairs, List.map_map, List.map_map]
  congr 1
  apply List.map_congr_left
  intro e he
  simp only [Function.comp, h1 e he, Option.getD_some]
  simp

/-! ## Trees with one-child nodes -/

theorem contract_eq_null : ∀ t : HuffmanNode,
    contract t = HuffmanNode.null ↔ t = HuffmanNode.null := by
  intro t
  induction t with
  | null => simp [contract]
  | node d f l r ihl ihr =>
    by_cases hn : l = HuffmanNode.null ∧ r = HuffmanNode.null
    · simp [contract, hn]
    · simp only [contract, hn, if_false]
      by_cases hl : contract l = HuffmanNode.null
      · have hl2 := ihl.1 hl
        have hr2 : r ≠ HuffmanNode.null := fun h => hn ⟨hl2, h⟩
        rw [if_pos hl]
        simp only [reduceCtorEq, iff_false]
        exact fun h => hr2 (ihr.1 h)
      · rw [if_neg hl]
        by_cases hr : contract r = HuffmanNode.null
        · rw [if_pos hr]
          simp only [reduceCtorEq, iff_false]
          exact hl
        · rw [if_neg hr]
          simp

theorem contract_leafPairs : ∀ t : HuffmanNode, leafPairs (contract t) = leafPairs t := by
  intro t
  induction t with
  | null => rfl
  | node d f l r ihl ihr =>
    by_cases hn : l = HuffmanNode.null ∧ r = HuffmanNode.null
    · simp [contract, hn, leafPairs]
    · simp only [contract, hn, if_false]
      by_cases hl : contract l = HuffmanNode.null
      · rw [if_pos hl]
        have hl2 := (contract_eq_null l).1 hl
        simp only [leafPairs, hn, if_false]
        rw [ihr, hl2]
        simp [leafPairs]
      · rw [if_neg hl]
        by_cases hr : contract r = HuffmanNode.null
        · rw [if_pos hr]
          have hr2 := (contract_eq_null r).1 hr
          simp only [leafPairs, hn, if_false]
          rw [ihl, hr2]
          simp [leafPairs]
        · rw [if_neg hr]
          have hn2 : ¬(contract l = HuffmanNode.null ∧ contract r = HuffmanNode.null) :=
            fun h => hl h.1
          simp only [leafPairs, hn, hn2, if_false]
          rw [ihl, ihr]

theorem contract_proper : ∀ t : HuffmanNode, t ≠ HuffmanNode.null → Proper (contract t) := by
  intro t
  induction t with
  | null => intro h; exact absurd rfl h
  | node d f l r ihl ihr =>
    intro _
    by_cases hn : l = HuffmanNode.null ∧ r = HuffmanNode.null
    · simp [contract, hn, Proper]
    · simp only [contract, hn, if_false]
      by_cases hl : contract l = HuffmanNode.null
      · rw [if_pos hl]
        have hl2 := (contract_eq_null l).1 hl
        exact ihr (fun h => hn ⟨hl2, h⟩)
      · rw [if_neg hl]
        have hl3 : l ≠ HuffmanNode.null := fun h => hl ((contract_eq_null l).2 h)
        by_cases hr : contract r = HuffmanNode.null
        · rw [if_pos hr]
          exact ihl hl3
        · rw [if_neg hr]
          have hr3 : r ≠ HuffmanNode.null := fun h => hr ((contract_eq_null r).2 h)
          simp only [Proper]
          exact Or.inr ⟨ihl hl3, ihr hr3⟩

theorem leafSum_contract (t : HuffmanNode) : leafSum (contract t) = leafSum t := by
  unfold leafSum
  rw [contract_leafPairs]

theorem leafSum_nonneg (t : HuffmanNode) (h : ∀ e ∈ leafPairs t, 0 ≤ e.2) :
    0 ≤ leafSum t := by
  unfold leafSum
  apply sum_nonneg_of_forall
  intro x hx
  obtain ⟨e, he, rfl⟩ := List.mem_map.1 hx
  exact h e he

/-- Removing the nodes with one child does not raise the weighted leaf depth when the
frequencies are non-negative. -/
theorem contract_cost : ∀ t : HuffmanNode, (∀ e ∈ leafPairs t, 0 ≤ e.2) →
    treeCost (contract t) ≤ treeCost t := by
  intro t
  induction t with
  | null => intro _; exact le_refl _
  | node d f l r ihl ihr =>
    intro hnn
    by_cases hn : l = HuffmanNode.null ∧ r = HuffmanNode.null
    · simp [contract, hn]
    · have hnnl : ∀ e ∈ leafPairs l, 0 ≤ e.2 := by
        intro e he
        apply hnn
        simp only [leafPairs, hn, if_false, List.mem_append]
        exact Or.inl he
      have hnnr : ∀ e ∈ leafPairs r, 0 ≤ e.2 := by
        intro e he
        apply hnn
        simp only [leafPairs, hn, if_false, List.mem_append]
        exact Or.inr he
      have h1 := ihl hnnl
      have h2 := ihr hnnr
      have h3 := leafSum_nonneg l hnnl
      have h4 := leafSum_nonneg r hnnr
      have hc : treeCost HuffmanNode.null = 0 := rfl
      have hs : leafSum HuffmanNode.null = 0 := rfl
      rw [treeCost_node _ _ _ _ hn]
      simp only [contract, hn, if_false]
      by_cases hl : contract l = HuffmanNode.null
      · rw [if_pos hl]
        rw [(contract_eq_null l).1 hl, hc]
        omega
      · rw [if_neg hl]
        by_cases hr : contract r = HuffmanNode.null
        · rw [if_pos hr]
          rw [(contract_eq_null r).1 hr, hc]
          omega
        · rw [if_neg hr]
          have hn2 : ¬(contract l = HuffmanNode.null ∧ contract r = HuffmanNode.null) :=
            fun h => hl h.1
          rw [treeCost_node _ _ _ _ hn2, leafSum_contract, leafSum_contract]
          omega

/-- The tree built has the least weighted leaf depth among all trees with the table's
entries at their leaves. -/
theorem buildHuffmanTree_least (frequencies : List (Byte × Int)) (hne : frequencies ≠ [])
    (hnn : ∀ pair ∈ frequencies, 0 ≤ pair.2)
    (hsum : (frequencies.map Prod.snd).sum < 2147483648) :
    ∃ root, buildHuffmanTree frequencies = some root ∧ NodeInvariant root ∧
      (leafPairs root).Perm frequencies ∧
      ∀ u : HuffmanNode, (leafPairs u).Perm frequencies → treeCost root ≤ treeCost u := by
  obtain ⟨root, h1, h2, _, h4, h5⟩ := buildHuffmanTree_optimal frequencies hne hnn hsum
  refine ⟨root, h1, h2, h4, ?_⟩
  intro u hu
  have hun : u ≠ HuffmanNode.null := by
    intro e
    rw [e] at hu
    exact hne (List.nil_perm.1 hu)
  have hk := kraftOK_proper (contract u) (contract_proper u hun)
  have hw : ((depthProfile (contract u) 0).map Prod.fst).Perm (frequencies.map Prod.snd) := by
    rw [depthProfile_weights, contract_leafPairs]
    exact hu.map _
  have hle := h5 _ hk hw
  have hc := contract_cost u (fun e he => hnn e (hu.subset he))
  have : profileCost (depthProfile (contract u) 0) = treeCost (contract u) := rfl
  omega

/-! ## Tables without ties -/

theorem leafPairs_ne_nil (t : HuffmanNode) (hp : Proper t) : leafPairs t ≠ [] := by
  intro h
  have := proper_internalCount t hp
  rw [h] at this
  simp at this

theorem mergeSteps_snoc : ∀ (i : Nat) (h hi : MinHeap), mergeSteps i h = some hi →
    mergeSteps (i + 1) h = mergeStep hi := by
  intro i
  induction i with
  | zero =>
    intro h hi e
    simp only [mergeSteps] at e
    cases e
    simp only [mergeSteps]
    cases mergeStep h <;> rfl
  | succ i ih =>
    intro h hi e
    simp only [mergeSteps] at e
    cases e1 : mergeStep h with
    | none => rw [e1] at e; cases e
    | some h2 =>
      rw [e1] at e
      have := ih h2 hi e
      rw [← this]
      conv_lhs => rw [mergeSteps]
      rw [e1]

/-- One run of the loop body after `i` earlier runs, for a heap that starts valid, in
order and with `size = capacity = k`: both `extractMin` calls and the `insertMinHeap`
call stay inside the allocation. -/
theorem mergeBody_safe (h0 : MinHeap) (hv : h0.Valid) (ho : h0.Ordered) (k : Nat)
    (hsize : h0.size = k) (hcap : h0.capacity = k) (hlen : h0.array.length = k)
    (i : Nat) (hi : i + 1 < k) :
    ∃ hi left h1 right h2 lf rf h3,
      mergeSteps i h0 = some hi ∧ isSizeOne hi = false ∧
      1 ≤ hi.size ∧ extractMin hi = some (left, h1) ∧
      1 ≤ h1.size ∧ extractMin h1 = some (right, h2) ∧
      frequencyOf left = some lf ∧ frequencyOf right = some rf ∧
      h2.size < h2.capacity ∧ h2.capacity = k ∧ h2.array.length = k ∧
      insertMinHeap h2 (HuffmanNode.node 0 (wrapInt32 (lf + rf)) left right) = some h3 ∧
      mergeSteps (i + 1) h0 = some h3 := by
  obtain ⟨hi2, d1, d2, d3, d4, d5, d6, _⟩ := mergeSteps_state h0 hv ho i (by omega)
  have hm := mergeStep_spec hi2 d2 d3 (by omega)
  obtain ⟨left, h1, right, h2, lf, rf, h3, f1, f2, f3, f4, f5, f6, f7, f8, f9, f10, _⟩ := hm
  have g1 : isSizeOne hi2 = false := by
    have : hi2.size ≠ 1 := by omega
    simp [isSizeOne, this]
  have g2 : 1 ≤ hi2.size := by omega
  have g3 : 1 ≤ h1.size := by omega
  have g4 : h2.size < h2.capacity := by omega
  have g5 : h2.capacity = k := by omega
  have g6 : h2.array.length = k := by omega
  have g7 : mergeSteps (i + 1) h0 = some h3 := by
    rw [mergeSteps_snoc i h0 hi2 d1]
    exact f10
  exact ⟨hi2, left, h1, right, h2, lf, rf, h3, d1, g1, g2, f1, g3, f3, f7, f8, g4, g5, g6,
    f9, g7⟩

/-- The end of the loop: after `size - 1` runs of the body one node is left, which the
last `extractMin` returns. -/
theorem mergeLoop_end (h0 : MinHeap) (hv : h0.Valid) (ho : h0.Ordered) (hs : 1 ≤ h0.size) :
    ∃ hk root rest, mergeSteps (h0.size - 1) h0 = some hk ∧ isSizeOne hk = true ∧
      mergeLoop (h0.size + 1) h0 = some hk ∧ extractMin hk = some (root, rest) ∧
      rest.size = 0 := by
  obtain ⟨hk, b1, b2, b3, b4, _, _, _⟩ := mergeSteps_state h0 hv ho (h0.size - 1) (by omega)
  have hk1 : hk.size = 1 := by omega
  obtain ⟨root, rest, c1, _, c3, _⟩ := extractMin_spec hk b2 (by omega)
  have hloop : mergeLoop (h0.size + 1) h0 = some hk := by
    rw [mergeLoop_eq_mergeSteps (h0.size - 1) h0 hv ho (by omega) (h0.size + 1) (by omega)]
    exact b1
  have hone : isSizeOne hk = true := by simp [isSizeOne, hk1]
  have hrest : rest.size = 0 := by omega
  exact ⟨hk, root, rest, b1, hone, hloop, c1, hrest⟩

theorem followPath_null : ∀ c : List Bool, followPath HuffmanNode.null c = HuffmanNode.null := by
  intro c
  cases c <;> rfl

theorem nodeInvariant_followPath : ∀ (c : List Bool) (t : HuffmanNode), NodeInvariant t →
    followPath t c = HuffmanNode.null ∨ NodeInvariant (followPath t c) := by
  intro c
  induction c with
  | nil =>
    intro t h
    right
    cases t <;> exact h
  | cons b c ih =>
    intro t h
    cases t with
    | null => exact Or.inl rfl
    | node d f l r =>
      simp only [followPath]
      simp only [NodeInvariant] at h
      rcases h with ⟨h1, h2⟩ | ⟨_, _, _, _, _, _, hl, hr⟩
      · subst h1; subst h2
        left
        cases b <;> exact followPath_null c
      · cases b
        · exact ih l hl
        · exact ih r hr

/-- With non-negative frequencies below the overflow bound, a symbol with a larger
frequency does not lie deeper in the tree than one with a smaller frequency. -/
theorem heavier_leaf_not_deeper (frequencies : List (Byte × Int)) (hne : frequencies ≠ [])
    (hnn : ∀ pair ∈ frequencies, 0 ≤ pair.2)
    (hsum : (frequencies.map Prod.snd).sum < 2147483648) :
    ∃ root, buildHuffmanTree frequencies = some root ∧
      (leafPairs root).Perm frequencies ∧
      ∀ ex ∈ leafPaths root, ∀ ey ∈ leafPaths root, ey.2.1 < ex.2.1 →
        ex.2.2.length ≤ ey.2.2.length := by
  obtain ⟨root, e1, e2, _, e4, e5⟩ := buildHuffmanTree_optimal frequencies hne hnn hsum
  refine ⟨root, e1, e4, ?_⟩
  intro ex hex ey hey hlt
  by_contra hdeep
  have hdeep2 : ey.2.2.length < ex.2.2.length := by omega
  obtain ⟨L1, h1⟩ := exists_perm_cons_of_mem (leafPaths root) ex hex
  have hne2 : ey ≠ ex := by
    intro e; rw [e] at hlt; exact lt_irrefl _ hlt
  have hey1 : ey ∈ L1 := by
    rcases List.mem_cons.1 (h1.subset hey) with h | h
    · exact absurd h hne2
    · exact h
  obtain ⟨L2, h2⟩ := exists_perm_cons_of_mem L1 ey hey1
  have h3 : (leafPaths root).Perm (ex :: ey :: L2) := h1.trans (List.Perm.cons ex h2)
  have hprof : (depthProfile root 0).Perm
      ((ex.2.1, 0 + ex.2.2.length) :: (ey.2.1, 0 + ey.2.2.length) ::
        L2.map (fun e => (e.2.1, 0 + e.2.2.length))) := by
    rw [leafPaths_profile]
    exact h3.map _
  have hk := kraftOK_proper root (nodeInvariant_proper root e2)
  have hk2 : KraftOK ((ex.2.1, 0 + ey.2.2.length) :: (ey.2.1, 0 + ex.2.2.length) ::
        L2.map (fun e => (e.2.1, 0 + e.2.2.length))) := by
    refine kraftOK_of_depths_perm _ _ ?_ hk
    refine (hprof.map Prod.snd).trans ?_
    simp only [List.map_cons]
    exact List.Perm.swap _ _ _
  have hw : (((ex.2.1, 0 + ey.2.2.length) :: (ey.2.1, 0 + ex.2.2.length) ::
        L2.map (fun e => (e.2.1, 0 + e.2.2.length))).map Prod.fst).Perm
      (frequencies.map Prod.snd) := by
    have hw1 := (hprof.map Prod.fst).symm
    simp only [List.map_cons] at hw1 ⊢
    refine hw1.trans ?_
    rw [depthProfile_weights]
    exact e4.map _
  have hopt := e5 _ hk2 hw
  have hcost : treeCost root = profileCost ((ex.2.1, 0 + ex.2.2.length) ::
      (ey.2.1, 0 + ey.2.2.length) :: L2.map (fun e => (e.2.1, 0 + e.2.2.length))) :=
    profileCost_perm _ _ hprof
  rw [hcost] at hopt
  simp only [profileCost, List.map_cons, List.sum_cons, zero_add] at hopt
  have hpos : 0 < (ex.2.1 - ey.2.1) * ((ex.2.2.length : Int) - (ey.2.2.length : Int)) := by
    apply mul_pos
    · omega
    · omega
  nlinarith

/-! ## Claims C11 to C20 -/

/-- C12: on a heap of size `n >= 1` whose first `n` slots are in min-heap order,
`extractMin` returns a node whose frequency is at most the frequency of every node in
the heap, sets the size to `n - 1`, and the contents afterwards are the contents before
with that one node removed, as a multiset. -/
theorem C12_extractMin_returns_a_minimum (h : MinHeap) (hv : h.Valid) (ho : h.HeapOrder)
    (hs : 1 ≤ h.size) :
    ∃ temp h2 ft, extractMin h = some (temp, h2) ∧ frequencyOf temp = some ft ∧
      (∀ p ∈ h.contents, ∃ fp, frequencyOf p = some fp ∧ ft ≤ fp) ∧
      h2.size = h.size - 1 ∧ (temp :: h2.contents).Perm h.contents := by
  obtain ⟨temp, h2, e1, _, e3, _, _, e6, _, _, ft, e9, e10⟩ :=
    extractMin_ordered h hv (ordered_of_heapOrder h ho) hs
  exact ⟨temp, h2, ft, e1, e9, e10, e3, e6⟩

theorem C12_extractMin_returns_a_minimum_witness :
    (MinHeap.mk 3 3 [newNode 97 1, newNode 98 3, newNode 99 2]).Valid ∧
    (MinHeap.mk 3 3 [newNode 97 1, newNode 98 3, newNode 99 2]).HeapOrder ∧
    ∃ temp h2 ft,
      extractMin (MinHeap.mk 3 3 [newNode 97 1, newNode 98 3, newNode 99 2])
        = some (temp, h2) ∧ frequencyOf temp = some ft ∧
      (∀ p ∈ (MinHeap.mk 3 3 [newNode 97 1, newNode 98 3, newNode 99 2]).contents,
        ∃ fp, frequencyOf p = some fp ∧ ft ≤ fp) ∧
      h2.size = 3 - 1 ∧
      (temp :: h2.contents).Perm
        (MinHeap.mk 3 3 [newNode 97 1, newNode 98 3, newNode 99 2]).contents :=
  have hv : (MinHeap.mk 3 3 [newNode 97 1, newNode 98 3, newNode 99 2]).Valid :=
    ⟨by decide, by decide⟩
  have ho : (MinHeap.mk 3 3 [newNode 97 1, newNode 98 3, newNode 99 2]).HeapOrder := by
    intro i h0 h3
    have h3b : i < 3 := h3
    interval_cases i
    · exact ⟨1, 3, rfl, rfl, by decide⟩
    · exact ⟨1, 2, rfl, rfl, by decide⟩
  ⟨hv, ho, C12_extractMin_returns_a_minimum _ hv ho (by decide)⟩

/-- C13 (as stated, refuted): `extractMin` has no test for the empty heap and no way to
signal a failure.  On `createMinHeap(0)` and on `createMinHeap(1)`, both of size 0, it
reads `array[size - 1]` with `size - 1 = -1` and lowers `size`, so it has no defined
result; `decompressFile` makes this call on a file whose header stores zero entries. -/
theorem C13_counterexample :
    extractMin (createMinHeap 0) = none ∧ extractMin (createMinHeap 1) = none ∧
    decompressFile insertionOrder [0, 0, 0, 0] = Outcome.undefined := by
  refine ⟨by decide, by decide, by decide⟩

/-- C13 (amended): `extractMin` signals nothing.  On every heap of size 0 it has no
defined result, and on every heap of size at least 1 whose live slots hold nodes it
returns a node and lowers the size by one. -/
theorem C13_extractMin_requires_a_nonempty_heap (h : MinHeap) :
    (h.size = 0 → extractMin h = none) ∧
    (h.Valid → 1 ≤ h.size →
      ∃ temp h2, extractMin h = some (temp, h2) ∧ h2.size = h.size - 1) := by
  refine ⟨extractMin_of_size_zero h, ?_⟩
  intro hv hs
  obtain ⟨temp, h2, e1, _, e3, _⟩ := extractMin_spec h hv hs
  exact ⟨temp, h2, e1, e3⟩

theorem C13_extractMin_requires_a_nonempty_heap_witness :
    (createMinHeap 2).size = 0 ∧ extractMin (createMinHeap 2) = none ∧
    (MinHeap.mk 2 2 [newNode 97 1, newNode 98 3]).Valid ∧
    ∃ temp h2, extractMin (MinHeap.mk 2 2 [newNode 97 1, newNode 98 3]) = some (temp, h2) ∧
      h2.size = 2 - 1 :=
  have hv : (MinHeap.mk 2 2 [newNode 97 1, newNode 98 3]).Valid := ⟨by decide, by decide⟩
  ⟨rfl, (C13_extractMin_requires_a_nonempty_heap (createMinHeap 2)).1 rfl, hv,
    (C13_extractMin_requires_a_nonempty_heap (MinHeap.mk 2 2 [newNode 97 1, newNode 98 3])).2
      hv (by decide)⟩

/-- C14 (as stated, refuted): in the table 0:1, 1:2^30, 2:2^30, 3:2^30, 4:2^30 the sums
formed in `buildHuffmanTree` leave the range of `int`; symbol 3 has the larger frequency
(`2^30 > 1`) and the longer code (3 bits against 2 for symbol 0). -/
theorem C14_counterexample :
    ∃ root, buildHuffmanTree
        [(0, 1), (1, 1073741824), (2, 1073741824), (3, 1073741824), (4, 1073741824)]
        = some root ∧
      codesOf root 3 = some [false, false, false] ∧ codesOf root 0 = some [true, false] :=
  ⟨HuffmanNode.node 0 1
    (HuffmanNode.node 0 (-1073741824)
      (HuffmanNode.node 0 (-2147483648) (newNode 3 1073741824) (newNode 1 1073741824))
      (newNode 2 1073741824))
    (HuffmanNode.node 0 1073741825 (newNode 0 1) (newNode 4 1073741824)),
    by decide, by decide, by decide⟩

/-- C14 (amended): for every table of distinct symbols with non-negative frequencies
whose sum is below `2^31`, and every two entries `x`, `y` of it with
`frequency(x) > frequency(y)`, the code generated for `x` is no longer than the code
generated for `y`. -/
theorem C14_code_length_monotone_in_frequency (frequencies : List (Byte × Int))
    (hnd : (frequencies.map Prod.fst).Nodup) (hnn : ∀ pair ∈ frequencies, 0 ≤ pair.2)
    (hsum : (frequencies.map Prod.snd).sum < 2147483648)
    (x y : Byte) (fx fy : Int) (hx : (x, fx) ∈ frequencies) (hy : (y, fy) ∈ frequencies)
    (hlt : fy < fx) :
    ∃ root cx cy, buildHuffmanTree frequencies = some root ∧
      generateCodes root [] (fun _ => none) x = some cx ∧
      generateCodes root [] (fun _ => none) y = some cy ∧ cx.length ≤ cy.length := by
  have hne : frequencies ≠ [] := List.ne_nil_of_mem hx
  obtain ⟨root, e1, e2, e3⟩ := heavier_leaf_not_deeper frequencies hne hnn hsum
  have hnd2 : ((leafPairs root).map Prod.fst).Nodup := (e2.map Prod.fst).nodup_iff.2 hnd
  obtain ⟨p1, _⟩ := codesOf_leafPaths root hnd2
  have hx2 : (x, fx) ∈ (leafPaths root).map (fun e => (e.1, e.2.1)) := by
    rw [leafPaths_pairs]; exact e2.symm.subset hx
  have hy2 : (y, fy) ∈ (leafPaths root).map (fun e => (e.1, e.2.1)) := by
    rw [leafPaths_pairs]; exact e2.symm.subset hy
  obtain ⟨ex, hex, hexeq⟩ := List.mem_map.1 hx2
  obtain ⟨ey, hey, heyeq⟩ := List.mem_map.1 hy2
  simp only [Prod.mk.injEq] at hexeq heyeq
  obtain ⟨hx3, hx4⟩ := hexeq
  obtain ⟨hy3, hy4⟩ := heyeq
  refine ⟨root, ex.2.2, ey.2.2, e1, ?_, ?_, ?_⟩
  · rw [← hx3]; exact p1 ex hex
  · rw [← hy3]; exact p1 ey hey
  · exact e3 ex hex ey hey (by rw [hx4, hy4]; exact hlt)

theorem C14_code_length_monotone_in_frequency_witness :
    ((countFrequencies [97, 97, 97, 98, 98, 99]).map Prod.fst).Nodup ∧
    (∀ pair ∈ countFrequencies [97, 97, 97, 98, 98, 99], 0 ≤ pair.2) ∧
    ((countFrequencies [97, 97, 97, 98, 98, 99]).map Prod.snd).sum < 2147483648 ∧
    (97, 3) ∈ countFrequencies [97, 97, 97, 98, 98, 99] ∧
    (98, 2) ∈ countFrequencies [97, 97, 97, 98, 98, 99] ∧ (2 : Int) < 3 ∧
    ∃ root cx cy, buildHuffmanTree (countFrequencies [97, 97, 97, 98, 98, 99]) = some root ∧
      generateCodes root [] (fun _ => none) 97 = some cx ∧
      generateCodes root [] (fun _ => none) 98 = some cy ∧ cx.length ≤ cy.length :=
  ⟨by decide, by decide, by decide, by decide, by decide, by decide,
    C14_code_length_monotone_in_frequency _ (by decide) (by decide) (by decide) 97 98 3 2
      (by decide) (by decide) (by decide)⟩

/-- C15 (as stated, refuted): for the table 0:2^30, 1:2^30, 2:2^30, 3:2^30 the sums
formed in `buildHuffmanTree` leave the range of `int` and the tree returned is a chain
with code lengths 3, 1, 2, 3: its weighted code length `9 * 2^30` exceeds the
`8 * 2^30` of the balanced tree over the same leaves. -/
theorem C15_counterexample :
    ∃ root, buildHuffmanTree
        [(0, 1073741824), (1, 1073741824), (2, 1073741824), (3, 1073741824)] = some root ∧
      weightedLength (codesOf root)
        [(0, 1073741824), (1, 1073741824), (2, 1073741824), (3, 1073741824)]
        = 9663676416 ∧
      leafPairs (HuffmanNode.node 0 0
          (HuffmanNode.node 0 0 (newNode 0 1073741824) (newNode 1 1073741824))
          (HuffmanNode.node 0 0 (newNode 2 1073741824) (newNode 3 1073741824)))
        = [(0, 1073741824), (1, 1073741824), (2, 1073741824), (3, 1073741824)] ∧
      weightedLength (codesOf (HuffmanNode.node 0 0
          (HuffmanNode.node 0 0 (newNode 0 1073741824) (newNode 1 1073741824))
          (HuffmanNode.node 0 0 (newNode 2 1073741824) (newNode 3 1073741824))))
        [(0, 1073741824), (1, 1073741824), (2, 1073741824), (3, 1073741824)]
        = 8589934592 :=
  ⟨HuffmanNode.node 0 0
    (HuffmanNode.node 0 (-1073741824)
      (HuffmanNode.node 0 (-2147483648) (newNode 0 1073741824) (newNode 3 1073741824))
      (newNode 2 1073741824))
    (newNode 1 1073741824),
    by decide, by decide, by decide, by decide⟩

/-- C15 (amended): for every table with at least two entries, distinct symbols and
non-negative frequencies whose sum is below `2^31`, the sum over the table of frequency
times code length for the codes of the tree returned by `buildHuffmanTree` is at most
the same sum for the codes of every binary tree whose leaves hold exactly the table's
entries. -/
theorem C15_tree_minimises_weighted_code_length (frequencies : List (Byte × Int))
    (h2 : 2 ≤ frequencies.length) (hnd : (frequencies.map Prod.fst).Nodup)
    (hnn : ∀ pair ∈ frequencies, 0 ≤ pair.2)
    (hsum : (frequencies.map Prod.snd).sum < 2147483648) :
    ∃ root, buildHuffmanTree frequencies = some root ∧
      (leafPairs root).Perm frequencies ∧
      ∀ other : HuffmanNode, (leafPairs other).Perm frequencies →
        weightedLength (generateCodes root [] (fun _ => none)) frequencies
          ≤ weightedLength (generateCodes other [] (fun _ => none)) frequencies := by
  have hne : frequencies ≠ [] := by
    intro h; rw [h] at h2; simp at h2
  obtain ⟨root, e1, _, e3, e4⟩ := buildHuffmanTree_least frequencies hne hnn hsum
  refine ⟨root, e1, e3, ?_⟩
  intro other ho
  have hc : ∀ t, generateCodes t [] (fun _ => none) = codesOf t := fun _ => rfl
  rw [hc, hc]
  have hnd1 : ((leafPairs root).map Prod.fst).Nodup := (e3.map Prod.fst).nodup_iff.2 hnd
  have hnd2 : ((leafPairs other).map Prod.fst).Nodup := (ho.map Prod.fst).nodup_iff.2 hnd
  have c1 := treeCost_eq_weightedLength root hnd1
  have c2 := treeCost_eq_weightedLength other hnd2
  rw [weightedLength_perm _ _ _ e3] at c1
  rw [weightedLength_perm _ _ _ ho] at c2
  rw [← c1, ← c2]
  exact e4 other ho

theorem C15_tree_minimises_weighted_code_length_witness :
    2 ≤ ([(97, 3), (98, 2), (99, 1)] : List (Byte × Int)).length ∧
    (([(97, 3), (98, 2), (99, 1)] : List (Byte × Int)).map Prod.fst).Nodup ∧
    (∀ pair ∈ ([(97, 3), (98, 2), (99, 1)] : List (Byte × Int)), 0 ≤ pair.2) ∧
    (([(97, 3), (98, 2), (99, 1)] : List (Byte × Int)).map Prod.snd).sum < 2147483648 ∧
    ∃ root, buildHuffmanTree [(97, 3), (98, 2), (99, 1)] = some root ∧
      (leafPairs root).Perm [(97, 3), (98, 2), (99, 1)] ∧
      ∀ other : HuffmanNode, (leafPairs other).Perm [(97, 3), (98, 2), (99, 1)] →
        weightedLength (generateCodes root [] (fun _ => none)) [(97, 3), (98, 2), (99, 1)]
          ≤ weightedLength (generateCodes other [] (fun _ => none))
            [(97, 3), (98, 2), (99, 1)] :=
  ⟨by decide, by decide, by decide, by decide,
    C15_tree_minimises_weighted_code_length _ (by decide) (by decide) (by decide)
      (by decide)⟩

/-- C16: for a table with `k >= 1` entries the tree returned by `buildHuffmanTree` has
the table's entries at its leaves, each once, so `k` leaves; it has `k - 1` nodes with
children; and when `k = 1` the root is the leaf of the single entry. -/
theorem C16_leaves_are_the_table_entries (frequencies : List (Byte × Int))
    (hne : frequencies ≠ []) :
    ∃ root, buildHuffmanTree frequencies = some root ∧
      (leafPairs root).Perm frequencies ∧
      (leafPairs root).length = frequencies.length ∧
      internalCount root = frequencies.length - 1 ∧
      (∀ s f, frequencies = [(s, f)] → root = newNode s f) := by
  obtain ⟨root, e1, e2, e3⟩ := buildHuffmanTree_proper frequencies hne
  have hlen := e3.length_eq
  have hc := proper_internalCount root e2
  refine ⟨root, e1, e3, hlen, by omega, ?_⟩
  intro s f hs
  subst hs
  rw [buildHuffmanTree_singleton] at e1
  exact (Option.some.inj e1).symm

theorem C16_leaves_are_the_table_entries_witness :
    ([(97, 3), (98, 2), (99, 1)] : List (Byte × Int)) ≠ [] ∧
    ∃ root, buildHuffmanTree [(97, 3), (98, 2), (99, 1)] = some root ∧
      (leafPairs root).Perm [(97, 3), (98, 2), (99, 1)] ∧
      (leafPairs root).length = ([(97, 3), (98, 2), (99, 1)] : List (Byte × Int)).length ∧
      internalCount root = ([(97, 3), (98, 2), (99, 1)] : List (Byte × Int)).length - 1 ∧
      (∀ s f, ([(97, 3), (98, 2), (99, 1)] : List (Byte × Int)) = [(s, f)] →
        root = newNode s f) :=
  ⟨by simp, C16_leaves_are_the_table_entries _ (by simp)⟩

/-- C17 (as stated, refuted): the table a:`-2^31`, b:`-1`, which the header loop reads
from the 14-byte file `02 00 00 00 61 00 00 00 80 62 FF FF FF FF`, sums to `-2^31 - 1`,
below `2^31`; the sum formed for the root leaves the range of `int`, and the root's
frequency `2^31 - 1` is neither the sum of its two children's frequencies nor the sum
of the table's frequencies. -/
theorem C17_counterexample :
    readFrequencies [2, 0, 0, 0, 97, 0, 0, 0, 128, 98, 255, 255, 255, 255]
      = some ([(97, -2147483648), (98, -1)], -2147483649, []) ∧
    (([(97, -2147483648), (98, -1)] : List (Byte × Int)).map Prod.snd).sum < 2147483648 ∧
    buildHuffmanTree [(97, -2147483648), (98, -1)]
      = some (HuffmanNode.node 0 2147483647 (newNode 97 (-2147483648)) (newNode 98 (-1))) ∧
    (2147483647 : Int) ≠ -2147483648 + -1 ∧
    frequencyOf (HuffmanNode.node 0 2147483647 (newNode 97 (-2147483648)) (newNode 98 (-1)))
      ≠ some (([(97, -2147483648), (98, -1)] : List (Byte × Int)).map Prod.snd).sum := by
  refine ⟨by decide, by decide, by decide, by decide, by decide⟩

/-- C17 (amended): for a non-empty table of non-negative frequencies whose sum is
below `2^31`, every node of the tree returned by `buildHuffmanTree` that has a child has
a left and a right child, its frequency is the sum of theirs, and the left child's
frequency is at most the right child's; the root's frequency is the sum of the table's
frequencies; and one decoding step from a node that has a child is defined for both bit
values. -/
theorem C17_internal_node_invariant (frequencies : List (Byte × Int))
    (hne : frequencies ≠ []) (hnn : ∀ pair ∈ frequencies, 0 ≤ pair.2)
    (hsum : (frequencies.map Prod.snd).sum < 2147483648) :
    ∃ root, buildHuffmanTree frequencies = some root ∧
      (∀ c d f l r, followPath root c = HuffmanNode.node d f l r →
        ¬(l = HuffmanNode.null ∧ r = HuffmanNode.null) →
        ∃ fl fr, frequencyOf l = some fl ∧ frequencyOf r = some fr ∧
          f = fl + fr ∧ fl ≤ fr) ∧
      frequencyOf root = some (frequencies.map Prod.snd).sum ∧
      (∀ c d f l r, followPath root c = HuffmanNode.node d f l r →
        ¬(l = HuffmanNode.null ∧ r = HuffmanNode.null) →
        ∀ (st : DecodeState) (bit : Bool), st.currentNode = HuffmanNode.node d f l r →
          ∃ st2, decodeStep root st bit = some st2) := by
  obtain ⟨root, e1, e2, e3, _, _⟩ := buildHuffmanTree_optimal frequencies hne hnn hsum
  have key : ∀ c d f l r, followPath root c = HuffmanNode.node d f l r →
      ¬(l = HuffmanNode.null ∧ r = HuffmanNode.null) →
      ∃ fl fr, frequencyOf l = some fl ∧ frequencyOf r = some fr ∧
        f = fl + fr ∧ fl ≤ fr := by
    intro c d f l r hc hn
    rcases nodeInvariant_followPath c root e2 with h | h
    · rw [hc] at h; cases h
    · rw [hc] at h
      simp only [NodeInvariant] at h
      rcases h with h | ⟨fl, fr, h1, h2, h3, h4, _, _⟩
      · exact absurd h hn
      · exact ⟨fl, fr, h1, h2, h3, h4⟩
  refine ⟨root, e1, key, e3, ?_⟩
  intro c d f l r hc hn st bit hst
  obtain ⟨fl, fr, h1, h2, _, _⟩ := key c d f l r hc hn
  cases l with
  | null => cases h1
  | node dl fl2 ll lr =>
    cases r with
    | null => cases h2
    | node dr fr2 rl rr =>
      cases bit
      · by_cases hleaf : ll = HuffmanNode.null ∧ lr = HuffmanNode.null
        · simp [decodeStep, hst, hleaf]
        · simp [decodeStep, hst, hleaf]
      · by_cases hleaf : rl = HuffmanNode.null ∧ rr = HuffmanNode.null
        · simp [decodeStep, hst, hleaf]
        · simp [decodeStep, hst, hleaf]

theorem C17_internal_node_invariant_witness :
    ([(97, 3), (98, 2), (99, 1)] : List (Byte × Int)) ≠ [] ∧
    (∀ pair ∈ ([(97, 3), (98, 2), (99, 1)] : List (Byte × Int)), 0 ≤ pair.2) ∧
    (([(97, 3), (98, 2), (99, 1)] : List (Byte × Int)).map Prod.snd).sum < 2147483648 ∧
    ∃ root, buildHuffmanTree [(97, 3), (98, 2), (99, 1)] = some root ∧
      (∀ c d f l r, followPath root c = HuffmanNode.node d f l r →
        ¬(l = HuffmanNode.null ∧ r = HuffmanNode.null) →
        ∃ fl fr, frequencyOf l = some fl ∧ frequencyOf r = some fr ∧
          f = fl + fr ∧ fl ≤ fr) ∧
      frequencyOf root
        = some (([(97, 3), (98, 2), (99, 1)] : List (Byte × Int)).map Prod.snd).sum ∧
      (∀ c d f l r, followPath root c = HuffmanNode.node d f l r →
        ¬(l = HuffmanNode.null ∧ r = HuffmanNode.null) →
        ∀ (st : DecodeState) (bit : Bool), st.currentNode = HuffmanNode.node d f l r →
          ∃ st2, decodeStep root st bit = some st2) :=
  ⟨by simp, by decide, by decide,
    C17_internal_node_invariant _ (by simp) (by decide) (by decide)⟩

/-- C18: for a non-empty table of distinct symbols, the table that
`generateCodes(root, "", huffmanCodes)` fills for the tree returned by
`buildHuffmanTree` has an entry exactly for the table's symbols (as many entries as the
table has), each symbol's code is the sequence of edges from the root to the leaf
holding it (`false` for a left step, `true` for a right step), and for a single-entry
table it is the map with the one entry: symbol to the empty code. -/
theorem C18_code_table_is_the_root_to_leaf_paths (frequencies : List (Byte × Int))
    (hne : frequencies ≠ []) (hnd : (frequencies.map Prod.fst).Nodup) :
    ∃ root, buildHuffmanTree frequencies = some root ∧
      (∀ x, (∃ c, generateCodes root [] (fun _ => none) x = some c) ↔
        x ∈ frequencies.map Prod.fst) ∧
      (Finset.univ.filter
        (fun x => (generateCodes root [] (fun _ => none) x).isSome = true)).card
        = frequencies.length ∧
      (∀ x c, generateCodes root [] (fun _ => none) x = some c ↔ PathTo root x c) ∧
      (∀ x c, generateCodes root [] (fun _ => none) x = some c →
        ∃ f, (x, f) ∈ frequencies ∧ followPath root c = newNode x f) ∧
      (∀ s f, frequencies = [(s, f)] →
        generateCodes root [] (fun _ => none)
          = Function.update (fun _ => none) s (some [])) := by
  obtain ⟨root, e1, _, e3⟩ := buildHuffmanTree_proper frequencies hne
  have hkeys : ((leafPairs root).map Prod.fst).Perm (frequencies.map Prod.fst) := e3.map _
  have hnd2 : ((leafPairs root).map Prod.fst).Nodup := hkeys.nodup_iff.2 hnd
  obtain ⟨p1, p2⟩ := codesOf_leafPaths root hnd2
  have hc : generateCodes root [] (fun _ => none) = codesOf root := rfl
  have hentries : ∀ x, (∃ c, codesOf root x = some c) ↔ x ∈ frequencies.map Prod.fst := by
    intro x
    constructor
    · rintro ⟨c, hx⟩
      by_contra hnot
      have : x ∉ (leafPairs root).map Prod.fst := fun h => hnot (hkeys.subset h)
      rw [p2 x this] at hx
      cases hx
    · intro hx
      have hx2 : x ∈ (leafPaths root).map (fun e => e.1) := by
        rw [leafPaths_keys]
        exact hkeys.symm.subset hx
      obtain ⟨e, he, rfl⟩ := List.mem_map.1 hx2
      exact ⟨e.2.2, p1 e he⟩
  refine ⟨root, e1, ?_⟩
  rw [hc]
  refine ⟨hentries, ?_, ?_, ?_, ?_⟩
  · have hset : Finset.univ.filter (fun x => (codesOf root x).isSome = true)
        = (frequencies.map Prod.fst).toFinset := by
      ext x
      simp only [Finset.mem_filter, Finset.mem_univ, true_and, List.mem_toFinset]
      rw [← hentries x, Option.isSome_iff_exists]
    rw [hset, List.toFinset_card_of_nodup hnd, List.length_map]
  · intro x c
    exact codesOf_iff_pathTo root hnd2 x c
  · intro x c hx
    obtain ⟨f, hf⟩ := (pathTo_iff_leafPaths _ _ _).1 ((codesOf_iff_pathTo root hnd2 x c).1 hx)
    refine ⟨f, ?_, followPath_leafPaths root _ hf⟩
    apply e3.subset
    rw [← leafPaths_pairs]
    exact List.mem_map.2 ⟨_, hf, rfl⟩
  · intro s f hs
    subst hs
    rw [buildHuffmanTree_singleton] at e1
    cases e1
    rfl

theorem C18_code_table_is_the_root_to_leaf_paths_witness :
    ([(97, 3), (98, 2), (99, 1)] : List (Byte × Int)) ≠ [] ∧
    (([(97, 3), (98, 2), (99, 1)] : List (Byte × Int)).map Prod.fst).Nodup ∧
    ∃ root, buildHuffmanTree [(97, 3), (98, 2), (99, 1)] = some root ∧
      (∀ x, (∃ c, generateCodes root [] (fun _ => none) x = some c) ↔
        x ∈ ([(97, 3), (98, 2), (99, 1)] : List (Byte × Int)).map Prod.fst) ∧
      (Finset.univ.filter
        (fun x => (generateCodes root [] (fun _ => none) x).isSome = true)).card
        = ([(97, 3), (98, 2), (99, 1)] : List (Byte × Int)).length ∧
      (∀ x c, generateCodes root [] (fun _ => none) x = some c ↔ PathTo root x c) ∧
      (∀ x c, generateCodes root [] (fun _ => none) x = some c →
        ∃ f, (x, f) ∈ ([(97, 3), (98, 2), (99, 1)] : List (Byte × Int)) ∧
          followPath root c = newNode x f) ∧
      (∀ s f, ([(97, 3), (98, 2), (99, 1)] : List (Byte × Int)) = [(s, f)] →
        generateCodes root [] (fun _ => none)
          = Function.update (fun _ => none) s (some [])) :=
  ⟨by simp, by decide, C18_code_table_is_the_root_to_leaf_paths _ (by simp) (by decide)⟩

/-- C19: `buildMinHeap` puts the live slots in min-heap order
(`array[(i-1)/2]->frequency <= array[i]->frequency` for `0 < i < size`) and keeps the
multiset of nodes; on a heap in that order `insertMinHeap` with `size < capacity` keeps
the order and adds exactly the given node, and `extractMin` with `size >= 1` keeps the
order and removes exactly the node it returns. -/
theorem C19_min_heap_order_is_invariant (h : MinHeap) (nd : HuffmanNode) (hv : h.Valid) :
    (∃ h2, buildMinHeap h = some h2 ∧ h2.HeapOrder ∧ h2.size = h.size ∧
      h2.contents.Perm h.contents) ∧
    (h.HeapOrder → h.size < h.capacity → h.capacity ≤ h.array.length →
      nd ≠ HuffmanNode.null →
      ∃ h2, insertMinHeap h nd = some h2 ∧ h2.HeapOrder ∧ h2.size = h.size + 1 ∧
        h2.contents.Perm (nd :: h.contents)) ∧
    (h.HeapOrder → 1 ≤ h.size →
      ∃ temp h2, extractMin h = some (temp, h2) ∧ h2.HeapOrder ∧ h2.size = h.size - 1 ∧
        (temp :: h2.contents).Perm h.contents) := by
  refine ⟨?_, ?_, ?_⟩
  · obtain ⟨h2, e1, e2, _, e4, e5, e6⟩ := buildMinHeap_ordered h hv
    exact ⟨h2, e1, heapOrder_of_ordered h2 (valid_of_perm h h2 hv e2 e4 e5) e6, e2, e5⟩
  · intro ho hs hcap hnd
    obtain ⟨h2, e1, e2, _, _, e5, e6, e7⟩ :=
      insertMinHeap_ordered h nd hv (ordered_of_heapOrder h ho) (by omega) hnd
    exact ⟨h2, e1, heapOrder_of_ordered h2 e6 e7, e2, e5⟩
  · intro ho hs
    obtain ⟨temp, h2, e1, _, e3, _, _, e6, e7, e8, _⟩ :=
      extractMin_ordered h hv (ordered_of_heapOrder h ho) hs
    exact ⟨temp, h2, e1, heapOrder_of_ordered h2 e7 e8, e3, e6⟩

theorem C19_min_heap_order_is_invariant_witness :
    (MinHeap.mk 3 4 [newNode 97 1, newNode 98 3, newNode 99 2, HuffmanNode.null]).Valid ∧
    (MinHeap.mk 3 4 [newNode 97 1, newNode 98 3, newNode 99 2, HuffmanNode.null]).HeapOrder ∧
    (∃ h2, buildMinHeap
        (MinHeap.mk 3 4 [newNode 97 1, newNode 98 3, newNode 99 2, HuffmanNode.null])
        = some h2 ∧ h2.HeapOrder ∧ h2.size = 3 ∧
      h2.contents.Perm
        (MinHeap.mk 3 4 [newNode 97 1, newNode 98 3, newNode 99 2, HuffmanNode.null]).contents) ∧
    (∃ h2, insertMinHeap
        (MinHeap.mk 3 4 [newNode 97 1, newNode 98 3, newNode 99 2, HuffmanNode.null])
        (newNode 100 0) = some h2 ∧ h2.HeapOrder ∧ h2.size = 3 + 1 ∧
      h2.contents.Perm (newNode 100 0 ::
        (MinHeap.mk 3 4 [newNode 97 1, newNode 98 3, newNode 99 2, HuffmanNode.null]).contents)) ∧
    (∃ temp h2, extractMin
        (MinHeap.mk 3 4 [newNode 97 1, newNode 98 3, newNode 99 2, HuffmanNode.null])
        = some (temp, h2) ∧ h2.HeapOrder ∧ h2.size = 3 - 1 ∧
      (temp :: h2.contents).Perm
        (MinHeap.mk 3 4 [newNode 97 1, newNode 98 3, newNode 99 2, HuffmanNode.null]).contents) :=
  have hv : (MinHeap.mk 3 4
      [newNode 97 1, newNode 98 3, newNode 99 2, HuffmanNode.null]).Valid :=
    ⟨by decide, by decide⟩
  have ho : (MinHeap.mk 3 4
      [newNode 97 1, newNode 98 3, newNode 99 2, HuffmanNode.null]).HeapOrder := by
    intro i h0 h3
    have h3b : i < 3 := h3
    interval_cases i
    · exact ⟨1, 3, rfl, rfl, by decide⟩
    · exact ⟨1, 2, rfl, rfl, by decide⟩
  ⟨hv, ho, (C19_min_heap_order_is_invariant _ (newNode 100 0) hv).1,
    (C19_min_heap_order_is_invariant _ (newNode 100 0) hv).2.1 ho (by decide) (by decide)
      (by decide),
    (C19_min_heap_order_is_invariant _ (newNode 100 0) hv).2.2 ho (by decide)⟩

/-- C20: for a table with `k >= 1` entries `buildHuffmanTree` returns a tree after
exactly `k - 1` runs of its loop body: the heap starts with `size = capacity = k`; after
`i < k - 1` runs the loop test still holds, both `extractMin` calls of the next run are
made on a heap of size at least 1 and its `insertMinHeap` call with
`size < capacity = k`, all three inside the allocation; after `k - 1` runs the size is
one, the loop ends and the last `extractMin` returns the root. -/
theorem C20_tree_building_terminates_safely (frequencies : List (Byte × Int))
    (hne : frequencies ≠ []) :
    ∃ h0 hk root rest,
      createAndBuildMinHeap frequencies = some h0 ∧
      h0.size = frequencies.length ∧ h0.capacity = frequencies.length ∧
      h0.array.length = frequencies.length ∧
      (∀ i, i + 1 < frequencies.length →
        ∃ hi left h1 right h2 lf rf h3,
          mergeSteps i h0 = some hi ∧ isSizeOne hi = false ∧
          1 ≤ hi.size ∧ extractMin hi = some (left, h1) ∧
          1 ≤ h1.size ∧ extractMin h1 = some (right, h2) ∧
          frequencyOf left = some lf ∧ frequencyOf right = some rf ∧
          h2.size < h2.capacity ∧ h2.capacity = frequencies.length ∧
          h2.array.length = frequencies.length ∧
          insertMinHeap h2 (HuffmanNode.node 0 (wrapInt32 (lf + rf)) left right) = some h3 ∧
          mergeSteps (i + 1) h0 = some h3) ∧
      mergeSteps (frequencies.length - 1) h0 = some hk ∧ isSizeOne hk = true ∧
      mergeLoop (h0.size + 1) h0 = some hk ∧
      extractMin hk = some (root, rest) ∧ rest.size = 0 ∧
      buildHuffmanTree frequencies = some root := by
  obtain ⟨h0, a1, a2, a3, a4, a5, a6, _⟩ := createAndBuildMinHeap_ordered frequencies
  have hpos : 1 ≤ frequencies.length := List.length_pos.2 hne
  obtain ⟨hk, root, rest, b1, b2, b3, b4, b5⟩ := mergeLoop_end h0 a2 a3 (by omega)
  rw [a4] at b1
  have hbuild : buildHuffmanTree frequencies = some root := by
    simp only [buildHuffmanTree, a1, b3, b4]
  exact ⟨h0, hk, root, rest, a1, a4, a5, a6,
    fun i hi => mergeBody_safe h0 a2 a3 frequencies.length a4 a5 a6 i hi,
    b1, b2, b3, b4, b5, hbuild⟩

theorem C20_tree_building_terminates_safely_witness :
    ([(97, 3), (98, 2), (99, 1)] : List (Byte × Int)) ≠ [] ∧
    ∃ h0 hk root rest,
      createAndBuildMinHeap [(97, 3), (98, 2), (99, 1)] = some h0 ∧
      h0.size = ([(97, 3), (98, 2), (99, 1)] : List (Byte × Int)).length ∧
      h0.capacity = ([(97, 3), (98, 2), (99, 1)] : List (Byte × Int)).length ∧
      h0.array.length = ([(97, 3), (98, 2), (99, 1)] : List (Byte × Int)).length ∧
      (∀ i, i + 1 < ([(97, 3), (98, 2), (99, 1)] : List (Byte × Int)).length →
        ∃ hi left h1 right h2 lf rf h3,
          mergeSteps i h0 = some hi ∧ isSizeOne hi = false ∧
          1 ≤ hi.size ∧ extractMin hi = some (left, h1) ∧
          1 ≤ h1.size ∧ extractMin h1 = some (right, h2) ∧
          frequencyOf left = some lf ∧ frequencyOf right = some rf ∧
          h2.size < h2.capacity ∧
          h2.capacity = ([(97, 3), (98, 2), (99, 1)] : List (Byte × Int)).length ∧
          h2.array.length = ([(97, 3), (98, 2), (99, 1)] : List (Byte × Int)).length ∧
          insertMinHeap h2 (HuffmanNode.node 0 (wrapInt32 (lf + rf)) left right) = some h3 ∧
          mergeSteps (i + 1) h0 = some h3) ∧
      mergeSteps (([(97, 3), (98, 2), (99, 1)] : List (Byte × Int)).length - 1) h0
        = some hk ∧ isSizeOne hk = true ∧
      mergeLoop (h0.size + 1) h0 = some hk ∧
      extractMin hk = some (root, rest) ∧ rest.size = 0 ∧
      buildHuffmanTree [(97, 3), (98, 2), (99, 1)] = some root :=
  ⟨by simp, C20_tree_building_terminates_safely _ (by simp)⟩

end Huffman
